import Mathlib

/-!
# xv6 physical page allocators

A shallow embedding of the two `kalloc.c` variants of the repository:

* `xv6-2020-Multithreading/kernel/kalloc.c`: one free list, plus the
  copy-on-write reference table `page_ref_table`;
* `xv6-2020-locks/kernel/kalloc.c`: one free list per CPU with stealing.

Physical memory is modelled per page frame.  The free list is intrusive: the
first eight bytes of a free frame hold the `next` pointer.  The state keeps,
for every frame address, that link word (`next`) and the remaining bytes of
the frame (`bytes`), so `memset` and the stores through `page->next` are the
only writers of either.  Pointers are natural numbers, `0` is the null
pointer.  A result of type `Option` is `none` when the kernel calls `panic`
(or, for a loop run on fuel, when the fuel is exhausted).
-/

/-- Modelled from the spec: the frame size `PGSIZE` of the absent `riscv.h`
("fixed size, e.g. 4096 bytes"); `kalloc.c` itself says "Allocates whole
4096-byte pages" and indexes the reference table with `>> 12`. -/
def PGSIZE : Nat := 4096

/-- Modelled from the spec: the macro `PGROUNDUP` of the absent `riscv.h`,
"rounds the base up to frame alignment". -/
def PGROUNDUP (sz : Nat) : Nat := (sz + PGSIZE - 1) / PGSIZE * PGSIZE

/-- The constants of the absent `memlayout.h` and the linker symbol `end`
(the first address after the kernel image), taken as parameters. -/
structure Layout where
  KERNBASE : Nat
  PHYSTOP : Nat
  kernel_end : Nat

/-- The byte `c` repeated over the eight bytes of a link word, as `memset`
leaves it. -/
def junk_word (c : Nat) : Nat := c * 0x0101010101010101

namespace Multithreading

/-- The allocator state of the Multithreading variant: `page_ref_table[i].ref_count`
(a `uint8`), `kmem.freelist`, and the frames' memory. -/
structure KMem where
  ref_count : Nat → Nat
  freelist : Nat
  next : Nat → Nat
  bytes : Nat → Nat → Nat

/-- The index `(pa - KERNBASE) >> 12` of a frame in `page_ref_table`. -/
def page_index (L : Layout) (pa : Nat) : Nat := (pa - L.KERNBASE) >>> 12

/-- The call `memset(pa, c, PGSIZE)` on a frame. -/
def memset (s : KMem) (pa c : Nat) : KMem :=
  { s with next := Function.update s.next pa (junk_word c),
           bytes := Function.update s.bytes pa (fun _ => c) }

/-- The function `inc_ref_count`: frames below `KERNBASE` are not tracked; the
counter is a `uint8`. -/
def inc_ref_count (L : Layout) (s : KMem) (pa : Nat) : KMem :=
  if pa < L.KERNBASE then s
  else
    let count := (s.ref_count (page_index L pa) + 1) % 256
    { s with ref_count := Function.update s.ref_count (page_index L pa) count }

/-- The function `dec_ref_count`: returns the new state and `remaining_refs`. -/
def dec_ref_count (L : Layout) (s : KMem) (pa : Nat) : KMem × Nat :=
  if pa < L.KERNBASE then (s, 0)
  else
    let remaining_refs := (s.ref_count (page_index L pa) + 255) % 256
    ({ s with ref_count := Function.update s.ref_count (page_index L pa) remaining_refs },
      remaining_refs)

/-- The function `kfree`; `none` is `panic("kfree")`. -/
def kfree (L : Layout) (s : KMem) (pa : Nat) : Option KMem :=
  if pa % PGSIZE ≠ 0 ∨ pa < L.kernel_end ∨ pa ≥ L.PHYSTOP then none
  else
    let r := dec_ref_count L s pa
    if r.2 ≠ 0 then some r.1
    else
      let s1 := memset r.1 pa 1
      some { s1 with next := Function.update s1.next pa s1.freelist, freelist := pa }

/-- The function `kalloc`: returns the new state and the frame (`0` for none). -/
def kalloc (L : Layout) (s : KMem) : KMem × Nat :=
  let page := s.freelist
  let s1 := if page ≠ 0 then { s with freelist := s.next page } else s
  let s2 := inc_ref_count L s1 page
  let s3 := if page ≠ 0 then memset s2 page 5 else s2
  (s3, page)

/-- The loop of `freerange`, run on fuel: `none` when `kfree` panics or the
fuel runs out before the loop condition fails. -/
def freerange_loop (L : Layout) (pa_end : Nat) : Nat → Nat → KMem → Option KMem
  | 0, p, s => if p + PGSIZE ≤ pa_end then none else some s
  | fuel + 1, p, s =>
    if p + PGSIZE ≤ pa_end then
      match kfree L (inc_ref_count L s p) p with
      | none => none
      | some s1 => freerange_loop L pa_end fuel (p + PGSIZE) s1
    else some s

/-- The function `freerange`; the fuel handed to the loop is the number of
bytes of the range, more than the number of iterations. -/
def freerange (L : Layout) (s : KMem) (pa_start pa_end : Nat) : Option KMem :=
  freerange_loop L pa_end (pa_end - pa_start) (PGROUNDUP pa_start) s

/-- The function `kinit`. -/
def kinit (L : Layout) (s : KMem) : Option KMem :=
  freerange L s L.kernel_end L.PHYSTOP

/-- The state at boot: the globals `page_ref_table` and `kmem` are zero-initialised. -/
def boot (mem_next : Nat → Nat) (mem_bytes : Nat → Nat → Nat) : KMem :=
  { ref_count := fun _ => 0, freelist := 0, next := mem_next, bytes := mem_bytes }

end Multithreading

/-- The intrusive list starting at pointer `head` is exactly the frames `xs`,
in order, and ends with the null pointer. -/
def IsFreeList (next : Nat → Nat) : Nat → List Nat → Prop
  | head, [] => head = 0
  | head, p :: xs => head = p ∧ p ≠ 0 ∧ IsFreeList next (next p) xs

instance decIsFreeList (next : Nat → Nat) :
    (head : Nat) → (xs : List Nat) → Decidable (IsFreeList next head xs)
  | head, [] => inferInstanceAs (Decidable (head = 0))
  | head, p :: xs =>
    have := decIsFreeList next (next p) xs
    inferInstanceAs (Decidable (head = p ∧ p ≠ 0 ∧ IsFreeList next (next p) xs))

/-- Frame `q` is reached from pointer `head` by following `next` links
through non-null nodes: `q` is linked into the list that starts at `head`. -/
inductive OnList (next : Nat → Nat) : Nat → Nat → Prop
  | here {head : Nat} : head ≠ 0 → OnList next head head
  | later {head q : Nat} : head ≠ 0 → OnList next (next head) q → OnList next head q

namespace Multithreading

/-- The reference count of the frame at `pa`. -/
def ref_of (L : Layout) (s : KMem) (pa : Nat) : Nat := s.ref_count (page_index L pa)

/-- A call of the allocator interface. -/
inductive Call where
  | kalloc : Call
  | kfree (pa : Nat) : Call

/-- One call on the allocator state paired with the frames handed out by
`kalloc` and not passed to `kfree` since (the outstanding frames). -/
def step (L : Layout) (st : KMem × List Nat) : Call → Option (KMem × List Nat)
  | Call.kalloc =>
    let r := kalloc L st.1
    some (r.1, if r.2 = 0 then st.2 else r.2 :: st.2)
  | Call.kfree pa =>
    match kfree L st.1 pa with
    | none => none
    | some s1 => some (s1, st.2.filter (fun q => decide (q ≠ pa)))

/-- A sequence of calls; `none` as soon as one of them panics. -/
def run (L : Layout) : KMem × List Nat → List Call → Option (KMem × List Nat)
  | st, [] => some st
  | st, c :: cs =>
    match step L st c with
    | none => none
    | some st1 => run L st1 cs

/-- A sequence of calls issued after `kinit` on the boot state. -/
def run_after_kinit (L : Layout) (mem_next : Nat → Nat) (mem_bytes : Nat → Nat → Nat)
    (calls : List Call) : Option (KMem × List Nat) :=
  match kinit L (boot mem_next mem_bytes) with
  | none => none
  | some s0 => run L (s0, []) calls

/-- No call of the sequence is a `kfree` of a frame whose reference count is
`0` when the call is made. -/
def releases_live (L : Layout) : KMem × List Nat → List Call → Bool
  | _, [] => true
  | st, c :: cs =>
    (match c with
      | Call.kalloc => true
      | Call.kfree pa => decide (ref_of L st.1 pa ≠ 0)) &&
    (match step L st c with
      | none => true
      | some st1 => releases_live L st1 cs)

/-- The same condition for a sequence issued after `kinit` on the boot state. -/
def releases_live_after_kinit (L : Layout) (mem_next : Nat → Nat)
    (mem_bytes : Nat → Nat → Nat) (calls : List Call) : Bool :=
  match kinit L (boot mem_next mem_bytes) with
  | none => true
  | some s0 => releases_live L (s0, []) calls

/-- A call on the reference table. -/
inductive RefCall where
  | inc : RefCall
  | dec : RefCall
  deriving DecidableEq

/-- One `inc_ref_count` or `dec_ref_count` call on frame `pa`. -/
def ref_step (L : Layout) (pa : Nat) (s : KMem) : RefCall → KMem
  | RefCall.inc => inc_ref_count L s pa
  | RefCall.dec => (dec_ref_count L s pa).1

/-- A sequence of reference-table calls on frame `pa`. -/
def ref_run (L : Layout) (pa : Nat) (s : KMem) (calls : List RefCall) : KMem :=
  calls.foldl (ref_step L pa) s

/-- A layout with three managed frames, `0x80001000`, `0x80002000` and
`0x80003000`. -/
def demo_layout : Layout :=
  { KERNBASE := 0x80000000, PHYSTOP := 0x80004000, kernel_end := 0x80000a10 }

/-- The boot state over zeroed memory. -/
def demo_boot : KMem := boot (fun _ => 0) (fun _ _ => 0)

/-- The state `kinit` leaves on the demo layout: the free list is
`0x80003000, 0x80002000, 0x80001000` and every reference count is `0`. -/
def demo_state : KMem := (kinit demo_layout demo_boot).getD demo_boot

/-- A run after `kinit` that allocates two frames, releases the first and
allocates again. -/
def demo_calls : List Call :=
  [Call.kalloc, Call.kalloc, Call.kfree 0x80003000, Call.kalloc]

/-- A frame is managed by the allocator: page-aligned and inside
`[end, PHYSTOP)`, the addresses `kfree` accepts. -/
def Managed (L : Layout) (pa : Nat) : Prop :=
  pa % PGSIZE = 0 ∧ L.kernel_end ≤ pa ∧ pa < L.PHYSTOP

/-- The invariant of well-behaved runs: the free list is a proper list of
managed frames with count `0`, managed frames have count at most `1`, and the
outstanding frames are managed frames with count `1`. -/
def Inv (L : Layout) (st : KMem × List Nat) : Prop :=
  ∃ xs, IsFreeList st.1.next st.1.freelist xs ∧
    (∀ p ∈ xs, Managed L p ∧ ref_of L st.1 p = 0) ∧
    (∀ p, Managed L p → ref_of L st.1 p ≤ 1) ∧
    (∀ p ∈ st.2, Managed L p ∧ ref_of L st.1 p = 1)

end Multithreading

namespace Locks

/-- The allocator state of the locks variant: `cpu_allocators[i].freelist`
and the frames' memory. -/
structure KMem where
  freelist : Nat → Nat
  next : Nat → Nat
  bytes : Nat → Nat → Nat

/-- The call `memset(pa, c, PGSIZE)` on a frame. -/
def memset (s : KMem) (pa c : Nat) : KMem :=
  { s with next := Function.update s.next pa (junk_word c),
           bytes := Function.update s.bytes pa (fun _ => c) }

/-- The function `kfree` run on CPU `cpu` (the value of `cpuid()`); `none` is
`panic("kfree")`. -/
def kfree (L : Layout) (s : KMem) (cpu pa : Nat) : Option KMem :=
  if pa % PGSIZE ≠ 0 ∨ pa < L.kernel_end ∨ pa ≥ L.PHYSTOP then none
  else
    let s1 := memset s pa 1
    some { s1 with next := Function.update s1.next pa (s1.freelist cpu),
                   freelist := Function.update s1.freelist cpu pa }

/-- The slow/fast pointer loop of `steal_pages_from_other_cpu`, run on fuel;
returns the final `slow_ptr`, `none` when the fuel runs out. -/
def midpoint_walk (next : Nat → Nat) : Nat → Nat → Nat → Option Nat
  | 0, slow_ptr, fast_ptr => if fast_ptr = 0 then some slow_ptr else none
  | fuel + 1, slow_ptr, fast_ptr =>
    if fast_ptr = 0 then some slow_ptr
    else
      let fast1 := next fast_ptr
      if fast1 ≠ 0 then midpoint_walk next fuel (next slow_ptr) (next fast1)
      else midpoint_walk next fuel slow_ptr fast1

/-- The body of the scan loop for a target whose list is not empty: walk to
the midpoint, cut the target's list there, return the first half. -/
def steal_half (fuel : Nat) (s : KMem) (target_cpu_id : Nat) : Option (KMem × Nat) :=
  let stolen_list_head := s.freelist target_cpu_id
  match midpoint_walk s.next fuel stolen_list_head (s.next stolen_list_head) with
  | none => none
  | some slow_ptr =>
    let s1 := { s with freelist := Function.update s.freelist target_cpu_id (s.next slow_ptr) }
    some ({ s1 with next := Function.update s1.next slow_ptr 0 }, stolen_list_head)

/-- The scan loop of `steal_pages_from_other_cpu` with `n` iterations left
and `target_cpu_id` the CPU looked at last. -/
def steal_scan (NCPU fuel : Nat) (s : KMem) : Nat → Nat → Option (KMem × Nat)
  | 0, _ => some (s, 0)
  | n + 1, target_cpu_id =>
    let target := if target_cpu_id + 1 = NCPU then 0 else target_cpu_id + 1
    if s.freelist target ≠ 0 then steal_half fuel s target
    else steal_scan NCPU fuel s n target

/-- The function `steal_pages_from_other_cpu`; `NCPU` is the constant of the
absent `param.h`, `fuel` bounds the midpoint walk. -/
def steal_pages_from_other_cpu (NCPU fuel : Nat) (s : KMem) (current_cpu_id : Nat) :
    Option (KMem × Nat) :=
  steal_scan NCPU fuel s (NCPU - 1) current_cpu_id

/-- The function `kalloc` run on CPU `cpu`: the new state and the frame
(`0` for none); `none` when the midpoint walk does not end within `fuel`. -/
def kalloc (NCPU fuel : Nat) (s : KMem) (cpu : Nat) : Option (KMem × Nat) :=
  let allocated_page := s.freelist cpu
  if allocated_page ≠ 0 then
    let s1 := { s with freelist := Function.update s.freelist cpu (s.next allocated_page) }
    some (memset s1 allocated_page 5, allocated_page)
  else
    match steal_pages_from_other_cpu NCPU fuel s cpu with
    | none => none
    | some (s1, stolen) =>
      if stolen ≠ 0 then
        let s2 := { s1 with freelist := Function.update s1.freelist cpu (s1.next stolen) }
        some (memset s2 stolen 5, stolen)
      else some (s1, 0)

/-- The state `s` with the list head of CPU `cpu` replaced by `head`. -/
def with_head (s : KMem) (cpu head : Nat) : KMem :=
  { s with freelist := Function.update s.freelist cpu head }

/-- A layout with five managed frames, `0x80001000` to `0x80005000`. -/
def demo_layout : Layout :=
  { KERNBASE := 0x80000000, PHYSTOP := 0x80006000, kernel_end := 0x80000a10 }

/-- A state of four CPUs: CPU 1 holds the frames `0x80001000, 0x80002000,
0x80003000`, CPU 2 holds `0x80004000`, CPUs 0 and 3 hold nothing, and frame
`0x80005000` is allocated. -/
def demo_state : KMem :=
  { freelist := fun i => if i = 1 then 0x80001000 else if i = 2 then 0x80004000 else 0,
    next := fun p =>
      if p = 0x80001000 then 0x80002000 else if p = 0x80002000 then 0x80003000 else 0,
    bytes := fun _ _ => 1 }

/-- The free lists of `demo_state`, per CPU. -/
def demo_lists (i : Nat) : List Nat :=
  if i = 1 then [0x80001000, 0x80002000, 0x80003000] else if i = 2 then [0x80004000] else []

end Locks

/-! ## Memory-mapped files (`xv6-2020-mmap`) -/

/-- Modelled from the spec: the macro `PGROUNDDOWN` of the absent `riscv.h`
("rounded down to frame boundary"). -/
def PGROUNDDOWN (a : Nat) : Nat := a / PGSIZE * PGSIZE

/-- The constant `BSIZE` of `fs.h`. -/
def BSIZE : Nat := 1024

namespace Mmap

/-!
## Memory-mapped files (`xv6-2020-mmap`)

The embedding of `sys_mmap` and `sys_munmap` (`sysfile.c`) and of the
page-fault branch of `usertrap` (`trap.c`).  Values of type `uint64` are
natural numbers below `2 ^ 64`, values of type `int` are integers (32-bit in
C), and flag words are kept as their bit patterns.  Arithmetic that C performs
in `uint64` is reduced with `wrap64`.  Calls to the collaborators that are not
part of these files are recorded, in order, in the `log` of the state; their
results come from the page table kept in the state or from an environment
record.
-/

/-- The value of an integer expression once converted to `uint64`. -/
def wrap64 (i : Int) : Nat := (i % 2 ^ 64).toNat

/-- The value `-1` returned as `uint64`. -/
def ERR : Nat := 2 ^ 64 - 1

/-- The range of the C type `int`. -/
def IsInt32 (i : Int) : Prop := -2 ^ 31 ≤ i ∧ i < 2 ^ 31

instance decIsInt32 (i : Int) : Decidable (IsInt32 i) :=
  inferInstanceAs (Decidable (-2 ^ 31 ≤ i ∧ i < 2 ^ 31))

/-- The value an `int` field holds after an integer is stored in it: the
integer itself when it is in the range of `int`, and otherwise its reduction
modulo `2 ^ 32` into `[-2 ^ 31, 2 ^ 31)`, which is what the 32-bit store of the
RISC-V build leaves (C itself leaves an overflowing `int` sum undefined). -/
def to_int32 (i : Int) : Int := (i + 2 ^ 31) % 2 ^ 32 - 2 ^ 31

/-- The constants of the absent headers (`memlayout.h`, `param.h`, `fcntl.h`,
`riscv.h`), taken as parameters. -/
structure Consts where
  MMAPMINADDR : Nat
  TRAPFRAME : Nat
  MAXOPBLOCKS : Nat
  PROT_READ : Nat
  PROT_WRITE : Nat
  PROT_EXEC : Nat
  MAP_SHARED : Nat
  MAP_PRIVATE : Nat
  PTE_R : Nat
  PTE_W : Nat
  PTE_X : Nat
  PTE_U : Nat
  PTE_D : Nat

/-- The struct `virtual_memory_area` of `proc.h`. -/
structure virtual_memory_area where
  start_address : Nat
  length : Int
  protection_flags : Nat
  mapping_flags : Nat
  file_offset : Int
  mapped_file : Nat
  is_valid : Int
  deriving DecidableEq

/-- A cleared slot: every field `0`. -/
def zero_vma : virtual_memory_area :=
  { start_address := 0, length := 0, protection_flags := 0, mapping_flags := 0,
    file_offset := 0, mapped_file := 0, is_valid := 0 }

/-- A call to a collaborator, with its arguments. -/
inductive Event where
  | filedup (f : Nat)
  | fileclose (f : Nat)
  | begin_op
  | end_op
  | ilock (ip : Nat)
  | iunlock (ip : Nat)
  | writei (ip user_src src off n : Nat)
  | readi (ip user_dst dst off n : Nat)
  | uvmunmap (va npages do_free : Nat)
  | kalloc
  | kfree (pa : Nat)
  | memset (dst c n : Nat)
  | mappages (va size pa perm : Nat)
  | uvmsetdirtywrite (va : Nat)
  deriving DecidableEq

/-- The state the three functions read and write: the VMA array and the open
files of the current process, the fields `ref`, `writable` and `ip` of each
`struct file` (keyed by its address), the user page table (page address to
frame and flags), the flag `killed`, and the log of collaborator calls. -/
structure State where
  vma : List virtual_memory_area
  ofile : List Nat
  file_ref : Nat → Int
  file_writable : Nat → Nat
  file_ip : Nat → Nat
  pagetable : Nat → Option (Nat × Nat)
  killed : Int
  log : List Event

/-- The results of the file-system and allocator calls of one system call or
fault: `writei` and `readi` as functions of `(ip, address, off, n)`, the frame
`kalloc` returns, and the result of `mappages` for `(va, pa, perm)`. -/
structure Env where
  writei : Nat → Nat → Nat → Nat → Int
  readi : Nat → Nat → Nat → Nat → Int
  kalloc : Nat
  mappages : Nat → Nat → Nat → Int

/-- The state with one more logged call. -/
def record (s : State) (e : Event) : State := { s with log := s.log ++ [e] }

/-- The function `argfd` of `sysfile.c` for the file pointer: `none` is the
return value `-1`; `NOFILE` is the length of `ofile`. -/
def argfd (s : State) (fd : Int) : Option Nat :=
  if fd < 0 ∨ fd ≥ s.ofile.length ∨ s.ofile.getD fd.toNat 0 = 0 then none
  else some (s.ofile.getD fd.toNat 0)

/-- Modelled from the spec: `filedup` of the absent `file.c` ("the backing
file's reference count is incremented"). -/
def filedup (s : State) (f : Nat) : State :=
  record { s with file_ref := Function.update s.file_ref f (s.file_ref f + 1) }
    (Event.filedup f)

/-- Modelled from the spec: `fileclose` of the absent `file.c` ("releases the
file reference", "the file's reference count decreases by 1"). -/
def fileclose (s : State) (f : Nat) : State :=
  record { s with file_ref := Function.update s.file_ref f (s.file_ref f - 1) }
    (Event.fileclose f)

/-- Modelled from the spec: `walkaddr` of the absent `vm.c`
("isPresent(table, virtualAddr)"): the frame mapped at `va`, `0` if none. -/
def walkaddr (s : State) (va : Nat) : Nat :=
  match s.pagetable va with
  | some e => e.1
  | none => 0

/-- Modelled from the spec: `uvmgetdirty` of the absent `vm.c` (a page "that
has been written (dirty)"): non-zero when the page is mapped with `PTE_D`. -/
def uvmgetdirty (C : Consts) (s : State) (va : Nat) : Nat :=
  match s.pagetable va with
  | some e => if e.2 &&& C.PTE_D ≠ 0 then 1 else 0
  | none => 0

/-- Modelled from the spec: `uvmsetdirtywrite` of the absent `vm.c`
("markDirtyWritable(table, virtualAddr) -> success|error"): marks an existing
mapping writable and dirty and returns `0`; returns `-1` when none exists. -/
def uvmsetdirtywrite (C : Consts) (s : State) (va : Nat) : State × Int :=
  match s.pagetable va with
  | some e =>
    (record { s with pagetable :=
        Function.update s.pagetable va (some (e.1, e.2 ||| (C.PTE_W ||| C.PTE_D))) }
      (Event.uvmsetdirtywrite va), 0)
  | none => (record s (Event.uvmsetdirtywrite va), -1)

/-- Modelled from the spec: `uvmunmap` of the absent `vm.c`
("unmap(table, virtualAddr, pageCount, freeFrames)"): removes the mappings of
`npages` pages from `va` on. -/
def uvmunmap (s : State) (va npages do_free : Nat) : State :=
  record { s with pagetable := fun a =>
      if va ≤ a ∧ a < va + npages * PGSIZE then none else s.pagetable a }
    (Event.uvmunmap va npages do_free)

/-- The loops `for (vma_index = 0; vma_index < NVMA; ++vma_index)` that stop
at the first slot satisfying a test: the index found, `none` when the loop
ends without `break`.  `NVMA` is the length of the array. -/
def first_index (test : virtual_memory_area → Bool) :
    List virtual_memory_area → Option Nat
  | [] => none
  | r :: rs => if test r then some 0 else (first_index test rs).map (fun i => i + 1)

/-- The body of the second loop of `sys_mmap` for one slot. -/
def scan_step (address : Nat) (r : virtual_memory_area) : Nat :=
  if r.is_valid ≠ 0 then
    let end_addr := wrap64 (r.start_address + r.length)
    if end_addr > address then end_addr else address
  else address

/-- The second loop of `sys_mmap`: the highest end address of a valid region,
starting from `MMAPMINADDR`. -/
def mmap_scan (C : Consts) (vma : List virtual_memory_area) : Nat :=
  vma.foldl scan_step C.MMAPMINADDR

/-- The address `sys_mmap` chooses: the result of the scan, rounded up to a
page boundary in `uint64`. -/
def mmap_address (C : Consts) (vma : List virtual_memory_area) : Nat :=
  PGROUNDUP (mmap_scan C vma) % 2 ^ 64

/-- The function `sys_mmap`, on the arguments fetched by `argint` and the file
descriptor given to `argfd`; the address argument is not used. -/
def sys_mmap (C : Consts) (s : State) (length : Int) (protection_flags mapping_flags : Nat)
    (fd : Int) (file_offset : Int) : State × Nat :=
  match argfd s fd with
  | none => (s, ERR)
  | some mapped_file =>
    if mapping_flags ≠ C.MAP_SHARED ∧ mapping_flags ≠ C.MAP_PRIVATE then (s, ERR)
    else if mapping_flags = C.MAP_SHARED ∧ s.file_writable mapped_file = 0 ∧
        protection_flags &&& C.PROT_WRITE ≠ 0 then (s, ERR)
    else if length < 0 ∨ file_offset < 0 ∨ file_offset % (PGSIZE : Int) ≠ 0 then (s, ERR)
    else
      match first_index (fun r => r.is_valid == 0) s.vma with
      | none => (s, ERR)
      | some vma_index =>
        let address : Nat := mmap_address C s.vma
        if wrap64 ((address : Int) + length) > C.TRAPFRAME then (s, ERR)
        else
          let vma : virtual_memory_area :=
            { start_address := address, length := length,
              protection_flags := protection_flags, mapping_flags := mapping_flags,
              file_offset := file_offset, mapped_file := mapped_file, is_valid := 1 }
          (filedup { s with vma := s.vma.set vma_index vma } mapped_file, address)

/-- The test of the search loop of `sys_munmap`, in `uint64` arithmetic. -/
def covers (unmap_address : Nat) (unmap_length : Int) (r : virtual_memory_area) : Bool :=
  r.is_valid != 0 && decide (unmap_address ≥ r.start_address) &&
    decide (wrap64 (unmap_address + unmap_length) ≤ wrap64 (r.start_address + r.length))

/-- The value of `max_write_size`, a `uint`. -/
def max_write_size (C : Consts) : Nat :=
  ((((C.MAXOPBLOCKS : Int) - 1 - 1 - 2).tdiv 2 * (BSIZE : Int)) % 2 ^ 32).toNat

/-- The inner loop of the write-back, from `offset` on, run on fuel: the
state and whether every `writei` returned the requested count; `none` when the
fuel runs out before the loop ends. -/
def write_chunks (env : Env) (r : virtual_memory_area) (ip virtual_address max_size
    write_bytes : Nat) : Nat → Nat → State → Option (State × Bool)
  | 0, offset, s => if offset < write_bytes then none else some (s, true)
  | fuel + 1, offset, s =>
    if offset < write_bytes then
      let current_write_bytes := min max_size (write_bytes - offset)
      let file_offset :=
        wrap64 ((virtual_address : Int) - r.start_address + r.file_offset + offset)
      let s1 := record (record (record s Event.begin_op) (Event.ilock ip))
        (Event.writei ip 1 (virtual_address + offset) file_offset current_write_bytes)
      let s2 := record (record s1 (Event.iunlock ip)) Event.end_op
      if env.writei ip (virtual_address + offset) file_offset current_write_bytes
          ≠ current_write_bytes then some (s2, false)
      else write_chunks env r ip virtual_address max_size write_bytes fuel
        (offset + current_write_bytes) s2
    else some (s, true)

/-- The outer loop of the write-back, from `virtual_address` on, run on fuel;
`unmap_end` is `unmap_address + unmap_length` as `uint64`. -/
def write_back (C : Consts) (env : Env) (r : virtual_memory_area) (unmap_end : Nat) :
    Nat → Nat → State → Option (State × Bool)
  | 0, virtual_address, s => if virtual_address < unmap_end then none else some (s, true)
  | fuel + 1, virtual_address, s =>
    if virtual_address < unmap_end then
      if uvmgetdirty C s virtual_address = 0 then
        write_back C env r unmap_end fuel ((virtual_address + PGSIZE) % 2 ^ 64) s
      else
        let write_bytes := min PGSIZE (wrap64 ((unmap_end : Int) - virtual_address))
        match write_chunks env r (s.file_ip r.mapped_file) virtual_address
            (max_write_size C) write_bytes PGSIZE 0 s with
        | none => none
        | some (s1, false) => some (s1, false)
        | some (s1, true) =>
          write_back C env r unmap_end fuel ((virtual_address + PGSIZE) % 2 ^ 64) s1
    else some (s, true)

/-- How a call of `sys_munmap` ends: it returns a value, or the kernel calls
`panic`; either way with the state reached. -/
inductive Outcome where
  | returned (s : State) (value : Nat)
  | panicked (s : State)

/-- The write-back of `sys_munmap` (the block under `mapping_flags &
MAP_SHARED`): the state and whether every `writei` returned the requested
count; `none` when a loop does not end within its fuel (one iteration per
byte of the range, and per byte of a page). -/
def write_back_phase (C : Consts) (env : Env) (s : State) (target_vma : virtual_memory_area)
    (unmap_address : Nat) (unmap_length : Int) : Option (State × Bool) :=
  if target_vma.mapping_flags &&& C.MAP_SHARED ≠ 0 then
    write_back C env target_vma (wrap64 (unmap_address + unmap_length))
      unmap_length.toNat unmap_address s
  else some (s, true)

/-- The update of the VMA slot at the end of `sys_munmap`: the whole region,
a head, a tail, or `panic`.  In the head branch `file_offset += unmap_length`
is a sum of two `int`s stored in the `int` field `file_offset` (`proc.h`), so
the field holds `to_int32` of the sum. -/
def update_vma (s : State) (vma_index : Nat) (target_vma : virtual_memory_area)
    (unmap_address : Nat) (unmap_length : Int) : Outcome :=
  if unmap_address = target_vma.start_address ∧ unmap_length = target_vma.length then
    Outcome.returned
      (fileclose { s with vma := s.vma.set vma_index zero_vma } target_vma.mapped_file) 0
  else if unmap_address = target_vma.start_address then
    let trimmed := { target_vma with
      start_address := wrap64 (target_vma.start_address + unmap_length),
      file_offset := to_int32 (target_vma.file_offset + unmap_length),
      length := target_vma.length - unmap_length }
    Outcome.returned { s with vma := s.vma.set vma_index trimmed } 0
  else if wrap64 (unmap_address + unmap_length)
      = wrap64 (target_vma.start_address + target_vma.length) then
    let trimmed := { target_vma with length := target_vma.length - unmap_length }
    Outcome.returned { s with vma := s.vma.set vma_index trimmed } 0
  else Outcome.panicked s

/-- The function `sys_munmap`; `none` when a write-back loop does not end. -/
def sys_munmap (C : Consts) (env : Env) (s : State) (unmap_address : Nat)
    (unmap_length : Int) : Option Outcome :=
  if unmap_address % PGSIZE ≠ 0 ∨ unmap_length < 0 then some (Outcome.returned s ERR)
  else
    match first_index (covers unmap_address unmap_length) s.vma with
    | none => some (Outcome.returned s ERR)
    | some vma_index =>
      let target_vma := s.vma.getD vma_index zero_vma
      if unmap_length = 0 then some (Outcome.returned s 0)
      else
        match write_back_phase C env s target_vma unmap_address unmap_length with
        | none => none
        | some (s1, false) => some (Outcome.returned s1 ERR)
        | some (s1, true) =>
          let s2 := uvmunmap s1 unmap_address ((unmap_length - 1) / (PGSIZE : Int) + 1).toNat 1
          some (update_vma s2 vma_index target_vma unmap_address unmap_length)

/-- The label `err` of `usertrap`: the process is marked killed. -/
def err (s : State) : State := { s with killed := 1 }

/-- The test of the search loop of `usertrap`. -/
def holds (fault_virtual_address : Nat) (r : virtual_memory_area) : Bool :=
  r.is_valid != 0 && decide (fault_virtual_address ≥ r.start_address) &&
    decide (fault_virtual_address < wrap64 (r.start_address + r.length))

/-- The permission bits `page_flags` of the first-touch path. -/
def page_flags (C : Consts) (scause protection_flags : Nat) : Nat :=
  let f0 := C.PTE_U
  let f1 := if protection_flags &&& C.PROT_READ ≠ 0 then f0 ||| C.PTE_R else f0
  let f2 :=
    if scause = 15 ∧ protection_flags &&& C.PROT_WRITE ≠ 0 then f1 ||| (C.PTE_W ||| C.PTE_D)
    else f1
  if protection_flags &&& C.PROT_EXEC ≠ 0 then f2 ||| C.PTE_X else f2

/-- The branch of `usertrap` for `scause` 12, 13 or 15 (a page fault on
mapped-file memory), up to the test of `p->killed`; `stval` is the faulting
address. -/
def usertrap_page_fault (C : Consts) (env : Env) (s : State) (scause stval : Nat) : State :=
  let fault_virtual_address := PGROUNDDOWN stval
  match first_index (holds fault_virtual_address) s.vma with
  | none => err s
  | some vma_index =>
    let target_vma := s.vma.getD vma_index zero_vma
    if scause = 15 ∧ target_vma.protection_flags &&& C.PROT_WRITE ≠ 0 ∧
        walkaddr s fault_virtual_address ≠ 0 then
      let r := uvmsetdirtywrite C s fault_virtual_address
      if r.2 ≠ 0 then err r.1 else r.1
    else
      let s1 := record s Event.kalloc
      let physical_page := env.kalloc
      if physical_page = 0 then err s1
      else
        let ip := s.file_ip target_vma.mapped_file
        let file_offset := wrap64 ((fault_virtual_address : Int) - target_vma.start_address
          + target_vma.file_offset)
        let s2 := record (record (record s1 (Event.memset physical_page 0 PGSIZE))
          (Event.ilock ip)) (Event.readi ip 0 physical_page file_offset PGSIZE)
        if env.readi ip physical_page file_offset PGSIZE < 0 then
          err (record (record s2 (Event.iunlock ip)) (Event.kfree physical_page))
        else
          let s3 := record s2 (Event.iunlock ip)
          let perm := page_flags C scause target_vma.protection_flags
          let s4 := record s3 (Event.mappages fault_virtual_address PGSIZE physical_page perm)
          if env.mappages fault_virtual_address physical_page perm ≠ 0 then
            err (record s4 (Event.kfree physical_page))
          else
            { s4 with pagetable :=
                Function.update s4.pagetable fault_virtual_address (some (physical_page, perm)) }

end Mmap

namespace Mmap

/-- The constants of xv6 on RISC-V Sv39 (`TRAPFRAME = MAXVA - 2 * PGSIZE`),
with the mapping area starting sixteen pages below the trap frame. -/
def demo_consts : Consts :=
  { MMAPMINADDR := 0x3fffffe000 - 16 * 4096, TRAPFRAME := 0x3fffffe000, MAXOPBLOCKS := 10,
    PROT_READ := 1, PROT_WRITE := 2, PROT_EXEC := 4, MAP_SHARED := 1, MAP_PRIVATE := 2,
    PTE_R := 2, PTE_W := 4, PTE_X := 8, PTE_U := 16, PTE_D := 128 }

/-- A process with three empty VMA slots and two open files: descriptor 0 is
the read-only file at `0x1000`, descriptor 1 the writable file at `0x2000`. -/
def demo_state : State :=
  { vma := [zero_vma, zero_vma, zero_vma], ofile := [0x1000, 0x2000],
    file_ref := fun _ => 1, file_writable := fun f => if f = 0x2000 then 1 else 0,
    file_ip := fun f => f + 0x100, pagetable := fun _ => none, killed := 0, log := [] }

/-- An environment in which every collaborator call succeeds. -/
def demo_env : Env :=
  { writei := fun _ _ _ n => n, readi := fun _ _ _ n => n, kalloc := 0x87000000,
    mappages := fun _ _ _ => 0 }

end Mmap

namespace Mmap

/-- The addresses of the layout fit in 63 bits (on Sv39, `TRAPFRAME < 2 ^ 38`). -/
def Fits (C : Consts) : Prop := C.MMAPMINADDR < 2 ^ 63 ∧ C.TRAPFRAME < 2 ^ 63

/-- A valid region has a non-negative length, starts at or above
`MMAPMINADDR` and ends at or below `TRAPFRAME`. -/
def RegionOk (C : Consts) (r : virtual_memory_area) : Prop :=
  r.is_valid ≠ 0 →
    0 ≤ r.length ∧ C.MMAPMINADDR ≤ r.start_address ∧
      (r.start_address : Int) + r.length ≤ C.TRAPFRAME

/-- An invalid slot has every field cleared. -/
def Cleared (r : virtual_memory_area) : Prop := r.is_valid = 0 → r = zero_vma

/-- Two slots do not both hold valid regions, or one region ends where the
other starts or before. -/
def Apart (a b : virtual_memory_area) : Prop :=
  a.is_valid = 0 ∨ b.is_valid = 0 ∨
    (a.start_address : Int) + a.length ≤ b.start_address ∨
    (b.start_address : Int) + b.length ≤ a.start_address

/-- The invariant of the VMA table. -/
def TableOk (C : Consts) (vma : List virtual_memory_area) : Prop :=
  (∀ r ∈ vma, RegionOk C r ∧ Cleared r) ∧ vma.Pairwise Apart

/-- No two valid regions of the table have intersecting ranges
`[start_address, start_address + length)`. -/
def NoOverlap (vma : List virtual_memory_area) : Prop :=
  ∀ (i j : Nat) (ri rj : virtual_memory_area), i ≠ j → vma[i]? = some ri → vma[j]? = some rj →
    ri.is_valid ≠ 0 → rj.is_valid ≠ 0 →
    ∀ a : Int, ¬ ((ri.start_address : Int) ≤ a ∧ a < ri.start_address + ri.length ∧
      (rj.start_address : Int) ≤ a ∧ a < rj.start_address + rj.length)

/-- A system call on the mapping table, with its arguments (and, for
`sys_munmap`, the results of the file-system calls it makes). -/
inductive Call where
  | mmap (length : Int) (protection_flags mapping_flags : Nat) (fd : Int) (file_offset : Int)
  | munmap (env : Env) (unmap_address : Nat) (unmap_length : Int)

/-- The arguments are values of their C types: `int` and `uint64`. -/
def Call.typed : Call → Prop
  | Call.mmap length _ _ fd file_offset => IsInt32 length ∧ IsInt32 fd ∧ IsInt32 file_offset
  | Call.munmap _ unmap_address unmap_length => unmap_address < 2 ^ 64 ∧ IsInt32 unmap_length

/-- One call that returns: the state afterwards; `none` when the call panics
or does not end. -/
def step (C : Consts) (s : State) : Call → Option State
  | Call.mmap length protection_flags mapping_flags fd file_offset =>
    some (sys_mmap C s length protection_flags mapping_flags fd file_offset).1
  | Call.munmap env unmap_address unmap_length =>
    match sys_munmap C env s unmap_address unmap_length with
    | some (Outcome.returned s1 _) => some s1
    | _ => none

/-- A sequence of calls that all return. -/
def run (C : Consts) : State → List Call → Option State
  | s, [] => some s
  | s, c :: cs =>
    match step C s c with
    | none => none
    | some s1 => run C s1 cs

end Mmap

namespace Mmap

instance decFits (C : Consts) : Decidable (Fits C) := by
  unfold Fits; infer_instance

instance decRegionOk (C : Consts) (r : virtual_memory_area) : Decidable (RegionOk C r) := by
  unfold RegionOk; infer_instance

instance decCleared (r : virtual_memory_area) : Decidable (Cleared r) := by
  unfold Cleared; infer_instance

instance decApart (a b : virtual_memory_area) : Decidable (Apart a b) := by
  unfold Apart; infer_instance

instance decTableOk (C : Consts) (vma : List virtual_memory_area) :
    Decidable (TableOk C vma) := by
  unfold TableOk; infer_instance

/-- The demo process after `mmap` of two pages of the writable file, shared,
readable and writable: slot 0 holds the region at `0x3ffffee000`. -/
def demo_mapped : State := (sys_mmap demo_consts demo_state 8192 3 1 1 0).1

end Mmap

namespace Mmap

/-- State `s1` is state `s` with more collaborator calls logged and nothing
else changed. -/
def LogExtends (s s1 : State) : Prop := ∃ new, s1 = { s with log := s.log ++ new }

end Mmap

namespace Mmap

instance decTyped : (c : Call) → Decidable c.typed
  | Call.mmap length _ _ fd file_offset =>
    inferInstanceAs (Decidable (IsInt32 length ∧ IsInt32 fd ∧ IsInt32 file_offset))
  | Call.munmap _ unmap_address unmap_length =>
    inferInstanceAs (Decidable (unmap_address < 2 ^ 64 ∧ IsInt32 unmap_length))

/-- A run on the demo process: two `mmap` calls, then `munmap` of the first
page of the first region. -/
def demo_calls : List Call :=
  [Call.mmap 8192 3 1 1 0, Call.mmap 4096 1 2 0 4096, Call.munmap demo_env 0x3ffffee000 4096]

/-- The state the demo run ends in. -/
def demo_final : State := (run demo_consts demo_state demo_calls).getD demo_state

end Mmap

namespace Mmap

/-- The call ended by returning the value `v`. -/
def returns (o : Option Outcome) (v : Nat) : Bool :=
  match o with
  | some (Outcome.returned _ w) => decide (w = v)
  | _ => false

end Mmap

namespace Mmap

/-- The demo process after `mmap` of three pages of the writable file, shared,
and a store to the second page: the page at `0x3ffffef000` is mapped and dirty. -/
def demo_dirty : State :=
  usertrap_page_fault demo_consts demo_env (sys_mmap demo_consts demo_state 12288 3 1 1 0).1 15
    0x3ffffef008

/-- An environment in which every `writei` fails. -/
def failing_env : Env := { demo_env with writei := fun _ _ _ _ => -1 }

end Mmap

namespace Mmap

end Mmap

namespace Mmap

/-- The permission bits of a first-touch mapping in the words of the
specification: `PTE_U`, plus `PTE_R` iff the region has `PROT_READ`, plus
`PTE_W` and `PTE_D` iff the cause is a store fault (15) and the region has
`PROT_WRITE`, plus `PTE_X` iff the region has `PROT_EXEC`. -/
def spec_page_flags (C : Consts) (scause protection_flags : Nat) : Nat :=
  C.PTE_U ||| (if protection_flags &&& C.PROT_READ ≠ 0 then C.PTE_R else 0)
    ||| (if scause = 15 ∧ protection_flags &&& C.PROT_WRITE ≠ 0 then C.PTE_W ||| C.PTE_D else 0)
    ||| (if protection_flags &&& C.PROT_EXEC ≠ 0 then C.PTE_X else 0)

/-- The five page-table bits used by the fault handler are non-zero and no two
of them share a bit (on RISC-V they are five different single bits). -/
def PteBitsApart (C : Consts) : Prop :=
  (∀ a ∈ [C.PTE_U, C.PTE_R, C.PTE_W, C.PTE_X, C.PTE_D], a ≠ 0) ∧
    [C.PTE_U, C.PTE_R, C.PTE_W, C.PTE_X, C.PTE_D].Pairwise
      (fun a b => a &&& b = 0 ∧ b &&& a = 0)

instance decPteBitsApart (C : Consts) : Decidable (PteBitsApart C) := by
  unfold PteBitsApart; infer_instance

/-- The demo process after `mmap` of three pages of the writable file, shared,
before any access. -/
def demo_untouched : State := (sys_mmap demo_consts demo_state 12288 3 1 1 0).1

end Mmap

/-! ## Lazy allocation (`xv6-2020-lazy`) -/

namespace Lazy

/-!
The embedding of `sys_sbrk` (`sysproc.c`).  The process size `p->sz` and the
saved stack pointer `p->trapframe->sp` are `uint64`, natural numbers below
`2 ^ 64`; the locals `addr` and `n` are `int`.  The constant `MAXVA`, the macro
`PGROUNDUP` and the function `uvmdealloc` belong to files that are not part of
the sources: `MAXVA` and `uvmdealloc` are parameters.
-/

/-- The value of the `uint64` size once assigned to the `int` local by
`addr = p->sz`: reduced modulo `2 ^ 32` into `[-2 ^ 31, 2 ^ 31)`, the result gcc
defines for a conversion to a signed type that cannot hold the value. -/
def to_int (i : Int) : Int := (i + 2 ^ 31) % 2 ^ 32 - 2 ^ 31

/-- The value of an integer expression converted to `uint64`. -/
def to_uint64 (i : Int) : Nat := (i % 2 ^ 64).toNat

/-- The value `-1` returned as `uint64`. -/
def ERR : Nat := 2 ^ 64 - 1

/-- The range of the C type `int`. -/
def IsInt (i : Int) : Prop := -2 ^ 31 ≤ i ∧ i < 2 ^ 31

instance decIsInt (i : Int) : Decidable (IsInt i) :=
  inferInstanceAs (Decidable (-2 ^ 31 ≤ i ∧ i < 2 ^ 31))

/-- A call made by `sys_sbrk` to the memory collaborators. -/
inductive Event where
  | uvmdealloc (oldsz newsz : Nat)
  deriving DecidableEq

/-- The part of `struct proc` that `sys_sbrk` uses: the size `sz`, the saved
user stack pointer `trapframe->sp`, the page table (page address to frame) and
the calls made so far to the collaborators that touch frames. -/
structure Proc where
  sz : Nat
  sp : Nat
  pagetable : Nat → Option Nat
  log : List Event

/-- What `sys_sbrk` takes from outside the source: `uvmdealloc` of the absent
`vm.c`, as the result it gives for a page table and the two sizes (the new page
table and the returned size); and `int_overflow p n`, what the compiled call
does when the `int` sum `addr + n` leaves the range of `int`, which C leaves
undefined (a compiler may, for one, drop the test `addr + n < addr`). -/
structure Env where
  uvmdealloc : (Nat → Option Nat) → Nat → Nat → (Nat → Option Nat) × Nat
  int_overflow : Proc → Int → Proc × Nat

/-- The function `sys_sbrk` on the argument `n` fetched by `argint`: the
process afterwards and the returned `uint64`.  Where the `int` sum `addr + n`
overflows the result is the environment's; everywhere else the sum is the
integer `addr + n`. -/
def sys_sbrk (MAXVA : Nat) (env : Env) (p : Proc) (n : Int) : Proc × Nat :=
  let addr := to_int p.sz
  if ¬ IsInt (addr + n) then env.int_overflow p n
  else if n ≥ 0 then
    if addr + n < addr then (p, ERR)
    else if addr + n > (MAXVA : Int) then (p, ERR)
    else ({ p with sz := to_uint64 ((p.sz : Int) + n) }, to_uint64 addr)
  else
    if to_uint64 (addr + n) < PGROUNDUP p.sp % 2 ^ 64 then (p, ERR)
    else
      let r := env.uvmdealloc p.pagetable (to_uint64 addr) (to_uint64 (addr + n))
      ({ p with sz := r.2, pagetable := r.1,
                log := p.log ++ [Event.uvmdealloc (to_uint64 addr) (to_uint64 (addr + n))] },
        to_uint64 addr)

/-- Modelled from the spec: `uvmdealloc` of the absent `vm.c` ("frames already
backing the range being shrunk are released immediately"): nothing happens
unless the size shrinks; then the pages from the rounded new size up to the
rounded old size are unmapped and the new size is returned. -/
def uvmdealloc (pagetable : Nat → Option Nat) (oldsz newsz : Nat) : (Nat → Option Nat) × Nat :=
  if newsz ≥ oldsz then (pagetable, oldsz)
  else
    (fun a => if PGROUNDUP newsz ≤ a ∧ a < PGROUNDUP oldsz then none else pagetable a, newsz)

/-- The environment with the modelled `uvmdealloc`; for an overflowing `int`
sum it stands for a build that grows or shrinks the size by `n` all the same
and returns the `int` copy of the old size. -/
def demo_env : Env :=
  { uvmdealloc := uvmdealloc,
    int_overflow := fun p n => ({ p with sz := to_uint64 ((p.sz : Int) + n) },
      to_uint64 (to_int p.sz)) }

/-- The value of `MAXVA` on Sv39 (`1L << (9 + 9 + 9 + 12 - 1)`). -/
def demo_MAXVA : Nat := 2 ^ 38

/-- A process of size `sz` whose stack pointer is `sp`, with nothing mapped. -/
def demo_proc (sz sp : Nat) : Proc :=
  { sz := sz, sp := sp, pagetable := fun _ => none, log := [] }

end Lazy

/-! ## Direct copy from user memory (`xv6-2020-page tables`) -/

namespace Vmcopyin

/-!
The embedding of `copyin_new` (`vmcopyin.c`).  Addresses and lengths are
`uint64`, natural numbers below `2 ^ 64`; memory is one byte per address, the
kernel page table of the process mapping user addresses as they are.
-/

/-- The memory reached through the kernel page table and the counters of
`struct copyin_stats`. -/
structure Kernel where
  mem : Nat → Nat
  copy_count : Int
  copystr_count : Int

/-- Modelled from the spec: `memmove` of the absent `string.c`: the `n` bytes
from `src` on are copied to `dst` on, read before any is written. -/
def memmove (mem : Nat → Nat) (dst src n : Nat) : Nat → Nat :=
  fun a => if dst ≤ a ∧ a < dst + n then mem (src + (a - dst)) else mem a

/-- The function `copyin_new` for a process of size `sz` (`myproc()->sz`): the
kernel state afterwards and the returned `int`.  The page table argument is
not used by the function. -/
def copyin_new (k : Kernel) (sz dst srcva len : Nat) : Kernel × Int :=
  if srcva ≥ sz ∨ (srcva + len) % 2 ^ 64 ≥ sz ∨ (srcva + len) % 2 ^ 64 < srcva then (k, -1)
  else ({ k with mem := memmove k.mem dst srcva len, copy_count := k.copy_count + 1 }, 0)

/-- The test of the loop of the sibling `copyinstr_new`: the byte at
`srcva + i` is read when it lies below the process size. -/
def copyinstr_new_reads (sz srcva max i : Nat) : Bool :=
  decide (i < max ∧ (srcva + i) % 2 ^ 64 < sz)

/-- A kernel state whose memory holds at each address the address modulo 251. -/
def demo_kernel : Kernel := { mem := fun a => a % 251, copy_count := 7, copystr_count := 0 }

end Vmcopyin

/-! ## Buffer cache (`xv6-2020-locks`) -/

namespace Bio

/-!
The embedding of `bget` and `brelse` (`bio.c`).  A buffer is named by the
address of its `struct buf`; the chain hanging off `hash_buckets[i]` is the
list of its buffers in link order (`hash_buckets[i].next` first).  Fields of
type `uint` are natural numbers reduced modulo `2 ^ 32`.  The sleep lock of a
buffer and the spin locks order concurrent callers and are not part of the
state; `NBUF` (absent `param.h`) and the clock `ticks` are parameters.
-/

/-- The constant `HASH_BUCKET_COUNT`. -/
def HASH_BUCKET_COUNT : Nat := 13

/-- The fields of `struct buf` (absent `buf.h`) that `bio.c` reads and writes,
with the address of the buffer. -/
structure buf where
  addr : Nat
  dev : Nat
  blockno : Nat
  valid : Nat
  refcnt : Nat
  timestamp : Nat
  deriving DecidableEq

/-- The state `buffer_cache`: the number of buffers handed out from
`buffer_pool` and the chains of the hash buckets. -/
structure BCache where
  allocated_buffer_count : Nat
  hash_buckets : List (List buf)
  deriving DecidableEq

/-- A buffer with every field `0`, standing for a position outside a chain. -/
def zero_buf : buf := ⟨0, 0, 0, 0, 0, 0⟩

/-- The function `calculate_hash_index`. -/
def calculate_hash_index (blockno : Nat) : Nat := blockno % HASH_BUCKET_COUNT

/-- The chain of bucket `i`. -/
def bucket (c : BCache) (i : Nat) : List buf := c.hash_buckets.getD i []

/-- The cache with the chain of bucket `i` replaced. -/
def set_bucket (c : BCache) (i : Nat) (chain : List buf) : BCache :=
  { c with hash_buckets := c.hash_buckets.set i chain }

/-- The position of the first buffer of a chain that holds block
`(dev, blockno)` (the first loop of `bget`). -/
def lookup (dev blockno : Nat) : List buf → Option Nat
  | [] => none
  | b :: bs =>
    if b.dev = dev ∧ b.blockno = blockno then some 0
    else (lookup dev blockno bs).map (fun i => i + 1)

/-- The buffer at position `i` of a chain with `refcnt++`. -/
def pin_at (chain : List buf) (i : Nat) : List buf :=
  chain.modify (fun b => { b with refcnt := (b.refcnt + 1) % 2 ^ 32 }) i

/-- How the scan of one bucket in the eviction loop ends: at a buffer that holds
the block, or at the end of the chain with `min_buffer_ptr` (as a position,
`none` for the null pointer) and `min_timestamp`. -/
inductive Scan where
  | hit (i : Nat)
  | done (min_buffer : Option Nat) (min_timestamp : Nat)
  deriving DecidableEq

/-- The inner `for` of the eviction loop from position `i` on; `own` says
whether `bucket_index == calculate_hash_index(blockno)`. -/
def scan (dev blockno : Nat) (own : Bool) : List buf → Nat → Option Nat → Nat → Scan
  | [], _, min_buffer, min_timestamp => Scan.done min_buffer min_timestamp
  | b :: bs, i, min_buffer, min_timestamp =>
    if own = true ∧ b.dev = dev ∧ b.blockno = blockno then Scan.hit i
    else if b.refcnt = 0 ∧ b.timestamp < min_timestamp then
      scan dev blockno own bs (i + 1) (some i) b.timestamp
    else scan dev blockno own bs (i + 1) min_buffer min_timestamp

/-- The eviction loop of `bget` with `n` iterations left, at bucket
`bucket_index`: the cache afterwards and the address of the buffer returned;
`none` is `panic("bget: no buffers")`. -/
def evict (c : BCache) (dev blockno : Nat) : Nat → Nat → Option (BCache × Nat)
  | 0, _ => none
  | n + 1, bucket_index =>
    let home := calculate_hash_index blockno
    let chain := bucket c bucket_index
    match scan dev blockno (decide (bucket_index = home)) chain 0 none (2 ^ 32 - 1) with
    | Scan.hit i => some (set_bucket c bucket_index (pin_at chain i), (chain.getD i zero_buf).addr)
    | Scan.done (some i) _ =>
      let old := chain.getD i zero_buf
      let recycled : buf := { old with dev := dev, blockno := blockno, valid := 0, refcnt := 1 }
      if bucket_index ≠ home then
        let c1 := set_bucket c bucket_index (chain.eraseIdx i)
        some (set_bucket c1 home (recycled :: bucket c1 home), recycled.addr)
      else some (set_bucket c bucket_index (chain.set i recycled), recycled.addr)
    | Scan.done none _ =>
      evict c dev blockno n (if bucket_index + 1 = HASH_BUCKET_COUNT then 0 else bucket_index + 1)

/-- The function `bget`, up to the `acquiresleep` of the buffer it returns;
`pool i` is the address of `buffer_pool[i]`. -/
def bget (NBUF ticks : Nat) (pool : Nat → Nat) (c : BCache) (dev blockno : Nat) :
    Option (BCache × Nat) :=
  let bucket_index := calculate_hash_index blockno
  let chain := bucket c bucket_index
  match lookup dev blockno chain with
  | some i => some (set_bucket c bucket_index (pin_at chain i), (chain.getD i zero_buf).addr)
  | none =>
    if c.allocated_buffer_count < NBUF then
      let fresh : buf :=
        { addr := pool c.allocated_buffer_count, dev := dev, blockno := blockno, valid := 0,
          refcnt := 1, timestamp := ticks }
      let c1 := { c with allocated_buffer_count := c.allocated_buffer_count + 1 }
      some (set_bucket c1 bucket_index (fresh :: chain), fresh.addr)
    else evict c dev blockno HASH_BUCKET_COUNT bucket_index

/-- The function `brelse` on the buffer at address `a`, which holds block
`blockno`, after the release of its sleep lock. -/
def brelse (ticks : Nat) (c : BCache) (a blockno : Nat) : BCache :=
  let bucket_index := calculate_hash_index blockno
  set_bucket c bucket_index
    ((bucket c bucket_index).map (fun b =>
      if b.addr = a then
        let refcnt := (b.refcnt + 2 ^ 32 - 1) % 2 ^ 32
        if refcnt = 0 then { b with refcnt := refcnt, timestamp := ticks }
        else { b with refcnt := refcnt }
      else b))

/-- Every buffer of the cache, bucket by bucket. -/
def buffers (c : BCache) : List buf := c.hash_buckets.flatten

/-- A full cache of two buffers (`NBUF = 2`): bucket 5 holds the buffer at
`0xa000` with block 18, released at tick 100; bucket 6 holds the buffer at
`0xb000` with block 19, released at tick 5. -/
def demo_cache : BCache :=
  { allocated_buffer_count := 2,
    hash_buckets := [[], [], [], [], [], [⟨0xa000, 1, 18, 1, 0, 100⟩],
      [⟨0xb000, 1, 19, 1, 0, 5⟩], [], [], [], [], [], []] }

end Bio

namespace Locks

/-- A call of `acquire` or `release` on `cpu_allocators[cpu].lock`. -/
inductive LockEvent where
  | acquire (cpu : Nat)
  | release (cpu : Nat)
  deriving DecidableEq

/-- The lock calls of the scan loop of `steal_pages_from_other_cpu` with `n`
iterations left and `target_cpu_id` the CPU looked at last, in order, and
whether a list is returned.  The value `seen t` is what the read of
`cpu_allocators[t].freelist` under the lock of CPU `t` gives, whatever the
other CPUs did before. -/
def steal_scan_locks (NCPU : Nat) (seen : Nat → Nat) : Nat → Nat → List LockEvent × Bool
  | 0, _ => ([], false)
  | n + 1, target_cpu_id =>
    let target := if target_cpu_id + 1 = NCPU then 0 else target_cpu_id + 1
    if seen target ≠ 0 then ([LockEvent.acquire target, LockEvent.release target], true)
    else
      let r := steal_scan_locks NCPU seen n target
      (LockEvent.acquire target :: LockEvent.release target :: r.1, r.2)

/-- The lock calls of `kalloc` run on CPU `cpu`, in order: the caller's list,
the scan of the victims when the caller's list is seen empty, and the splice
when a list was stolen. -/
def kalloc_locks (NCPU : Nat) (seen : Nat → Nat) (cpu : Nat) : List LockEvent :=
  [LockEvent.acquire cpu, LockEvent.release cpu] ++
    if seen cpu ≠ 0 then []
    else
      let r := steal_scan_locks NCPU seen (NCPU - 1) cpu
      r.1 ++ if r.2 = true then [LockEvent.acquire cpu, LockEvent.release cpu] else []

/-- One lock call made while `held` is the list lock the core holds: the lock
held afterwards; `none` when the call acquires a lock while one is held or
releases a lock that is not the one held. -/
def lock_step (held : Option Nat) : LockEvent → Option (Option Nat)
  | LockEvent.acquire i => if held = none then some (some i) else none
  | LockEvent.release i => if held = some i then some none else none

/-- A sequence of lock calls, from the lock held at the start. -/
def lock_run : Option Nat → List LockEvent → Option (Option Nat)
  | held, [] => some held
  | held, e :: es =>
    match lock_step held e with
    | none => none
    | some held1 => lock_run held1 es

/-- The list locks held after a sequence of lock calls made while the locks
`held` are held, with repetition. -/
def holds_from (held : List Nat) : List LockEvent → List Nat
  | [] => held
  | LockEvent.acquire i :: es => holds_from (i :: held) es
  | LockEvent.release i :: es => holds_from (held.erase i) es

/-- The list locks held after a sequence of lock calls that starts with none
held. -/
def held_after (trace : List LockEvent) : List Nat := holds_from [] trace

end Locks

/-! ## Memory-mapped files: contents, batching and alignment -/

namespace Mmap

/-- Modelled from the spec: the files behind the inodes: `content ip pos` is
the byte at position `pos` of the file of inode `ip`, `size ip` its length. -/
structure Files where
  content : Nat → Nat → Nat
  size : Nat → Nat

/-- Modelled from the spec: what a logged call does to physical memory, one
byte per address: `memset(dst, c, n)` fills `n` bytes with `c`; `readi(ip, 0,
dst, off, n)` of the absent `fs.c` ("read `length = one frame` bytes from the
region's backing file ... into the frame") copies the bytes of the file from
position `off` on, at most `n` and none past the end of the file; the other
calls leave memory as it is. -/
def apply_event (F : Files) (mem : Nat → Nat) : Event → (Nat → Nat)
  | Event.memset dst c n => fun a => if dst ≤ a ∧ a < dst + n then c else mem a
  | Event.readi ip _ dst off n => fun a =>
    if dst ≤ a ∧ a < dst + n ∧ off + (a - dst) < F.size ip then F.content ip (off + (a - dst))
    else mem a
  | _ => mem

/-- Physical memory after the logged calls, in order. -/
def replay (F : Files) (mem : Nat → Nat) (log : List Event) : Nat → Nat :=
  log.foldl (apply_event F) mem

/-- An environment in which `kalloc` finds no frame. -/
def no_memory_env : Env := { demo_env with kalloc := 0 }

/-- An environment in which `readi` returns 100, fewer than `PGSIZE` bytes. -/
def short_read_env : Env := { demo_env with readi := fun _ _ _ _ => 100 }

/-- The environment of a later fault: `kalloc` hands out the next frame. -/
def demo_env2 : Env := { demo_env with kalloc := 0x87001000 }

/-- The demo process after `mmap` of one page of the read-only file with
`PROT_READ`, private: slot 0 holds the region at `0x3ffffee000`. -/
def demo_readonly : State := (sys_mmap demo_consts demo_state 4096 1 2 0 0).1

/-- The process `demo_readonly` after a load from its page: the page is mapped
to the frame `0x87000000`, readable. -/
def demo_readonly_touched : State :=
  usertrap_page_fault demo_consts demo_env demo_readonly 13 0x3ffffee010

/-- A file of 100 bytes, byte `pos` being `pos + 1`, behind every inode. -/
def demo_files : Files := { content := fun _ pos => pos + 1, size := fun _ => 100 }

/-- The length argument of a `sys_munmap` call is a multiple of `PGSIZE`. -/
def Call.page_length : Call → Prop
  | Call.mmap _ _ _ _ _ => True
  | Call.munmap _ _ unmap_length => unmap_length % (PGSIZE : Int) = 0

instance decPageLength : (c : Call) → Decidable c.page_length
  | Call.mmap _ _ _ _ _ => inferInstanceAs (Decidable True)
  | Call.munmap _ _ unmap_length =>
    inferInstanceAs (Decidable (unmap_length % (PGSIZE : Int) = 0))

/-- Every valid region starts at a multiple of `PGSIZE` and has a file offset
that is a multiple of `PGSIZE`. -/
def Aligned (vma : List virtual_memory_area) : Prop :=
  ∀ r ∈ vma, r.is_valid ≠ 0 →
    r.start_address % PGSIZE = 0 ∧ r.file_offset % (PGSIZE : Int) = 0

/-- The VMA table in which a run ends (`none` when a call does not return). -/
def final_vma (o : Option State) : Option (List virtual_memory_area) := o.map (fun s => s.vma)

end Mmap

/-! ## Intrusive lists -/

theorem isFreeList_frame {next next1 : Nat → Nat} :
    ∀ (xs : List Nat) (head : Nat), (∀ p ∈ xs, next1 p = next p) →
      IsFreeList next head xs → IsFreeList next1 head xs
  | [], _, _, h => h
  | p :: xs, head, hsame, h => by
    obtain ⟨h1, h2, h3⟩ := h
    refine ⟨h1, h2, ?_⟩
    rw [hsame p (List.mem_cons_self p xs)]
    exact isFreeList_frame xs (next p) (fun q hq => hsame q (List.mem_cons_of_mem p hq)) h3

theorem isFreeList_unique {next : Nat → Nat} :
    ∀ (xs ys : List Nat) (head : Nat),
      IsFreeList next head xs → IsFreeList next head ys → xs = ys
  | [], [], _, _, _ => rfl
  | [], q :: ys, head, h1, h2 => by
    obtain ⟨e, hq, _⟩ := h2
    exact absurd (e.symm.trans h1) hq
  | p :: xs, [], head, h1, h2 => by
    obtain ⟨e, hp, _⟩ := h1
    exact absurd (e.symm.trans h2) hp
  | p :: xs, q :: ys, head, h1, h2 => by
    obtain ⟨e1, _, t1⟩ := h1
    obtain ⟨e2, _, t2⟩ := h2
    have hpq : p = q := e1.symm.trans e2
    subst hpq
    rw [isFreeList_unique xs ys (next p) t1 t2]

theorem isFreeList_drop {next : Nat → Nat} :
    ∀ (xs : List Nat) (head : Nat) (p : Nat), IsFreeList next head xs → p ∈ xs →
      ∃ k, k < xs.length ∧ IsFreeList next p (xs.drop k)
  | [], _, _, _, hp => absurd hp (List.not_mem_nil _)
  | q :: xs, head, p, h, hp => by
    rcases List.mem_cons.mp hp with hpq | hin
    · subst hpq
      exact ⟨0, by simp, ⟨rfl, h.2.1, h.2.2⟩⟩
    · obtain ⟨k, hk, hd⟩ := isFreeList_drop xs (next q) p h.2.2 hin
      exact ⟨k + 1, by simpa using hk, by simpa using hd⟩

theorem isFreeList_nodup {next : Nat → Nat} :
    ∀ (xs : List Nat) (head : Nat), IsFreeList next head xs → xs.Nodup
  | [], _, _ => List.nodup_nil
  | p :: xs, head, h => by
    refine List.nodup_cons.mpr ⟨?_, isFreeList_nodup xs (next p) h.2.2⟩
    intro hin
    obtain ⟨k, hk, hd⟩ := isFreeList_drop xs (next p) p h.2.2 hin
    cases hdrop : xs.drop k with
    | nil =>
      have := List.drop_eq_nil_iff.mp hdrop
      omega
    | cons q rest =>
      rw [hdrop] at hd
      obtain ⟨e, _, ht⟩ := hd
      subst e
      have heq := isFreeList_unique rest xs (next p) ht h.2.2
      have hlen : (xs.drop k).length = rest.length + 1 := by rw [hdrop]; rfl
      rw [List.length_drop, heq] at hlen
      omega

theorem onList_of_mem {next : Nat → Nat} :
    ∀ (xs : List Nat) (head : Nat) (p : Nat), IsFreeList next head xs → p ∈ xs →
      OnList next head p
  | [], _, _, _, hp => absurd hp (List.not_mem_nil _)
  | q :: xs, head, p, h, hp => by
    obtain ⟨e, hq, ht⟩ := h
    subst e
    rcases List.mem_cons.mp hp with hpq | hin
    · subst hpq
      exact OnList.here hq
    · exact OnList.later hq (onList_of_mem xs (next head) p ht hin)

theorem mem_of_onList {next : Nat → Nat} {head p : Nat} (h : OnList next head p) :
    ∀ xs : List Nat, IsFreeList next head xs → p ∈ xs := by
  induction h with
  | here hne =>
    intro xs hx
    cases xs with
    | nil => exact absurd hx hne
    | cons q xs => exact hx.1 ▸ List.mem_cons_self q xs
  | later hne _ ih =>
    intro xs hx
    cases xs with
    | nil => exact absurd hx hne
    | cons q xs =>
      obtain ⟨e, _, ht⟩ := hx
      subst e
      exact List.mem_cons_of_mem _ (ih xs ht)

namespace Multithreading

/-! ## The reference table and `kfree` (Multithreading variant) -/

theorem demo_state_eq : kinit demo_layout demo_boot = some demo_state := by
  have hsome : (kinit demo_layout demo_boot).isSome = true := by decide
  unfold demo_state
  cases h : kinit demo_layout demo_boot with
  | none => rw [h] at hsome; exact absurd hsome (by decide)
  | some s => rfl

/-- Claim C2 as stated fails: after `kinit` on the demo layout the frame
`0x80002000` is page-aligned, in range, on the free list and has reference
count `0`, yet `kfree` of it returns normally instead of panicking. -/
theorem kfree_free_frame_does_not_panic :
    (0x80002000 % PGSIZE = 0 ∧ demo_layout.kernel_end ≤ 0x80002000 ∧
      0x80002000 < demo_layout.PHYSTOP) ∧
    kinit demo_layout demo_boot = some demo_state ∧
    IsFreeList demo_state.next demo_state.freelist [0x80003000, 0x80002000, 0x80001000] ∧
    ref_of demo_layout demo_state 0x80002000 = 0 ∧
    (kfree demo_layout demo_state 0x80002000).isSome = true :=
  ⟨by decide, demo_state_eq, by decide, by decide, by decide⟩

/-- Claim C2, amended: `kfree` of a page-aligned, in-range, tracked frame whose
reference count is `0` does not panic; it returns with the 8-bit count wrapped
to `255` and the free list and all frame memory unchanged. -/
theorem kfree_free_frame_wraps (L : Layout) (s : KMem) (pa : Nat)
    (halign : pa % PGSIZE = 0) (hlo : L.kernel_end ≤ pa) (hhi : pa < L.PHYSTOP)
    (hk : L.KERNBASE ≤ pa) (h0 : ref_of L s pa = 0) :
    kfree L s pa = some
      { s with ref_count := Function.update s.ref_count (page_index L pa) 255 } := by
  unfold ref_of at h0
  simp [kfree, dec_ref_count, halign, Nat.not_lt.mpr hlo, hhi, Nat.not_lt.mpr hk, h0]

theorem kfree_free_frame_wraps_witness :
    kfree demo_layout demo_state 0x80002000 = some
      { demo_state with ref_count :=
          Function.update demo_state.ref_count (page_index demo_layout 0x80002000) 255 } :=
  kfree_free_frame_wraps demo_layout demo_state 0x80002000
    (by decide) (by decide) (by decide) (by decide) (by decide)

/-- Claim C3: `kfree` of a page-aligned in-range tracked frame whose 8-bit
reference count is `n > 1` leaves the free list and all frame memory
unchanged; the only change to the state is that frame's count becoming `n - 1`. -/
theorem kfree_shared_frame_only_decrements (L : Layout) (s : KMem) (pa : Nat)
    (halign : pa % PGSIZE = 0) (hlo : L.kernel_end ≤ pa) (hhi : pa < L.PHYSTOP)
    (hk : L.KERNBASE ≤ pa) (hn : 1 < ref_of L s pa) (h8 : ref_of L s pa < 256) :
    kfree L s pa = some
      { s with ref_count := Function.update s.ref_count (page_index L pa) (ref_of L s pa - 1) } := by
  unfold ref_of at hn h8 ⊢
  have hmod : (s.ref_count (page_index L pa) + 255) % 256
      = s.ref_count (page_index L pa) - 1 := by omega
  have hne : s.ref_count (page_index L pa) - 1 ≠ 0 := by omega
  simp [kfree, dec_ref_count, halign, Nat.not_lt.mpr hlo, hhi, Nat.not_lt.mpr hk, hmod, hne]

/-- The demo state after one `kalloc` and one `inc_ref_count` of the frame
handed out (`0x80003000`, count `2`). -/
theorem kfree_shared_frame_only_decrements_witness :
    kfree demo_layout
        (inc_ref_count demo_layout (kalloc demo_layout demo_state).1 0x80003000) 0x80003000 =
      some { inc_ref_count demo_layout (kalloc demo_layout demo_state).1 0x80003000 with
        ref_count := Function.update
          (inc_ref_count demo_layout (kalloc demo_layout demo_state).1 0x80003000).ref_count
          (page_index demo_layout 0x80003000)
          (ref_of demo_layout
            (inc_ref_count demo_layout (kalloc demo_layout demo_state).1 0x80003000)
            0x80003000 - 1) } :=
  kfree_shared_frame_only_decrements demo_layout _ 0x80003000
    (by decide) (by decide) (by decide) (by decide) (by decide) (by decide)

/-- Claim C4: for a tracked frame (at or above `KERNBASE`, index inside
`page_ref_table`, 8-bit count), `inc_ref_count` followed by `dec_ref_count`
returns the post-decrement count, that count is the frame's count before the
pair, and no other entry of the table changes. -/
theorem inc_then_dec_ref_count (L : Layout) (s : KMem) (pa : Nat)
    (hk : L.KERNBASE ≤ pa) (_hin : page_index L pa < (L.PHYSTOP - L.KERNBASE) >>> 12)
    (h8 : ref_of L s pa < 256) :
    (dec_ref_count L (inc_ref_count L s pa) pa).2
        = ref_of L (dec_ref_count L (inc_ref_count L s pa) pa).1 pa ∧
      ref_of L (dec_ref_count L (inc_ref_count L s pa) pa).1 pa = ref_of L s pa ∧
      ∀ i, i ≠ page_index L pa →
        (dec_ref_count L (inc_ref_count L s pa) pa).1.ref_count i = s.ref_count i := by
  unfold ref_of at h8 ⊢
  have hmod : ((s.ref_count (page_index L pa) + 1) % 256 + 255) % 256
      = s.ref_count (page_index L pa) := by omega
  simp [dec_ref_count, inc_ref_count, Nat.not_lt.mpr hk, hmod]

theorem inc_then_dec_ref_count_witness :
    (dec_ref_count demo_layout (inc_ref_count demo_layout demo_state 0x80002000) 0x80002000).2
        = ref_of demo_layout
            (dec_ref_count demo_layout
              (inc_ref_count demo_layout demo_state 0x80002000) 0x80002000).1 0x80002000 ∧
      ref_of demo_layout
          (dec_ref_count demo_layout
            (inc_ref_count demo_layout demo_state 0x80002000) 0x80002000).1 0x80002000
        = ref_of demo_layout demo_state 0x80002000 ∧
      ∀ i, i ≠ page_index demo_layout 0x80002000 →
        (dec_ref_count demo_layout
          (inc_ref_count demo_layout demo_state 0x80002000) 0x80002000).1.ref_count i
          = demo_state.ref_count i :=
  inc_then_dec_ref_count demo_layout demo_state 0x80002000
    (by decide) (by decide) (by decide)


/-! ## Reference counting after `kalloc` -/

theorem ref_run_count (L : Layout) (pa : Nat) (hk : L.KERNBASE ≤ pa) :
    ∀ (calls : List RefCall) (s : KMem), ref_of L s pa < 256 →
      ref_of L (ref_run L pa s calls) pa
        = (ref_of L s pa + calls.count RefCall.inc + 255 * calls.count RefCall.dec) % 256 := by
  intro calls
  induction calls with
  | nil =>
    intro s h
    simp [ref_run, Nat.mod_eq_of_lt h]
  | cons c cs ih =>
    intro s h
    have hstep : ref_run L pa s (c :: cs) = ref_run L pa (ref_step L pa s c) cs := rfl
    rw [hstep]
    cases c with
    | inc =>
      have hc : ref_of L (ref_step L pa s RefCall.inc) pa = (ref_of L s pa + 1) % 256 := by
        simp [ref_step, inc_ref_count, ref_of, Nat.not_lt.mpr hk]
      rw [ih _ (by rw [hc]; omega), hc]
      simp
      omega
    | dec =>
      have hc : ref_of L (ref_step L pa s RefCall.dec) pa = (ref_of L s pa + 255) % 256 := by
        simp [ref_step, dec_ref_count, ref_of, Nat.not_lt.mpr hk]
      rw [ih _ (by rw [hc]; omega), hc]
      simp
      omega

theorem count_inc_add_count_dec :
    ∀ calls : List RefCall,
      calls.count RefCall.inc + calls.count RefCall.dec = calls.length
  | [] => rfl
  | RefCall.inc :: cs => by
    have ih := count_inc_add_count_dec cs
    simp [List.count_cons]
    omega
  | RefCall.dec :: cs => by
    have ih := count_inc_add_count_dec cs
    simp [List.count_cons]
    omega

theorem kalloc_ref_count (L : Layout) (s : KMem) (hne : s.freelist ≠ 0)
    (hk : L.KERNBASE ≤ s.freelist) (h0 : ref_of L s s.freelist = 0) :
    (kalloc L s).2 = s.freelist ∧ ref_of L (kalloc L s).1 s.freelist = 1 := by
  unfold ref_of at h0 ⊢
  simp [kalloc, hne, inc_ref_count, Nat.not_lt.mpr hk, memset, h0]

/-- Claim C5 as stated fails on the 8-bit counter: the frame `0x80003000`
returned by `kalloc` has count `0` after 255 calls of `inc_ref_count` and no
call of `dec_ref_count`. -/
theorem count_zero_after_255_increments :
    (kalloc demo_layout demo_state).2 = 0x80003000 ∧
    ref_of demo_layout
      (ref_run demo_layout 0x80003000 (kalloc demo_layout demo_state).1
        (List.replicate 255 RefCall.inc)) 0x80003000 = 0 ∧
    (List.replicate 255 RefCall.inc).count RefCall.dec
      ≠ (List.replicate 255 RefCall.inc).count RefCall.inc + 1 := by
  have hinc : (List.replicate 255 RefCall.inc).count RefCall.inc = 255 :=
    List.count_replicate_self RefCall.inc 255
  have hdec : (List.replicate 255 RefCall.inc).count RefCall.dec = 0 := by
    rw [List.count_replicate]; rfl
  refine ⟨by decide, ?_, by rw [hinc, hdec]; decide⟩
  rw [ref_run_count demo_layout 0x80003000 (by decide) _ _ (by decide)]
  have h1 : ref_of demo_layout (kalloc demo_layout demo_state).1 0x80003000 = 1 := by decide
  rw [h1, hinc, hdec]

/-- Claim C5, amended: for a frame returned by `kalloc` from the free list
(where its count was `0`) and every sequence of `inc_ref_count` /
`dec_ref_count` calls on it, the 8-bit count afterwards is
`(1 + #inc - #dec) mod 256`; it is `0` exactly when the number of decrements
is congruent modulo 256 to one more than the number of increments, and for a
sequence of fewer than 255 calls only if there is exactly one more decrement
than increments. -/
theorem count_zero_iff_one_more_decrement_mod_256 (L : Layout) (s : KMem)
    (calls : List RefCall) (hne : s.freelist ≠ 0)
    (hk : L.KERNBASE ≤ s.freelist) (h0 : ref_of L s s.freelist = 0) :
    ref_of L (ref_run L (kalloc L s).2 (kalloc L s).1 calls) (kalloc L s).2
        = (1 + calls.count RefCall.inc + 255 * calls.count RefCall.dec) % 256 ∧
      (ref_of L (ref_run L (kalloc L s).2 (kalloc L s).1 calls) (kalloc L s).2 = 0 ↔
        (calls.count RefCall.inc + 1) % 256 = calls.count RefCall.dec % 256) ∧
      (calls.length < 255 →
        ref_of L (ref_run L (kalloc L s).2 (kalloc L s).1 calls) (kalloc L s).2 = 0 →
        calls.count RefCall.dec = calls.count RefCall.inc + 1) := by
  obtain ⟨hp, h1⟩ := kalloc_ref_count L s hne hk h0
  rw [hp, ref_run_count L s.freelist hk calls _ (by rw [h1]; omega), h1]
  have hi := count_inc_add_count_dec calls
  refine ⟨rfl, by omega, ?_⟩
  intro hlen hz
  omega

theorem count_zero_iff_one_more_decrement_mod_256_witness :
    ref_of demo_layout
        (ref_run demo_layout (kalloc demo_layout demo_state).2 (kalloc demo_layout demo_state).1
          [RefCall.inc, RefCall.dec, RefCall.dec]) (kalloc demo_layout demo_state).2
        = (1 + [RefCall.inc, RefCall.dec, RefCall.dec].count RefCall.inc
            + 255 * [RefCall.inc, RefCall.dec, RefCall.dec].count RefCall.dec) % 256 ∧
      (ref_of demo_layout
          (ref_run demo_layout (kalloc demo_layout demo_state).2 (kalloc demo_layout demo_state).1
            [RefCall.inc, RefCall.dec, RefCall.dec]) (kalloc demo_layout demo_state).2 = 0 ↔
        ([RefCall.inc, RefCall.dec, RefCall.dec].count RefCall.inc + 1) % 256
          = [RefCall.inc, RefCall.dec, RefCall.dec].count RefCall.dec % 256) ∧
      ([RefCall.inc, RefCall.dec, RefCall.dec].length < 255 →
        ref_of demo_layout
          (ref_run demo_layout (kalloc demo_layout demo_state).2 (kalloc demo_layout demo_state).1
            [RefCall.inc, RefCall.dec, RefCall.dec]) (kalloc demo_layout demo_state).2 = 0 →
        [RefCall.inc, RefCall.dec, RefCall.dec].count RefCall.dec
          = [RefCall.inc, RefCall.dec, RefCall.dec].count RefCall.inc + 1) :=
  count_zero_iff_one_more_decrement_mod_256 demo_layout demo_state
    [RefCall.inc, RefCall.dec, RefCall.dec] (by decide) (by decide) (by decide)

end Multithreading

/-! ## The address check of `kfree` (both variants) -/

theorem onList_after_push {next : Nat → Nat} {pa old : Nat} {head q : Nat}
    (h : OnList (Function.update next pa old) head q) :
    q = pa ∨ OnList next head q ∨ OnList next old q := by
  induction h with
  | here hne => exact Or.inr (Or.inl (OnList.here hne))
  | @later head q hne _ ih =>
    by_cases hp : head = pa
    · subst hp
      rw [Function.update_same] at ih
      rcases ih with h1 | h1 | h1
      · exact Or.inl h1
      · exact Or.inr (Or.inr h1)
      · exact Or.inr (Or.inr h1)
    · rw [Function.update_noteq hp] at ih
      rcases ih with h1 | h1 | h1
      · exact Or.inl h1
      · exact Or.inr (Or.inl (OnList.later hne h1))
      · exact Or.inr (Or.inr h1)

theorem onList_pushed {next : Nat → Nat} {pa old q : Nat}
    (h : OnList (Function.update next pa old) pa q) :
    q = pa ∨ OnList next old q := by
  cases h with
  | here _ => exact Or.inl rfl
  | later _ h1 =>
    rw [Function.update_same] at h1
    rcases onList_after_push h1 with h2 | h2 | h2
    · exact Or.inl h2
    · exact Or.inr h2
    · exact Or.inr h2

/-- Claim C7: in both allocator variants `kfree` panics exactly when the
address is not a multiple of `PGSIZE`, is below `end`, or is at or above
`PHYSTOP`; when it returns, every frame linked into a free list afterwards is
either the freed frame, which lies in `[end, PHYSTOP)`, or a frame that was
linked into a free list before the call. -/
theorem kfree_panics_iff_bad_address (L : Layout) (s : Multithreading.KMem)
    (t : Locks.KMem) (cpu pa : Nat) :
    (Multithreading.kfree L s pa = none ↔
      (pa % PGSIZE ≠ 0 ∨ pa < L.kernel_end ∨ L.PHYSTOP ≤ pa)) ∧
    (Locks.kfree L t cpu pa = none ↔
      (pa % PGSIZE ≠ 0 ∨ pa < L.kernel_end ∨ L.PHYSTOP ≤ pa)) ∧
    (∀ s1 q, Multithreading.kfree L s pa = some s1 → OnList s1.next s1.freelist q →
      (q = pa ∧ L.kernel_end ≤ q ∧ q < L.PHYSTOP) ∨ OnList s.next s.freelist q) ∧
    (∀ t1 i q, Locks.kfree L t cpu pa = some t1 → OnList t1.next (t1.freelist i) q →
      (q = pa ∧ L.kernel_end ≤ q ∧ q < L.PHYSTOP) ∨
        OnList t.next (t.freelist i) q ∨ OnList t.next (t.freelist cpu) q) := by
  refine ⟨?_, ?_, ?_, ?_⟩
  · unfold Multithreading.kfree
    by_cases hbad : pa % PGSIZE ≠ 0 ∨ pa < L.kernel_end ∨ pa ≥ L.PHYSTOP
    · simp only [if_pos hbad, true_iff]; exact hbad
    · simp only [if_neg hbad]
      constructor
      · intro h; split at h <;> exact absurd h (by simp)
      · intro h; exact absurd h hbad
  · unfold Locks.kfree
    by_cases hbad : pa % PGSIZE ≠ 0 ∨ pa < L.kernel_end ∨ pa ≥ L.PHYSTOP
    · simp only [if_pos hbad, true_iff]; exact hbad
    · simp only [if_neg hbad]
      constructor
      · intro h; exact absurd h (by simp)
      · intro h; exact absurd h hbad
  · intro s1 q hs hq
    unfold Multithreading.kfree at hs
    by_cases hbad : pa % PGSIZE ≠ 0 ∨ pa < L.kernel_end ∨ pa ≥ L.PHYSTOP
    · rw [if_pos hbad] at hs; exact absurd hs (by simp)
    · rw [if_neg hbad] at hs
      have hrange : L.kernel_end ≤ pa ∧ pa < L.PHYSTOP := by
        constructor <;> · by_contra hc; exact hbad (by omega)
      have hnext : (Multithreading.dec_ref_count L s pa).1.next = s.next := by
        unfold Multithreading.dec_ref_count; split <;> rfl
      have hhead : (Multithreading.dec_ref_count L s pa).1.freelist = s.freelist := by
        unfold Multithreading.dec_ref_count; split <;> rfl
      by_cases hr : (Multithreading.dec_ref_count L s pa).2 ≠ 0
      · simp only [if_pos hr, Option.some.injEq] at hs
        subst hs
        rw [hnext, hhead] at hq
        exact Or.inr hq
      · simp only [if_neg hr, Option.some.injEq] at hs
        subst hs
        simp only [Multithreading.memset, Function.update_idem, hnext, hhead] at hq
        rcases onList_pushed hq with h1 | h1
        · exact Or.inl ⟨h1, h1 ▸ hrange.1, h1 ▸ hrange.2⟩
        · exact Or.inr h1
  · intro t1 i q ht hq
    unfold Locks.kfree at ht
    by_cases hbad : pa % PGSIZE ≠ 0 ∨ pa < L.kernel_end ∨ pa ≥ L.PHYSTOP
    · rw [if_pos hbad] at ht; exact absurd ht (by simp)
    · rw [if_neg hbad] at ht
      have hrange : L.kernel_end ≤ pa ∧ pa < L.PHYSTOP := by
        constructor <;> · by_contra hc; exact hbad (by omega)
      simp only [Option.some.injEq] at ht
      subst ht
      simp only [Locks.memset, Function.update_idem] at hq
      by_cases hi : i = cpu
      · subst hi
        rw [Function.update_same] at hq
        rcases onList_pushed hq with h1 | h1
        · exact Or.inl ⟨h1, h1 ▸ hrange.1, h1 ▸ hrange.2⟩
        · exact Or.inr (Or.inl h1)
      · rw [Function.update_noteq hi] at hq
        rcases onList_after_push hq with h1 | h1 | h1
        · exact Or.inl ⟨h1, h1 ▸ hrange.1, h1 ▸ hrange.2⟩
        · exact Or.inr (Or.inl h1)
        · exact Or.inr (Or.inr h1)

theorem kfree_panics_iff_bad_address_witness :
    (Multithreading.kfree Multithreading.demo_layout Multithreading.demo_state 0x80000000 = none) ∧
    ((0x80005000 = 0x80005000 ∧ Locks.demo_layout.kernel_end ≤ 0x80005000 ∧
        0x80005000 < Locks.demo_layout.PHYSTOP) ∨
      OnList Locks.demo_state.next (Locks.demo_state.freelist 0) 0x80005000 ∨
      OnList Locks.demo_state.next (Locks.demo_state.freelist 0) 0x80005000) :=
  ⟨(kfree_panics_iff_bad_address Multithreading.demo_layout Multithreading.demo_state
      Locks.demo_state 0 0x80000000).1.mpr (by decide),
   (kfree_panics_iff_bad_address Locks.demo_layout Multithreading.demo_state
      Locks.demo_state 0 0x80005000).2.2.2
      ((Locks.kfree Locks.demo_layout Locks.demo_state 0 0x80005000).get (by decide))
      0 0x80005000 (Option.some_get _).symm (OnList.here (by decide))⟩

namespace Multithreading

/-! ## Allocator initialisation -/

theorem kfree_after_inc (L : Layout) (s : KMem) (p : Nat) (hz : ∀ i, s.ref_count i = 0)
    (halign : p % PGSIZE = 0) (hlo : L.kernel_end ≤ p) (hhi : p < L.PHYSTOP) :
    kfree L (inc_ref_count L s p) p = some
      { s with next := Function.update s.next p s.freelist,
               bytes := Function.update s.bytes p (fun _ => 1),
               freelist := p } := by
  by_cases hk : p < L.KERNBASE
  · simp [kfree, inc_ref_count, dec_ref_count, memset, halign, Nat.not_lt.mpr hlo, hhi, hk]
  · have hfun : Function.update s.ref_count (page_index L p) 0 = s.ref_count := by
      rw [← hz (page_index L p)]; exact Function.update_eq_self _ _
    simp [kfree, inc_ref_count, dec_ref_count, memset, halign, Nat.not_lt.mpr hlo, hhi, hk,
      hz, hfun]

/-- The frames `p, p + PGSIZE, ...`, `n` of them. -/
theorem frames_succ (p n : Nat) :
    (List.range (n + 1)).map (fun i => p + i * PGSIZE)
      = p :: (List.range n).map (fun i => (p + PGSIZE) + i * PGSIZE) := by
  rw [List.range_succ_eq_map, List.map_cons, List.map_map]
  simp only [Nat.zero_mul, Nat.add_zero, List.cons.injEq, true_and]
  apply List.map_congr_left
  intro i _
  simp only [Function.comp, Nat.succ_eq_add_one]
  ring

theorem freerange_loop_spec (L : Layout) :
    ∀ (fuel p : Nat) (s : KMem) (xs : List Nat),
      (∀ i, s.ref_count i = 0) → IsFreeList s.next s.freelist xs → (∀ q ∈ xs, q < p) →
      p % PGSIZE = 0 → L.kernel_end ≤ p → 0 < p → (L.PHYSTOP - p) / PGSIZE ≤ fuel →
      ∃ s1, freerange_loop L L.PHYSTOP fuel p s = some s1 ∧ (∀ i, s1.ref_count i = 0) ∧
        IsFreeList s1.next s1.freelist
          (((List.range ((L.PHYSTOP - p) / PGSIZE)).map (fun i => p + i * PGSIZE)).reverse
            ++ xs) := by
  intro fuel
  induction fuel with
  | zero =>
    intro p s xs hz hl _ _ _ _ hfuel
    have hn : (L.PHYSTOP - p) / PGSIZE = 0 := Nat.le_zero.mp hfuel
    have hcond : ¬ (p + PGSIZE ≤ L.PHYSTOP) := by
      unfold PGSIZE at hn ⊢; omega
    refine ⟨s, by simp [freerange_loop, hcond], hz, ?_⟩
    rw [hn]; simpa using hl
  | succ fuel ih =>
    intro p s xs hz hl hlt halign hlo hpos hfuel
    by_cases hcond : p + PGSIZE ≤ L.PHYSTOP
    · have hhi : p < L.PHYSTOP := by unfold PGSIZE at hcond; omega
      obtain ⟨m, hm⟩ : ∃ m, (L.PHYSTOP - p) / PGSIZE = m + 1 := by
        refine ⟨(L.PHYSTOP - p) / PGSIZE - 1, ?_⟩
        unfold PGSIZE at hcond ⊢; omega
      have hm1 : (L.PHYSTOP - (p + PGSIZE)) / PGSIZE = m := by
        unfold PGSIZE at hm ⊢; omega
      have hpush := kfree_after_inc L s p hz halign hlo hhi
      have hnot : p ∉ xs := fun hin => Nat.lt_irrefl p (hlt p hin)
      obtain ⟨s1, hs1, hz1, hl1⟩ := ih (p + PGSIZE)
        { s with next := Function.update s.next p s.freelist,
                 bytes := Function.update s.bytes p (fun _ => 1),
                 freelist := p } (p :: xs) hz
        ⟨rfl, Nat.pos_iff_ne_zero.mp hpos, by
          simp only [Function.update_same]
          exact isFreeList_frame xs _ (fun q hq => Function.update_noteq
            (fun e : q = p => hnot (e ▸ hq)) _ _) hl⟩
        (by
          intro q hq
          rcases List.mem_cons.mp hq with e | hin
          · subst e; unfold PGSIZE; omega
          · have := hlt q hin; omega)
        (by unfold PGSIZE at halign ⊢; omega)
        (by omega) (by omega) (by rw [hm1]; omega)
      refine ⟨s1, ?_, hz1, ?_⟩
      · simp only [freerange_loop, if_pos hcond, hpush]
        exact hs1
      · rw [hm, frames_succ, List.reverse_cons, List.append_assoc, ← hm1]
        exact hl1
    · have hn : (L.PHYSTOP - p) / PGSIZE = 0 := by
        unfold PGSIZE at hcond ⊢; omega
      refine ⟨s, by simp [freerange_loop, hcond], hz, ?_⟩
      rw [hn]; simpa using hl


theorem le_PGROUNDUP (a : Nat) : a ≤ PGROUNDUP a := by
  unfold PGROUNDUP PGSIZE; omega

theorem freerange_fuel (L : Layout) :
    (L.PHYSTOP - PGROUNDUP L.kernel_end) / PGSIZE ≤ L.PHYSTOP - L.kernel_end := by
  have h := Nat.div_le_self (L.PHYSTOP - PGROUNDUP L.kernel_end) PGSIZE
  have h1 := le_PGROUNDUP L.kernel_end
  omega

theorem mem_frames_iff (p0 top p : Nat) (h0 : p0 % PGSIZE = 0) :
    p ∈ ((List.range ((top - p0) / PGSIZE)).map (fun i => p0 + i * PGSIZE)).reverse ++ [] ↔
      (p % PGSIZE = 0 ∧ p0 ≤ p ∧ p + PGSIZE ≤ top) := by
  simp only [List.append_nil, List.mem_reverse, List.mem_map, List.mem_range]
  unfold PGSIZE at h0 ⊢
  constructor
  · rintro ⟨i, hi, rfl⟩
    omega
  · rintro ⟨h1, h2, h3⟩
    exact ⟨(p - p0) / 4096, by omega, by omega⟩

/-- Claim C6: starting from the all-zero reference table and an empty list,
`kinit` returns, and afterwards the free list is a proper list that holds every
page-aligned frame `p` with `PGROUNDUP(end) <= p` and `p + PGSIZE <= PHYSTOP`
exactly once and no other address; every entry of the reference table, hence
the count of each of those frames, is `0` again. -/
theorem kinit_seeds_every_frame_once (L : Layout) (mem_next : Nat → Nat)
    (mem_bytes : Nat → Nat → Nat) (hend : 0 < L.kernel_end) :
    ∃ s xs, kinit L (boot mem_next mem_bytes) = some s ∧
      IsFreeList s.next s.freelist xs ∧ xs.Nodup ∧
      (∀ p, p ∈ xs ↔ (p % PGSIZE = 0 ∧ PGROUNDUP L.kernel_end ≤ p ∧ p + PGSIZE ≤ L.PHYSTOP)) ∧
      (∀ p ∈ xs, ref_of L s p = 0) ∧ (∀ i, s.ref_count i = 0) := by
  have halign : PGROUNDUP L.kernel_end % PGSIZE = 0 := Nat.mul_mod_left _ _
  obtain ⟨s, hs, hz, hl⟩ := freerange_loop_spec L (L.PHYSTOP - L.kernel_end)
    (PGROUNDUP L.kernel_end) (boot mem_next mem_bytes) [] (fun _ => rfl) rfl
    (fun q hq => absurd hq (List.not_mem_nil q)) halign (le_PGROUNDUP L.kernel_end)
    (Nat.lt_of_lt_of_le hend (le_PGROUNDUP L.kernel_end)) (freerange_fuel L)
  exact ⟨s, _, hs, hl, isFreeList_nodup _ _ hl,
    fun p => mem_frames_iff (PGROUNDUP L.kernel_end) L.PHYSTOP p halign,
    fun p _ => hz _, hz⟩

theorem kinit_seeds_every_frame_once_witness :
    ∃ s xs, kinit demo_layout (boot (fun _ => 0) (fun _ _ => 0)) = some s ∧
      IsFreeList s.next s.freelist xs ∧ xs.Nodup ∧
      (∀ p, p ∈ xs ↔ (p % PGSIZE = 0 ∧ PGROUNDUP demo_layout.kernel_end ≤ p ∧
        p + PGSIZE ≤ demo_layout.PHYSTOP)) ∧
      (∀ p ∈ xs, ref_of demo_layout s p = 0) ∧ (∀ i, s.ref_count i = 0) :=
  kinit_seeds_every_frame_once demo_layout (fun _ => 0) (fun _ _ => 0) (by decide)


/-! ## The allocator invariant over runs -/

theorem page_index_inj (L : Layout) {p q : Nat} (hp : p % PGSIZE = 0) (hq : q % PGSIZE = 0)
    (hkp : L.KERNBASE ≤ p) (hkq : L.KERNBASE ≤ q) (h : page_index L p = page_index L q) :
    p = q := by
  unfold page_index at h
  rw [Nat.shiftRight_eq_div_pow, Nat.shiftRight_eq_div_pow] at h
  unfold PGSIZE at hp hq
  omega

theorem ref_of_update (L : Layout) (s : KMem) {p q : Nat} (v : Nat)
    (hp : p % PGSIZE = 0) (hq : q % PGSIZE = 0)
    (hkp : L.KERNBASE ≤ p) (hkq : L.KERNBASE ≤ q) (hne : q ≠ p) :
    Function.update s.ref_count (page_index L p) v (page_index L q) = ref_of L s q := by
  unfold ref_of
  exact Function.update_noteq (fun e => hne (page_index_inj L hq hp hkq hkp e)) _ _

theorem kalloc_inv (L : Layout) (hK : 0 < L.KERNBASE) (hE : L.KERNBASE ≤ L.kernel_end)
    (st : KMem × List Nat) (hinv : Inv L st) :
    Inv L ((kalloc L st.1).1,
      if (kalloc L st.1).2 = 0 then st.2 else (kalloc L st.1).2 :: st.2) := by
  obtain ⟨s, out⟩ := st
  obtain ⟨xs, hl, hfree, hle, hout⟩ := hinv
  dsimp only at hl hfree hle hout ⊢
  cases xs with
  | nil =>
    have h0 : s.freelist = 0 := hl
    have hs : kalloc L s = (s, 0) := by
      simp [kalloc, h0, inc_ref_count, hK]
    simp only [hs, if_true]
    exact ⟨[], hl, hfree, hle, hout⟩
  | cons p xs =>
    obtain ⟨hhead, hp0, htail⟩ := hl
    have hnd := isFreeList_nodup (p :: xs) s.freelist ⟨hhead, hp0, htail⟩
    have hpx : p ∉ xs := (List.nodup_cons.mp hnd).1
    obtain ⟨⟨hpa, hplo, hphi⟩, hpz⟩ := hfree p (List.mem_cons_self p xs)
    have hkp : L.KERNBASE ≤ p := le_trans hE hplo
    unfold ref_of at hpz
    have hs : kalloc L s =
        ({ s with freelist := s.next p,
                  ref_count := Function.update s.ref_count (page_index L p) 1,
                  next := Function.update s.next p (junk_word 5),
                  bytes := Function.update s.bytes p (fun _ => 5) }, p) := by
      simp [kalloc, hhead, hp0, inc_ref_count, Nat.not_lt.mpr hkp, memset, hpz]
    simp only [hs, if_neg hp0]
    refine ⟨xs, ?_, ?_, ?_, ?_⟩
    · exact isFreeList_frame xs _ (fun q hq => Function.update_noteq
        (fun e : q = p => hpx (e ▸ hq)) _ _) htail
    · intro q hq
      obtain ⟨hm, hz⟩ := hfree q (List.mem_cons_of_mem p hq)
      refine ⟨hm, ?_⟩
      have hne : q ≠ p := fun e => hpx (e ▸ hq)
      show Function.update s.ref_count (page_index L p) 1 (page_index L q) = 0
      rw [ref_of_update L s 1 hpa hm.1 hkp (le_trans hE hm.2.1) hne]
      exact hz
    · intro q hm
      show Function.update s.ref_count (page_index L p) 1 (page_index L q) ≤ 1
      by_cases hne : q = p
      · subst hne; rw [Function.update_same]
      · rw [ref_of_update L s 1 hpa hm.1 hkp (le_trans hE hm.2.1) hne]
        exact hle q hm
    · intro q hq
      rcases List.mem_cons.mp hq with e | hin
      · subst e
        exact ⟨⟨hpa, hplo, hphi⟩, by
          show Function.update s.ref_count (page_index L q) 1 (page_index L q) = 1
          rw [Function.update_same]⟩
      · obtain ⟨hm, h1⟩ := hout q hin
        refine ⟨hm, ?_⟩
        have hne : q ≠ p := by
          intro e; subst e; unfold ref_of at h1; omega
        show Function.update s.ref_count (page_index L p) 1 (page_index L q) = 1
        rw [ref_of_update L s 1 hpa hm.1 hkp (le_trans hE hm.2.1) hne]
        exact h1

theorem kfree_inv (L : Layout) (hK : 0 < L.KERNBASE) (hE : L.KERNBASE ≤ L.kernel_end)
    (st : KMem × List Nat) (hinv : Inv L st) (pa : Nat) (hlive : ref_of L st.1 pa ≠ 0)
    (s1 : KMem) (hs1 : kfree L st.1 pa = some s1) :
    Inv L (s1, st.2.filter (fun q => decide (q ≠ pa))) := by
  obtain ⟨s, out⟩ := st
  obtain ⟨xs, hl, hfree, hle, hout⟩ := hinv
  dsimp only at hlive hs1 hl hfree hle hout ⊢
  have hm : Managed L pa := by
    unfold kfree at hs1
    by_cases hbad : pa % PGSIZE ≠ 0 ∨ pa < L.kernel_end ∨ pa ≥ L.PHYSTOP
    · rw [if_pos hbad] at hs1; exact absurd hs1 (by simp)
    · unfold Managed
      refine ⟨?_, ?_, ?_⟩
      · by_contra hc; exact hbad (Or.inl hc)
      · by_contra hc; exact hbad (Or.inr (Or.inl (by omega)))
      · by_contra hc; exact hbad (Or.inr (Or.inr (by omega)))
  obtain ⟨hpa, hplo, hphi⟩ := hm
  have hkp : L.KERNBASE ≤ pa := le_trans hE hplo
  have hone : s.ref_count (page_index L pa) = 1 := by
    have := hle pa ⟨hpa, hplo, hphi⟩
    unfold ref_of at this hlive
    omega
  have hpx : pa ∉ xs := by
    intro hin
    have := (hfree pa hin).2
    unfold ref_of at this
    omega
  have hs : kfree L s pa = some
      { s with ref_count := Function.update s.ref_count (page_index L pa) 0,
               next := Function.update s.next pa s.freelist,
               bytes := Function.update s.bytes pa (fun _ => 1),
               freelist := pa } := by
    simp [kfree, dec_ref_count, memset, hpa, Nat.not_lt.mpr hplo, hphi, Nat.not_lt.mpr hkp,
      hone]
  rw [hs] at hs1
  simp only [Option.some.injEq] at hs1
  subst hs1
  refine ⟨pa :: xs, ?_, ?_, ?_, ?_⟩
  · refine ⟨rfl, by omega, ?_⟩
    simp only [Function.update_same]
    exact isFreeList_frame xs _ (fun q hq => Function.update_noteq
      (fun e : q = pa => hpx (e ▸ hq)) _ _) hl
  · intro q hq
    rcases List.mem_cons.mp hq with e | hin
    · subst e
      exact ⟨⟨hpa, hplo, hphi⟩, by
        show Function.update s.ref_count (page_index L q) 0 (page_index L q) = 0
        rw [Function.update_same]⟩
    · obtain ⟨hm, hz⟩ := hfree q hin
      refine ⟨hm, ?_⟩
      have hne : q ≠ pa := fun e => hpx (e ▸ hin)
      show Function.update s.ref_count (page_index L pa) 0 (page_index L q) = 0
      rw [ref_of_update L s 0 hpa hm.1 hkp (le_trans hE hm.2.1) hne]
      exact hz
  · intro q hm
    show Function.update s.ref_count (page_index L pa) 0 (page_index L q) ≤ 1
    by_cases hne : q = pa
    · subst hne; rw [Function.update_same]; omega
    · rw [ref_of_update L s 0 hpa hm.1 hkp (le_trans hE hm.2.1) hne]
      exact hle q hm
  · intro q hq
    simp only [List.mem_filter, decide_eq_true_eq] at hq
    obtain ⟨hin, hne⟩ := hq
    obtain ⟨hm, h1⟩ := hout q hin
    refine ⟨hm, ?_⟩
    show Function.update s.ref_count (page_index L pa) 0 (page_index L q) = 1
    rw [ref_of_update L s 0 hpa hm.1 hkp (le_trans hE hm.2.1) hne]
    exact h1

theorem run_inv (L : Layout) (hK : 0 < L.KERNBASE) (hE : L.KERNBASE ≤ L.kernel_end) :
    ∀ (calls : List Call) (st st1 : KMem × List Nat), Inv L st →
      releases_live L st calls = true → run L st calls = some st1 → Inv L st1 := by
  intro calls
  induction calls with
  | nil =>
    intro st st1 hinv _ hrun
    simp only [run, Option.some.injEq] at hrun
    exact hrun ▸ hinv
  | cons c cs ih =>
    intro st st1 hinv hlive hrun
    simp only [releases_live, Bool.and_eq_true] at hlive
    obtain ⟨hc, hrest⟩ := hlive
    simp only [run] at hrun
    cases c with
    | kalloc =>
      simp only [step] at hrun hrest
      exact ih _ st1 (kalloc_inv L hK hE st hinv) hrest hrun
    | kfree pa =>
      simp only [decide_eq_true_eq] at hc
      simp only [step] at hrun hrest
      cases hk : kfree L st.1 pa with
      | none => rw [hk] at hrun; exact absurd hrun (by simp)
      | some s1 =>
        rw [hk] at hrun hrest
        exact ih _ st1 (kfree_inv L hK hE st hinv pa hc s1 hk) hrest hrun


theorem kinit_inv (L : Layout) (mem_next : Nat → Nat) (mem_bytes : Nat → Nat → Nat)
    (hK : 0 < L.KERNBASE) (hE : L.KERNBASE ≤ L.kernel_end) :
    ∃ s0, kinit L (boot mem_next mem_bytes) = some s0 ∧ Inv L (s0, []) := by
  have halign : PGROUNDUP L.kernel_end % PGSIZE = 0 := Nat.mul_mod_left _ _
  have hge := le_PGROUNDUP L.kernel_end
  obtain ⟨s0, hs, hz, hl⟩ := freerange_loop_spec L (L.PHYSTOP - L.kernel_end)
    (PGROUNDUP L.kernel_end) (boot mem_next mem_bytes) [] (fun _ => rfl) rfl
    (fun q hq => absurd hq (List.not_mem_nil q)) halign hge (by omega) (freerange_fuel L)
  refine ⟨s0, hs, _, hl, ?_, ?_, ?_⟩
  · intro p hp
    obtain ⟨h1, h2, h3⟩ :=
      (mem_frames_iff (PGROUNDUP L.kernel_end) L.PHYSTOP p halign).mp hp
    exact ⟨⟨h1, le_trans hge h2, by unfold PGSIZE at h3; omega⟩, hz _⟩
  · intro p _
    show s0.ref_count (page_index L p) ≤ 1
    rw [hz]; omega
  · intro p hp
    exact absurd hp (List.not_mem_nil p)

theorem run_take (L : Layout) :
    ∀ (calls : List Call) (st st1 : KMem × List Nat) (n : Nat),
      run L st calls = some st1 → ∃ st2, run L st (calls.take n) = some st2
  | [], st, _, n, _ => ⟨st, by simp [run]⟩
  | c :: cs, st, st1, 0, _ => ⟨st, by simp [run]⟩
  | c :: cs, st, st1, n + 1, h => by
    simp only [run, List.take_succ_cons] at h ⊢
    cases hs : step L st c with
    | none => rw [hs] at h; exact absurd h (by simp)
    | some st3 =>
      rw [hs] at h
      exact run_take L cs st3 st1 n h

theorem releases_live_take (L : Layout) :
    ∀ (calls : List Call) (st : KMem × List Nat) (n : Nat),
      releases_live L st calls = true → releases_live L st (calls.take n) = true
  | [], _, n, _ => by simp [releases_live]
  | c :: cs, st, 0, _ => by simp [releases_live]
  | c :: cs, st, n + 1, h => by
    simp only [releases_live, List.take_succ_cons, Bool.and_eq_true] at h ⊢
    refine ⟨h.1, ?_⟩
    cases hs : step L st c with
    | none => rfl
    | some st3 =>
      have h2 := h.2
      rw [hs] at h2
      exact releases_live_take L cs st3 n h2

/-- Claim C1 as stated fails: after `kinit` on the demo layout the single call
`kfree(0x80002000)` on a frame that is already free does not panic, and
afterwards that frame is on the free list with reference count `255`. -/
theorem free_frame_with_nonzero_count :
    match run_after_kinit demo_layout (fun _ => 0) (fun _ _ => 0) [Call.kfree 0x80002000] with
    | none => False
    | some st =>
      OnList st.1.next st.1.freelist 0x80002000 ∧ ref_of demo_layout st.1 0x80002000 = 255 := by
  have hget := Option.some_get (show (run_after_kinit demo_layout (fun _ => 0) (fun _ _ => 0)
      [Call.kfree 0x80002000]).isSome = true by decide)
  rw [← hget]
  exact ⟨onList_of_mem [0x80003000, 0x80002000, 0x80001000] _ _ (by decide) (by decide),
    by decide⟩

/-- Claim C1, amended: for every sequence of `kalloc` and `kfree` calls issued
after `kinit` that does not panic and in which no `kfree` is applied to a frame
whose reference count is `0` at the time of the call, at every point of the
sequence (after each of its first `n` calls) no outstanding frame (handed out
by `kalloc` and not released since) has reference count `0`, and no frame on
the free list has a reference count above `0`. -/
theorem outstanding_counted_and_free_uncounted (L : Layout) (mem_next : Nat → Nat)
    (mem_bytes : Nat → Nat → Nat) (calls : List Call)
    (hK : 0 < L.KERNBASE) (hE : L.KERNBASE ≤ L.kernel_end)
    (hlive : releases_live_after_kinit L mem_next mem_bytes calls = true)
    (hrun : (run_after_kinit L mem_next mem_bytes calls).isSome = true) (n : Nat) :
    ∃ st, run_after_kinit L mem_next mem_bytes (calls.take n) = some st ∧
      (∀ p ∈ st.2, ref_of L st.1 p ≠ 0) ∧
      (∀ p, OnList st.1.next st.1.freelist p → ref_of L st.1 p = 0) := by
  obtain ⟨s0, hk, hinv0⟩ := kinit_inv L mem_next mem_bytes hK hE
  unfold run_after_kinit at hrun ⊢
  unfold releases_live_after_kinit at hlive
  rw [hk] at hrun hlive ⊢
  obtain ⟨st1, hst1⟩ := Option.isSome_iff_exists.mp hrun
  obtain ⟨st, hst⟩ := run_take L calls (s0, []) st1 n hst1
  obtain ⟨ys, hys, hfree, _, hout⟩ := run_inv L hK hE (calls.take n) (s0, []) st hinv0
    (releases_live_take L calls (s0, []) n hlive) hst
  refine ⟨st, hst, ?_, ?_⟩
  · intro p hp
    rw [(hout p hp).2]; omega
  · intro p hp
    exact (hfree p (mem_of_onList hp ys hys)).2

theorem outstanding_counted_and_free_uncounted_witness :
    ∃ st, run_after_kinit demo_layout (fun _ => 0) (fun _ _ => 0) (demo_calls.take 3) = some st ∧
      (∀ p ∈ st.2, ref_of demo_layout st.1 p ≠ 0) ∧
      (∀ p, OnList st.1.next st.1.freelist p → ref_of demo_layout st.1 p = 0) :=
  outstanding_counted_and_free_uncounted demo_layout (fun _ => 0) (fun _ _ => 0) demo_calls
    (by decide) (by decide) (by decide) (by decide) 3

end Multithreading

/-! ## Cutting an intrusive list -/

theorem isFreeList_after {next : Nat → Nat} :
    ∀ (xs : List Nat) (head i p : Nat), IsFreeList next head xs → xs[i]? = some p →
      IsFreeList next (next p) (xs.drop (i + 1))
  | [], _, _, _, _, hp => by simp at hp
  | q :: xs, head, 0, p, h, hp => by
    simp only [List.getElem?_cons_zero, Option.some.injEq] at hp
    subst hp
    simpa using h.2.2
  | q :: xs, head, i + 1, p, h, hp => by
    simp only [List.getElem?_cons_succ] at hp
    simpa using isFreeList_after xs (next q) i p h.2.2 hp

theorem isFreeList_cut {next : Nat → Nat} :
    ∀ (xs : List Nat) (head i p : Nat), IsFreeList next head xs → xs.Nodup →
      xs[i]? = some p → IsFreeList (Function.update next p 0) head (xs.take (i + 1))
  | [], _, _, _, _, _, hp => by simp at hp
  | q :: xs, head, 0, p, h, _, hp => by
    simp only [List.getElem?_cons_zero, Option.some.injEq] at hp
    subst hp
    simp only [Nat.zero_add, List.take_succ_cons, List.take_zero]
    exact ⟨h.1, h.2.1, Function.update_same _ _ _⟩
  | q :: xs, head, i + 1, p, h, hnd, hp => by
    simp only [List.getElem?_cons_succ] at hp
    have hpin : p ∈ xs := List.getElem?_mem hp
    have hqp : q ≠ p := fun e => (List.nodup_cons.mp hnd).1 (e ▸ hpin)
    simp only [List.take_succ_cons]
    refine ⟨h.1, h.2.1, ?_⟩
    rw [Function.update_noteq hqp]
    exact isFreeList_cut xs (next q) i p h.2.2 (List.nodup_cons.mp hnd).2 hp

namespace Locks

/-! ## The midpoint walk -/

theorem midpoint_walk_null (next : Nat → Nat) (fuel slow_ptr : Nat) :
    midpoint_walk next fuel slow_ptr 0 = some slow_ptr := by
  cases fuel <;> simp [midpoint_walk]

theorem midpoint_walk_spec (next : Nat → Nat) :
    ∀ (fuel : Nat) (ys zs : List Nat) (slow_ptr fast_ptr : Nat),
      IsFreeList next slow_ptr ys → IsFreeList next fast_ptr zs →
      zs.length / 2 < ys.length → zs.length ≤ fuel →
      midpoint_walk next fuel slow_ptr fast_ptr = ys[zs.length / 2]? := by
  intro fuel
  induction fuel with
  | zero =>
    intro ys zs slow_ptr fast_ptr hy hz hlen hfuel
    have hzs : zs = [] := List.length_eq_zero.mp (Nat.le_zero.mp hfuel)
    subst hzs
    have hf : fast_ptr = 0 := hz
    subst hf
    cases ys with
    | nil => simp at hlen
    | cons y ys => simp [midpoint_walk, hy.1]
  | succ fuel ih =>
    intro ys zs slow_ptr fast_ptr hy hz hlen hfuel
    cases ys with
    | nil => simp at hlen
    | cons y ys =>
      obtain ⟨hy1, hy2, hy3⟩ := hy
      cases zs with
      | nil =>
        have hf : fast_ptr = 0 := hz
        subst hf
        simp [midpoint_walk, hy1]
      | cons z1 zs =>
        obtain ⟨hz1, hz2, hz3⟩ := hz
        subst hz1
        cases zs with
        | nil =>
          have hn : next fast_ptr = 0 := hz3
          simp [midpoint_walk, hz2, hn, midpoint_walk_null, hy1]
        | cons z2 zs =>
          obtain ⟨hz4, hz5, hz6⟩ := hz3
          simp only [List.length_cons] at hlen hfuel
          have hidx : (zs.length + 1 + 1) / 2 = zs.length / 2 + 1 := by omega
          have hrec := ih ys zs (next y) (next z2) hy3 hz6 (by omega) (by omega)
          subst hy1
          simp only [midpoint_walk, if_neg hz2, hz4, ne_eq, hz5, not_false_eq_true, if_true,
            List.length_cons, hidx, List.getElem?_cons_succ]
          exact hrec


/-! ## Stealing half of a victim's list -/

theorem steal_half_spec (fuel : Nat) (s : KMem) (v : Nat) (xs : List Nat)
    (hl : IsFreeList s.next (s.freelist v) xs) (hne : xs ≠ []) (hfuel : xs.length ≤ fuel) :
    ∃ slow_ptr, xs[(xs.length - 1) / 2]? = some slow_ptr ∧
      steal_half fuel s v = some
        ({ s with freelist := Function.update s.freelist v (s.next slow_ptr),
                  next := Function.update s.next slow_ptr 0 }, s.freelist v) ∧
      IsFreeList (Function.update s.next slow_ptr 0) (s.freelist v)
        (xs.take ((xs.length + 1) / 2)) ∧
      IsFreeList (Function.update s.next slow_ptr 0) (s.next slow_ptr)
        (xs.drop ((xs.length + 1) / 2)) := by
  cases xs with
  | nil => exact absurd rfl hne
  | cons x xs =>
    have hnd := isFreeList_nodup _ _ hl
    obtain ⟨hx1, hx2, hx3⟩ := hl
    have hlen : (x :: xs).length - 1 = xs.length := rfl
    have hidx : ((x :: xs).length + 1) / 2 = xs.length / 2 + 1 := by
      simp only [List.length_cons]; omega
    have hlt : xs.length / 2 < (x :: xs).length := by
      simp only [List.length_cons]; omega
    have hwalk := midpoint_walk_spec s.next fuel (x :: xs) xs (s.freelist v)
      (s.next (s.freelist v)) ⟨hx1, hx2, hx3⟩ (by rw [hx1]; exact hx3) hlt
      (by simp only [List.length_cons] at hfuel; omega)
    obtain ⟨slow_ptr, hslow⟩ : ∃ p, (x :: xs)[xs.length / 2]? = some p :=
      ⟨(x :: xs).get ⟨xs.length / 2, hlt⟩, List.getElem?_eq_getElem hlt⟩
    rw [hslow] at hwalk
    refine ⟨slow_ptr, by rw [hlen]; exact hslow, ?_, ?_, ?_⟩
    · simp only [steal_half, hwalk]
    · rw [hidx]
      exact isFreeList_cut (x :: xs) _ _ slow_ptr ⟨hx1, hx2, hx3⟩ hnd hslow
    · rw [hidx]
      have hafter := isFreeList_after (x :: xs) _ _ slow_ptr ⟨hx1, hx2, hx3⟩ hslow
      refine isFreeList_frame _ _ (fun q hq => Function.update_noteq ?_ _ _) hafter
      intro e
      subst e
      have hin : q ∈ (x :: xs).take (xs.length / 2 + 1) := by
        rw [List.mem_iff_getElem?]
        refine ⟨xs.length / 2, ?_⟩
        rw [List.getElem?_take_of_lt (by omega)]
        exact hslow
      have hdis := List.disjoint_take_drop hnd (Nat.le_refl (xs.length / 2 + 1))
      exact hdis hin hq

theorem next_target (NCPU t : Nat) (ht : t < NCPU) :
    (if t + 1 = NCPU then 0 else t + 1) = (t + 1) % NCPU := by
  by_cases h : t + 1 = NCPU
  · rw [if_pos h, h, Nat.mod_self]
  · rw [if_neg h, Nat.mod_eq_of_lt (by omega)]

theorem steal_scan_first (NCPU fuel : Nat) (s : KMem) :
    ∀ (n t k : Nat), t < NCPU → 1 ≤ k → k ≤ n →
      (∀ j, 1 ≤ j → j < k → s.freelist ((t + j) % NCPU) = 0) →
      s.freelist ((t + k) % NCPU) ≠ 0 →
      steal_scan NCPU fuel s n t = steal_half fuel s ((t + k) % NCPU) := by
  intro n
  induction n with
  | zero => intro t k _ h1 h2; omega
  | succ n ih =>
    intro t k ht h1 h2 hzero hk
    simp only [steal_scan, next_target NCPU t ht]
    by_cases hk1 : k = 1
    · subst hk1
      rw [if_pos hk]
    · have hz := hzero 1 (Nat.le_refl 1) (by omega)
      rw [if_neg (by simpa using hz)]
      have hmod : ∀ j, ((t + 1) % NCPU + j) % NCPU = (t + (j + 1)) % NCPU := by
        intro j
        rw [Nat.mod_add_mod]
        congr 1
        omega
      have hrec := ih ((t + 1) % NCPU) (k - 1) (Nat.mod_lt _ (by omega)) (by omega) (by omega)
        (by
          intro j hj1 hj2
          rw [hmod]
          exact hzero (j + 1) (by omega) (by omega))
        (by
          rw [hmod]
          have : k - 1 + 1 = k := by omega
          rw [this]
          exact hk)
      rw [hrec, hmod]
      have : k - 1 + 1 = k := by omega
      rw [this]

theorem steal_scan_none (NCPU fuel : Nat) (s : KMem) :
    ∀ (n t : Nat), t < NCPU →
      (∀ j, 1 ≤ j → j ≤ n → s.freelist ((t + j) % NCPU) = 0) →
      steal_scan NCPU fuel s n t = some (s, 0) := by
  intro n
  induction n with
  | zero => intro t _ _; rfl
  | succ n ih =>
    intro t ht hzero
    simp only [steal_scan, next_target NCPU t ht]
    have hz := hzero 1 (Nat.le_refl 1) (by omega)
    rw [if_neg (by simpa using hz)]
    refine ih ((t + 1) % NCPU) (Nat.mod_lt _ (by omega)) ?_
    intro j hj1 hj2
    rw [Nat.mod_add_mod]
    have : t + 1 + j = t + (j + 1) := by omega
    rw [this]
    exact hzero (j + 1) (by omega) (by omega)

/-- Claim C8: when `steal_pages_from_other_cpu` takes from a victim (the
first CPU after the caller, in cyclic order, whose list is not empty) whose
list has `n >= 1` nodes, it returns, the returned list is exactly the first
`ceil(n/2)` nodes of the victim's list in their original order, and the
victim's list becomes exactly the remaining `floor(n/2)` nodes in their
original order. -/
theorem steal_takes_first_half (NCPU fuel : Nat) (s : KMem) (c k : Nat) (xs : List Nat)
    (hc : c < NCPU) (hk1 : 1 ≤ k) (hk : k < NCPU)
    (hempty : ∀ j, 1 ≤ j → j < k → s.freelist ((c + j) % NCPU) = 0)
    (hl : IsFreeList s.next (s.freelist ((c + k) % NCPU)) xs) (hne : xs ≠ [])
    (hfuel : xs.length ≤ fuel) :
    ∃ s1 stolen, steal_pages_from_other_cpu NCPU fuel s c = some (s1, stolen) ∧
      IsFreeList s1.next stolen (xs.take ((xs.length + 1) / 2)) ∧
      IsFreeList s1.next (s1.freelist ((c + k) % NCPU)) (xs.drop ((xs.length + 1) / 2)) ∧
      (xs.take ((xs.length + 1) / 2)).length = (xs.length + 1) / 2 ∧
      (xs.drop ((xs.length + 1) / 2)).length = xs.length / 2 := by
  have hhead : s.freelist ((c + k) % NCPU) ≠ 0 := by
    cases xs with
    | nil => exact absurd rfl hne
    | cons x xs => rw [hl.1]; exact hl.2.1
  obtain ⟨slow_ptr, _, hsteal, htake, hdrop⟩ :=
    steal_half_spec fuel s ((c + k) % NCPU) xs hl hne hfuel
  refine ⟨{ s with
      freelist := Function.update s.freelist ((c + k) % NCPU) (s.next slow_ptr),
      next := Function.update s.next slow_ptr 0 }, s.freelist ((c + k) % NCPU),
    ?_, htake, ?_, ?_, ?_⟩
  · unfold steal_pages_from_other_cpu
    rw [steal_scan_first NCPU fuel s (NCPU - 1) c k hc hk1 (by omega) hempty hhead]
    exact hsteal
  · simpa using hdrop
  · rw [List.length_take]; omega
  · rw [List.length_drop]; omega

theorem steal_takes_first_half_witness :
    ∃ s1 stolen, steal_pages_from_other_cpu 4 3 demo_state 3 = some (s1, stolen) ∧
      IsFreeList s1.next stolen [0x80001000, 0x80002000] ∧
      IsFreeList s1.next (s1.freelist 1) [0x80003000] ∧
      [0x80001000, 0x80002000].length = 2 ∧ [0x80003000].length = 1 :=
  steal_takes_first_half 4 3 demo_state 3 2 [0x80001000, 0x80002000, 0x80003000]
    (by decide) (by decide) (by decide)
    (fun j h1 h2 => by
      have hj : j = 1 := by omega
      subst hj
      decide)
    (by decide) (by decide) (by decide)


/-! ## `kalloc` with stealing -/

theorem cyclic_ne (NCPU c k : Nat) (hc : c < NCPU) (hk1 : 1 ≤ k) (hk : k < NCPU) :
    (c + k) % NCPU ≠ c := by
  by_cases h : c + k < NCPU
  · rw [Nat.mod_eq_of_lt h]; omega
  · rw [Nat.mod_eq_sub_mod (by omega), Nat.mod_eq_of_lt (by omega)]; omega

theorem kalloc_steal_spec (NCPU fuel : Nat) (s : KMem) (c k : Nat) (x : Nat) (rest : List Nat)
    (hc : c < NCPU) (hk1 : 1 ≤ k) (hk : k < NCPU)
    (hown : s.freelist c = 0)
    (hempty : ∀ j, 1 ≤ j → j < k → s.freelist ((c + j) % NCPU) = 0)
    (hl : IsFreeList s.next (s.freelist ((c + k) % NCPU)) (x :: rest))
    (hfuel : (x :: rest).length ≤ fuel) :
    ∃ slow_ptr s1, slow_ptr ∈ x :: rest ∧ kalloc NCPU fuel s c = some (s1, x) ∧
      s1.next = Function.update (Function.update s.next slow_ptr 0) x (junk_word 5) ∧
      (∀ i, i ≠ c → i ≠ (c + k) % NCPU → s1.freelist i = s.freelist i) ∧
      IsFreeList s1.next (s1.freelist c) (rest.take (rest.length / 2)) ∧
      IsFreeList s1.next (s1.freelist ((c + k) % NCPU)) (rest.drop (rest.length / 2)) := by
  have hnd := isFreeList_nodup _ _ hl
  have hxr : x ∉ rest := (List.nodup_cons.mp hnd).1
  have hvc := cyclic_ne NCPU c k hc hk1 hk
  have hx : s.freelist ((c + k) % NCPU) = x := hl.1
  have hx0 : x ≠ 0 := hl.2.1
  obtain ⟨slow_ptr, hslow, hsteal, htake, hdrop⟩ :=
    steal_half_spec fuel s ((c + k) % NCPU) (x :: rest) hl (List.cons_ne_nil x rest) hfuel
  have hidx : ((x :: rest).length + 1) / 2 = rest.length / 2 + 1 := by
    simp only [List.length_cons]; omega
  rw [hidx] at htake hdrop
  simp only [List.take_succ_cons, List.drop_succ_cons] at htake hdrop
  rw [hx] at htake hsteal
  obtain ⟨_, _, hmine⟩ := htake
  have hscan : steal_pages_from_other_cpu NCPU fuel s c = some
      ({ s with freelist := Function.update s.freelist ((c + k) % NCPU) (s.next slow_ptr),
                next := Function.update s.next slow_ptr 0 }, x) := by
    unfold steal_pages_from_other_cpu
    rw [steal_scan_first NCPU fuel s (NCPU - 1) c k hc hk1 (by omega) hempty (by rw [hx]; exact hx0)]
    exact hsteal
  refine ⟨slow_ptr,
    { freelist := Function.update
        (Function.update s.freelist ((c + k) % NCPU) (s.next slow_ptr)) c
        (Function.update s.next slow_ptr 0 x),
      next := Function.update (Function.update s.next slow_ptr 0) x (junk_word 5),
      bytes := Function.update s.bytes x (fun _ => 5) },
    List.getElem?_mem hslow, ?_, rfl, ?_, ?_, ?_⟩
  · simp only [kalloc, hown, ne_eq, not_true_eq_false, if_false, hscan, hx0, not_false_eq_true,
      if_true, memset]
  · intro i hic hiv
    simp only [Function.update_noteq hic, Function.update_noteq hiv]
  · simp only [Function.update_same]
    exact isFreeList_frame _ _ (fun q hq => Function.update_noteq
      (fun e : q = x => hxr (e ▸ List.mem_of_mem_take hq)) _ _) hmine
  · simp only [Function.update_noteq hvc, Function.update_same]
    exact isFreeList_frame _ _ (fun q hq => Function.update_noteq
      (fun e : q = x => hxr (e ▸ List.mem_of_mem_drop hq)) _ _) hdrop

/-- Claim C9: for a `kalloc` on a core whose own list is empty and that steals
from a victim (the first core after it, in cyclic order, with a non-empty
list; all lists proper and disjoint from the victim's), the call returns a
frame, and the frame returned followed by the stealer's list afterwards and
the victim's list afterwards is exactly the victim's list before the call,
which has no duplicates: no frame is lost or duplicated.  Every other core's
list head and list are unchanged. -/
theorem kalloc_steal_conserves_frames (NCPU fuel : Nat) (s : KMem) (c k : Nat)
    (lists : Nat → List Nat) (hc : c < NCPU) (hk1 : 1 ≤ k) (hk : k < NCPU)
    (hlists : ∀ i, i < NCPU → IsFreeList s.next (s.freelist i) (lists i))
    (hdisj : ∀ i, i < NCPU → i ≠ (c + k) % NCPU →
      ∀ p ∈ lists i, p ∉ lists ((c + k) % NCPU))
    (hown : lists c = [])
    (hempty : ∀ j, 1 ≤ j → j < k → lists ((c + j) % NCPU) = [])
    (hne : lists ((c + k) % NCPU) ≠ [])
    (hfuel : (lists ((c + k) % NCPU)).length ≤ fuel) :
    ∃ s1 page mine theirs, kalloc NCPU fuel s c = some (s1, page) ∧
      IsFreeList s1.next (s1.freelist c) mine ∧
      IsFreeList s1.next (s1.freelist ((c + k) % NCPU)) theirs ∧
      page :: (mine ++ theirs) = lists ((c + k) % NCPU) ∧
      (lists ((c + k) % NCPU)).Nodup ∧
      ∀ i, i < NCPU → i ≠ c → i ≠ (c + k) % NCPU →
        s1.freelist i = s.freelist i ∧ IsFreeList s1.next (s1.freelist i) (lists i) := by
  have hpos : 0 < NCPU := by omega
  have hv := hlists ((c + k) % NCPU) (Nat.mod_lt _ hpos)
  cases hxs : lists ((c + k) % NCPU) with
  | nil => exact absurd hxs hne
  | cons x rest =>
    rw [hxs] at hv hfuel
    have hown0 : s.freelist c = 0 := by
      have := hlists c hc
      rw [hown] at this
      exact this
    have hempty0 : ∀ j, 1 ≤ j → j < k → s.freelist ((c + j) % NCPU) = 0 := by
      intro j h1 h2
      have := hlists ((c + j) % NCPU) (Nat.mod_lt _ hpos)
      rw [hempty j h1 h2] at this
      exact this
    obtain ⟨slow_ptr, s1, hslow, hkalloc, hnext, hheads, hmine, htheirs⟩ :=
      kalloc_steal_spec NCPU fuel s c k x rest hc hk1 hk hown0 hempty0 hv hfuel
    refine ⟨s1, x, _, _, hkalloc, hmine, htheirs, ?_, isFreeList_nodup _ _ hv, ?_⟩
    · rw [List.take_append_drop]
    · intro i hi hic hiv
      have hhead := hheads i hic hiv
      refine ⟨hhead, ?_⟩
      rw [hhead, hnext]
      refine isFreeList_frame _ _ (fun q hq => ?_) (hlists i hi)
      have hq : q ∉ x :: rest := hxs ▸ hdisj i hi hiv q hq
      rw [Function.update_noteq (fun e : q = x => hq (e ▸ List.mem_cons_self x rest)),
        Function.update_noteq (fun e : q = slow_ptr => hq (e ▸ hslow))]

theorem kalloc_steal_conserves_frames_witness :
    ∃ s1 page mine theirs, kalloc 4 3 demo_state 0 = some (s1, page) ∧
      IsFreeList s1.next (s1.freelist 0) mine ∧
      IsFreeList s1.next (s1.freelist 1) theirs ∧
      page :: (mine ++ theirs) = [0x80001000, 0x80002000, 0x80003000] ∧
      [0x80001000, 0x80002000, 0x80003000].Nodup ∧
      ∀ i, i < 4 → i ≠ 0 → i ≠ 1 →
        s1.freelist i = demo_state.freelist i ∧
          IsFreeList s1.next (s1.freelist i) (demo_lists i) :=
  kalloc_steal_conserves_frames 4 3 demo_state 0 1 demo_lists
    (by decide) (by decide) (by decide) (by decide) (by decide) (by decide)
    (fun j h1 h2 => by omega) (by decide) (by decide)


/-! ## Victim selection -/

theorem cyclic_surj (NCPU c i : Nat) (hc : c < NCPU) (hi : i < NCPU) (hne : i ≠ c) :
    ∃ k, 1 ≤ k ∧ k < NCPU ∧ (c + k) % NCPU = i := by
  by_cases h : c < i
  · exact ⟨i - c, by omega, by omega, by
      have : c + (i - c) = i := by omega
      rw [this, Nat.mod_eq_of_lt hi]⟩
  · exact ⟨NCPU - c + i, by omega, by omega, by
      have : c + (NCPU - c + i) = NCPU + i := by omega
      rw [this, Nat.add_mod_left, Nat.mod_eq_of_lt hi]⟩

theorem steal_half_snd (fuel : Nat) (s s1 : KMem) (v p : Nat)
    (h : steal_half fuel s v = some (s1, p)) : p = s.freelist v := by
  simp only [steal_half] at h
  cases hw : midpoint_walk s.next fuel (s.freelist v) (s.next (s.freelist v)) with
  | none => rw [hw] at h; exact absurd h (by simp)
  | some slow_ptr =>
    rw [hw] at h
    simp only [Option.some.injEq, Prod.mk.injEq] at h
    exact h.2.symm

theorem steal_scan_zero (NCPU fuel : Nat) (s s1 : KMem) :
    ∀ (n t : Nat), t < NCPU → steal_scan NCPU fuel s n t = some (s1, 0) →
      s1 = s ∧ ∀ j, 1 ≤ j → j ≤ n → s.freelist ((t + j) % NCPU) = 0 := by
  intro n
  induction n with
  | zero =>
    intro t _ h
    simp only [steal_scan, Option.some.injEq, Prod.mk.injEq] at h
    exact ⟨h.1.symm, fun j h1 h2 => by omega⟩
  | succ n ih =>
    intro t ht h
    simp only [steal_scan, next_target NCPU t ht] at h
    by_cases hz : s.freelist ((t + 1) % NCPU) = 0
    · rw [if_neg (by simpa using hz)] at h
      obtain ⟨hs, hrest⟩ := ih ((t + 1) % NCPU) (Nat.mod_lt _ (by omega)) h
      refine ⟨hs, ?_⟩
      intro j h1 h2
      by_cases hj : j = 1
      · subst hj; exact hz
      · have := hrest (j - 1) (by omega) (by omega)
        rw [Nat.mod_add_mod] at this
        have he : t + 1 + (j - 1) = t + j := by omega
        rw [he] at this
        exact this
    · rw [if_pos hz] at h
      exact absurd (steal_half_snd fuel s s1 _ 0 h).symm hz

theorem steal_half_with_head (fuel : Nat) (s : KMem) (c v head : Nat) (hvc : v ≠ c) :
    steal_half fuel (with_head s c head) v
      = (steal_half fuel s v).map (fun r => (with_head r.1 c head, r.2)) := by
  have hv : Function.update s.freelist c head v = s.freelist v := Function.update_noteq hvc _ _
  simp only [steal_half, with_head, hv]
  cases midpoint_walk s.next fuel (s.freelist v) (s.next (s.freelist v)) with
  | none => rfl
  | some slow_ptr =>
    simp only [Option.map_some', Option.some.injEq, Prod.mk.injEq, and_true]
    rw [Function.update_comm hvc]

theorem steal_scan_with_head (NCPU fuel : Nat) (s : KMem) (c head : Nat) :
    ∀ (n t : Nat), t < NCPU → (∀ j, 1 ≤ j → j ≤ n → (t + j) % NCPU ≠ c) →
      steal_scan NCPU fuel (with_head s c head) n t
        = (steal_scan NCPU fuel s n t).map (fun r => (with_head r.1 c head, r.2)) := by
  intro n
  induction n with
  | zero => intro t _ _; rfl
  | succ n ih =>
    intro t ht hne
    have hvc := hne 1 (Nat.le_refl 1) (by omega)
    have hv : (with_head s c head).freelist ((t + 1) % NCPU) = s.freelist ((t + 1) % NCPU) :=
      Function.update_noteq hvc _ _
    simp only [steal_scan, next_target NCPU t ht, hv]
    by_cases hz : s.freelist ((t + 1) % NCPU) = 0
    · rw [if_neg (by simpa using hz), if_neg (by simpa using hz)]
      refine ih ((t + 1) % NCPU) (Nat.mod_lt _ (by omega)) ?_
      intro j h1 h2
      rw [Nat.mod_add_mod]
      have he : t + 1 + j = t + (j + 1) := by omega
      rw [he]
      exact hne (j + 1) (by omega) (by omega)
    · rw [if_pos hz, if_pos hz]
      exact steal_half_with_head fuel s c _ head hvc

/-- Claim C10: for a core `c` the victim of `steal_pages_from_other_cpu` is
the first core with a non-empty list in the cyclic order `c+1, ..., c+NCPU-1`
(mod `NCPU`), which is never `c`; the outcome does not depend on the list head
of `c` itself, which is neither read nor written; and `kalloc` returns `0`
exactly when all `NCPU` lists are empty, in which case the state is unchanged. -/
theorem steal_victim_first_nonempty_in_cyclic_order (NCPU fuel : Nat) (s : KMem) (c : Nat)
    (hc : c < NCPU) :
    (∀ k, 1 ≤ k → k < NCPU → (∀ j, 1 ≤ j → j < k → s.freelist ((c + j) % NCPU) = 0) →
      s.freelist ((c + k) % NCPU) ≠ 0 →
      (c + k) % NCPU ≠ c ∧
        steal_pages_from_other_cpu NCPU fuel s c = steal_half fuel s ((c + k) % NCPU)) ∧
    (∀ head, steal_pages_from_other_cpu NCPU fuel (with_head s c head) c
      = (steal_pages_from_other_cpu NCPU fuel s c).map
          (fun r => (with_head r.1 c head, r.2))) ∧
    ((∃ s1, kalloc NCPU fuel s c = some (s1, 0)) ↔ ∀ i, i < NCPU → s.freelist i = 0) ∧
    (∀ s1, kalloc NCPU fuel s c = some (s1, 0) → s1 = s) := by
  have hzero : ∀ s1, kalloc NCPU fuel s c = some (s1, 0) →
      s1 = s ∧ ∀ i, i < NCPU → s.freelist i = 0 := by
    intro s1 h
    unfold kalloc at h
    by_cases hown : s.freelist c = 0
    · simp only [hown, ne_eq, not_true_eq_false, if_false] at h
      cases hst : steal_pages_from_other_cpu NCPU fuel s c with
      | none => rw [hst] at h; exact absurd h (by simp)
      | some r =>
        obtain ⟨s2, stolen⟩ := r
        rw [hst] at h
        by_cases hs0 : stolen = 0
        · subst hs0
          simp only [ne_eq, not_true_eq_false, if_false, Option.some.injEq, Prod.mk.injEq,
            and_true] at h
          subst h
          obtain ⟨hs, hall⟩ := steal_scan_zero NCPU fuel s s2 (NCPU - 1) c hc hst
          refine ⟨hs, ?_⟩
          intro i hi
          by_cases hic : i = c
          · rw [hic]; exact hown
          · obtain ⟨k, h1, h2, h3⟩ := cyclic_surj NCPU c i hc hi hic
            rw [← h3]
            exact hall k h1 (by omega)
        · simp only [ne_eq, hs0, not_false_eq_true, if_true, Option.some.injEq,
            Prod.mk.injEq] at h
          exact h.2.elim
    · simp only [ne_eq, hown, not_false_eq_true, if_true, Option.some.injEq,
        Prod.mk.injEq] at h
      exact h.2.elim
  refine ⟨?_, ?_, ?_, fun s1 h => (hzero s1 h).1⟩
  · intro k hk1 hk hempty hne
    refine ⟨cyclic_ne NCPU c k hc hk1 hk, ?_⟩
    unfold steal_pages_from_other_cpu
    exact steal_scan_first NCPU fuel s (NCPU - 1) c k hc hk1 (by omega) hempty hne
  · intro head
    unfold steal_pages_from_other_cpu
    exact steal_scan_with_head NCPU fuel s c head (NCPU - 1) c hc
      (fun j h1 h2 => cyclic_ne NCPU c j hc h1 (by omega))
  · constructor
    · rintro ⟨s1, h⟩
      exact (hzero s1 h).2
    · intro hall
      refine ⟨s, ?_⟩
      have hst : steal_pages_from_other_cpu NCPU fuel s c = some (s, 0) := by
        unfold steal_pages_from_other_cpu
        exact steal_scan_none NCPU fuel s (NCPU - 1) c hc
          (fun j _ _ => hall _ (Nat.mod_lt _ (by omega)))
      simp [kalloc, hall c hc, hst]

theorem steal_victim_first_nonempty_in_cyclic_order_witness :
    (3 + 2) % 4 ≠ 3 ∧
      steal_pages_from_other_cpu 4 3 demo_state 3 = steal_half 3 demo_state ((3 + 2) % 4) :=
  (steal_victim_first_nonempty_in_cyclic_order 4 3 demo_state 3 (by decide)).1 2
    (by decide) (by decide)
    (fun j h1 h2 => by
      have hj : j = 1 := by omega
      subst hj
      decide)
    (by decide)

end Locks

/-! ## Memory-mapped files: `sys_mmap` -/

namespace Mmap

/-! ## `sys_mmap` -/

theorem wrap64_of_fits {i : Int} (h0 : 0 ≤ i) (h1 : i < 2 ^ 64) : (wrap64 i : Int) = i := by
  unfold wrap64
  rw [Int.toNat_of_nonneg (Int.emod_nonneg _ (by norm_num)), Int.emod_eq_of_lt h0 h1]

theorem first_index_none {t : virtual_memory_area → Bool} :
    ∀ l : List virtual_memory_area, first_index t l = none ↔ ∀ r ∈ l, t r = false
  | [] => by simp [first_index]
  | r :: rs => by
    have ih := first_index_none (t := t) rs
    by_cases h : t r = true
    · simp [first_index, h]
    · simp only [Bool.not_eq_true] at h
      simp [first_index, h, ih]

theorem first_index_some {test : virtual_memory_area → Bool} :
    ∀ (l : List virtual_memory_area) (i : Nat), first_index test l = some i →
      ∃ r, l[i]? = some r ∧ test r = true ∧ ∀ j q, j < i → l[j]? = some q → test q = false
  | [], _, h => by simp [first_index] at h
  | r :: rs, i, h => by
    by_cases ht : test r = true
    · simp only [first_index, ht, if_true, Option.some.injEq] at h
      subst h
      exact ⟨r, by simp, ht, fun j q hj _ => absurd hj (Nat.not_lt_zero j)⟩
    · simp only [first_index, ht, Bool.false_eq_true, if_false, Option.map_eq_some'] at h
      obtain ⟨k, hk, rfl⟩ := h
      obtain ⟨q, hq, htq, hbefore⟩ := first_index_some rs k hk
      refine ⟨q, by simpa using hq, htq, ?_⟩
      intro j p hj hp
      cases j with
      | zero =>
        simp only [List.getElem?_cons_zero, Option.some.injEq] at hp
        subst hp
        simpa using ht
      | succ j =>
        simp only [List.getElem?_cons_succ] at hp
        exact hbefore j p (by omega) hp

theorem first_index_eq {test : virtual_memory_area → Bool} :
    ∀ (l : List virtual_memory_area) (i : Nat) (r : virtual_memory_area),
      l[i]? = some r → test r = true → (∀ j q, j < i → l[j]? = some q → test q = false) →
      first_index test l = some i
  | [], _, _, h, _, _ => by simp at h
  | p :: ps, 0, r, h, ht, _ => by
    simp only [List.getElem?_cons_zero, Option.some.injEq] at h
    subst h
    simp [first_index, ht]
  | p :: ps, i + 1, r, h, ht, hb => by
    have hp : test p = false := hb 0 p (by omega) (by simp)
    simp only [List.getElem?_cons_succ] at h
    have ih := first_index_eq ps i r h ht
      (fun j q hj hq => hb (j + 1) q (by omega) (by simpa using hq))
    simp [first_index, hp, ih]

/-- Claim C11: `sys_mmap` with sharing `MAP_SHARED` and `PROT_WRITE` requested
on a file that is not writable returns `-1` and changes nothing: the VMA
table, the reference counts and the log of collaborator calls are as before,
so no slot is consumed and `filedup` is not called. -/
theorem mmap_shared_write_needs_writable_file (C : Consts) (s : State) (length : Int)
    (protection_flags : Nat) (fd : Int) (file_offset : Int) (f : Nat)
    (hfd : argfd s fd = some f) (hw : s.file_writable f = 0)
    (hp : protection_flags &&& C.PROT_WRITE ≠ 0) :
    sys_mmap C s length protection_flags C.MAP_SHARED fd file_offset = (s, ERR) := by
  simp [sys_mmap, hfd, hw, hp]

theorem mmap_shared_write_needs_writable_file_witness :
    sys_mmap demo_consts demo_state 8192 3 demo_consts.MAP_SHARED 0 0 = (demo_state, ERR) :=
  mmap_shared_write_needs_writable_file demo_consts demo_state 8192 3 0 0 0x1000
    (by decide) (by decide) (by decide)

theorem mmap_address_mod (C : Consts) (vma : List virtual_memory_area) :
    mmap_address C vma % PGSIZE = 0 := by
  unfold mmap_address PGROUNDUP PGSIZE
  omega

theorem mmap_cases (C : Consts) (s : State) (length : Int)
    (protection_flags mapping_flags : Nat) (fd : Int) (file_offset : Int) :
    sys_mmap C s length protection_flags mapping_flags fd file_offset = (s, ERR) ∨
    ∃ f i, argfd s fd = some f ∧
      (mapping_flags = C.MAP_SHARED ∨ mapping_flags = C.MAP_PRIVATE) ∧
      0 ≤ length ∧ 0 ≤ file_offset ∧ file_offset % (PGSIZE : Int) = 0 ∧
      first_index (fun r => r.is_valid == 0) s.vma = some i ∧
      wrap64 ((mmap_address C s.vma : Nat) + length) ≤ C.TRAPFRAME ∧
      sys_mmap C s length protection_flags mapping_flags fd file_offset =
        (filedup { s with vma := (s.vma.set i ⟨mmap_address C s.vma, length,
            protection_flags, mapping_flags, file_offset, f, 1⟩) } f,
          mmap_address C s.vma) := by
  unfold sys_mmap
  cases hfd : argfd s fd with
  | none => exact Or.inl rfl
  | some f =>
    by_cases h1 : mapping_flags ≠ C.MAP_SHARED ∧ mapping_flags ≠ C.MAP_PRIVATE
    · left; simp only [if_pos h1]
    · by_cases h2 : mapping_flags = C.MAP_SHARED ∧ s.file_writable f = 0 ∧
          protection_flags &&& C.PROT_WRITE ≠ 0
      · left; simp only [if_neg h1, if_pos h2]
      · by_cases h3 : length < 0 ∨ file_offset < 0 ∨ file_offset % (PGSIZE : Int) ≠ 0
        · left; simp only [if_neg h1, if_neg h2, if_pos h3]
        · cases hi : first_index (fun r => r.is_valid == 0) s.vma with
          | none => left; simp only [if_neg h1, if_neg h2, if_neg h3]
          | some i =>
            by_cases h4 : wrap64 ((mmap_address C s.vma : Nat) + length) > C.TRAPFRAME
            · left; simp only [if_neg h1, if_neg h2, if_neg h3, if_pos h4]
            · right
              refine ⟨f, i, rfl, ?_, ?_, ?_, ?_, rfl, by omega, ?_⟩
              · by_contra hc; exact h1 ⟨fun e => hc (Or.inl e), fun e => hc (Or.inr e)⟩
              · by_contra hc; exact h3 (Or.inl (by omega))
              · by_contra hc; exact h3 (Or.inr (Or.inl (by omega)))
              · by_contra hc; exact h3 (Or.inr (Or.inr hc))
              · simp only [if_neg h1, if_neg h2, if_neg h3, if_neg h4]

theorem mmap_err_unchanged (C : Consts) (s : State) (length : Int)
    (protection_flags mapping_flags : Nat) (fd : Int) (file_offset : Int)
    (h : (sys_mmap C s length protection_flags mapping_flags fd file_offset).2 = ERR) :
    (sys_mmap C s length protection_flags mapping_flags fd file_offset).1 = s := by
  rcases mmap_cases C s length protection_flags mapping_flags fd file_offset with h1 | h1
  · rw [h1]
  · obtain ⟨f, i, _, _, _, _, _, _, _, h2⟩ := h1
    rw [h2] at h
    exfalso
    have hm := mmap_address_mod C s.vma
    simp only at h
    rw [h] at hm
    revert hm
    unfold ERR PGSIZE
    decide

end Mmap

namespace Mmap

theorem mmap_scan_spec :
    ∀ (vma : List virtual_memory_area) (init : Nat),
      init ≤ vma.foldl scan_step init ∧
      (∀ r ∈ vma, r.is_valid ≠ 0 →
        wrap64 (r.start_address + r.length) ≤ vma.foldl scan_step init) ∧
      (vma.foldl scan_step init = init ∨
        ∃ r ∈ vma, r.is_valid ≠ 0 ∧
          vma.foldl scan_step init = wrap64 (r.start_address + r.length))
  | [], init => by simp
  | p :: ps, init => by
    simp only [List.foldl_cons]
    obtain ⟨h1, h2, h3⟩ := mmap_scan_spec ps (scan_step init p)
    have hstep : init ≤ scan_step init p := by
      unfold scan_step; split
      · simp only; split <;> omega
      · exact Nat.le_refl _
    have hp : p.is_valid ≠ 0 → wrap64 (p.start_address + p.length) ≤ scan_step init p := by
      intro hv
      unfold scan_step; rw [if_pos hv]
      simp only; split <;> omega
    have hor : scan_step init p = init ∨
        (p.is_valid ≠ 0 ∧ scan_step init p = wrap64 (p.start_address + p.length)) := by
      unfold scan_step; split
      · rename_i hv
        simp only; split
        · exact Or.inr ⟨hv, rfl⟩
        · exact Or.inl rfl
      · exact Or.inl rfl
    refine ⟨Nat.le_trans hstep h1, ?_, ?_⟩
    · intro r hr hrv
      rcases List.mem_cons.mp hr with e | hin
      · subst e; exact Nat.le_trans (hp hrv) h1
      · exact h2 r hin hrv
    · rcases h3 with h3 | ⟨r, hr, hrv, h3⟩
      · rcases hor with h4 | ⟨hv, h4⟩
        · exact Or.inl (h3.trans h4)
        · exact Or.inr ⟨p, List.mem_cons_self p ps, hv, h3.trans h4⟩
      · exact Or.inr ⟨r, List.mem_cons_of_mem p hr, hrv, h3⟩

theorem region_end_exact (C : Consts) (hC : Fits C) (r : virtual_memory_area)
    (hr : RegionOk C r) (hv : r.is_valid ≠ 0) :
    (wrap64 (r.start_address + r.length) : Int) = r.start_address + r.length := by
  obtain ⟨h0, _, h2⟩ := hr hv
  have hT : (C.TRAPFRAME : Int) < 2 ^ 63 := by exact_mod_cast hC.2
  exact wrap64_of_fits (by omega) (by omega)

/-- The scan of `sys_mmap` on a table of bounded regions: the maximum of
`MMAPMINADDR` and the ends of the valid regions, below `2 ^ 63`. -/
theorem mmap_scan_max (C : Consts) (hC : Fits C) (vma : List virtual_memory_area)
    (hT : ∀ r ∈ vma, RegionOk C r) :
    C.MMAPMINADDR ≤ mmap_scan C vma ∧ mmap_scan C vma < 2 ^ 63 ∧
      (∀ r ∈ vma, r.is_valid ≠ 0 → (r.start_address : Int) + r.length ≤ mmap_scan C vma) ∧
      (mmap_scan C vma = C.MMAPMINADDR ∨
        ∃ r ∈ vma, r.is_valid ≠ 0 ∧ (r.start_address : Int) + r.length = mmap_scan C vma) := by
  obtain ⟨h1, h2, h3⟩ := mmap_scan_spec vma C.MMAPMINADDR
  have hT63 : (C.TRAPFRAME : Int) < 2 ^ 63 := by exact_mod_cast hC.2
  refine ⟨h1, ?_, ?_, ?_⟩
  · rcases h3 with h3 | ⟨r, hr, hrv, h3⟩
    · unfold mmap_scan; rw [h3]; exact hC.1
    · have he := region_end_exact C hC r (hT r hr) hrv
      have hb := (hT r hr hrv).2.2
      unfold mmap_scan
      rw [h3]
      have : (wrap64 (r.start_address + r.length) : Int) < 2 ^ 63 := by omega
      exact_mod_cast this
  · intro r hr hrv
    rw [← region_end_exact C hC r (hT r hr) hrv]
    exact_mod_cast h2 r hr hrv
  · rcases h3 with h3 | ⟨r, hr, hrv, h3⟩
    · exact Or.inl h3
    · refine Or.inr ⟨r, hr, hrv, ?_⟩
      rw [← region_end_exact C hC r (hT r hr) hrv]
      unfold mmap_scan
      rw [h3]

theorem mmap_address_exact (C : Consts) (hC : Fits C) (vma : List virtual_memory_area)
    (hT : ∀ r ∈ vma, RegionOk C r) :
    mmap_address C vma = PGROUNDUP (mmap_scan C vma) ∧
      mmap_scan C vma ≤ mmap_address C vma ∧ mmap_address C vma < 2 ^ 63 + 4096 := by
  obtain ⟨_, h2, _, _⟩ := mmap_scan_max C hC vma hT
  unfold mmap_address PGROUNDUP PGSIZE
  omega

end Mmap

namespace Mmap

/-- Claim C12: `sys_mmap` returns `-1` whenever `length < 0`, `offset < 0`,
the offset is not a multiple of `PGSIZE`, no VMA slot is free, or the chosen
range (which does not overflow 64 bits) would extend past `TRAPFRAME`; and
whenever it returns `-1` the whole state, the VMA table and the reference
counts of the files included, is exactly as before the call. -/
theorem mmap_rejects_without_effect (C : Consts) (s : State) (length : Int)
    (protection_flags mapping_flags : Nat) (fd : Int) (file_offset : Int) :
    ((length < 0 ∨ file_offset < 0 ∨ file_offset % (PGSIZE : Int) ≠ 0 ∨
        (∀ r ∈ s.vma, r.is_valid ≠ 0) ∨
        ((mmap_address C s.vma : Int) + length < 2 ^ 64 ∧
          (C.TRAPFRAME : Int) < mmap_address C s.vma + length)) →
      (sys_mmap C s length protection_flags mapping_flags fd file_offset).2 = ERR) ∧
    ((sys_mmap C s length protection_flags mapping_flags fd file_offset).2 = ERR →
      (sys_mmap C s length protection_flags mapping_flags fd file_offset).1 = s) := by
  refine ⟨?_, mmap_err_unchanged C s length protection_flags mapping_flags fd file_offset⟩
  intro hbad
  rcases mmap_cases C s length protection_flags mapping_flags fd file_offset with h1 | h1
  · rw [h1]
  · obtain ⟨f, i, _, _, hlen, hoff, hal, hslot, hfit, _⟩ := h1
    exfalso
    rcases hbad with h | h | h | h | ⟨h, h'⟩
    · omega
    · omega
    · exact h hal
    · have hnone := (first_index_none (t := fun r => r.is_valid == 0) s.vma).mpr
        (fun r hr => by simpa using h r hr)
      rw [hnone] at hslot
      exact absurd hslot (by simp)
    · have he := wrap64_of_fits (i := (mmap_address C s.vma : Int) + length) (by omega) h
      have : (wrap64 ((mmap_address C s.vma : Int) + length) : Int) ≤ C.TRAPFRAME := by
        exact_mod_cast hfit
      omega

theorem mmap_rejects_without_effect_witness :
    (sys_mmap demo_consts demo_state 8192 3 2 1 100).2 = ERR ∧
      (sys_mmap demo_consts demo_state 8192 3 2 1 100).1 = demo_state :=
  ⟨(mmap_rejects_without_effect demo_consts demo_state 8192 3 2 1 100).1
      (Or.inr (Or.inr (Or.inl (by decide)))),
    (mmap_rejects_without_effect demo_consts demo_state 8192 3 2 1 100).2
      ((mmap_rejects_without_effect demo_consts demo_state 8192 3 2 1 100).1
        (Or.inr (Or.inr (Or.inl (by decide)))))⟩

/-- Claim C13: on success (on a table of bounded regions, for an `int`
length) `sys_mmap` returns `address = PGROUNDUP(m)` where `m` is the maximum of
`MMAPMINADDR` and the ends `start_address + length` of the regions valid
before the call; the address is page-aligned, at least `MMAPMINADDR`, at or
past the end of every such region, and `address + length <= TRAPFRAME`.  The
first invalid slot is filled with `(address, length, prot, flags, offset,
file)` and marked valid, no other slot changes, and the file's reference is
duplicated exactly once. -/
theorem mmap_success_places_region (C : Consts) (s : State) (length : Int)
    (protection_flags mapping_flags : Nat) (fd : Int) (file_offset : Int)
    (hC : Fits C) (hT : ∀ r ∈ s.vma, RegionOk C r) (hlen : IsInt32 length)
    (hok : (sys_mmap C s length protection_flags mapping_flags fd file_offset).2 ≠ ERR) :
    ∃ f i m, argfd s fd = some f ∧
      ((∃ r, s.vma[i]? = some r ∧ r.is_valid = 0) ∧
        ∀ j q, j < i → s.vma[j]? = some q → q.is_valid ≠ 0) ∧
      (C.MMAPMINADDR ≤ m ∧
        (∀ r ∈ s.vma, r.is_valid ≠ 0 → (r.start_address : Int) + r.length ≤ m) ∧
        (m = C.MMAPMINADDR ∨
          ∃ r ∈ s.vma, r.is_valid ≠ 0 ∧ (r.start_address : Int) + r.length = m)) ∧
      (sys_mmap C s length protection_flags mapping_flags fd file_offset).2 = PGROUNDUP m ∧
      PGROUNDUP m % PGSIZE = 0 ∧ C.MMAPMINADDR ≤ PGROUNDUP m ∧
      (∀ r ∈ s.vma, r.is_valid ≠ 0 → (r.start_address : Int) + r.length ≤ PGROUNDUP m) ∧
      (PGROUNDUP m : Int) + length ≤ C.TRAPFRAME ∧
      (sys_mmap C s length protection_flags mapping_flags fd file_offset).1.vma =
        s.vma.set i ⟨PGROUNDUP m, length, protection_flags, mapping_flags, file_offset, f, 1⟩ ∧
      (sys_mmap C s length protection_flags mapping_flags fd file_offset).1.file_ref =
        Function.update s.file_ref f (s.file_ref f + 1) ∧
      (sys_mmap C s length protection_flags mapping_flags fd file_offset).1.log =
        s.log ++ [Event.filedup f] := by
  rcases mmap_cases C s length protection_flags mapping_flags fd file_offset with h1 | h1
  · rw [h1] at hok; exact absurd rfl hok
  · obtain ⟨f, i, hfd, _, hlen0, _, _, hslot, hfit, hres⟩ := h1
    obtain ⟨hm1, hm2, hm3, hm4⟩ := mmap_scan_max C hC s.vma hT
    obtain ⟨ha1, ha2, ha3⟩ := mmap_address_exact C hC s.vma hT
    obtain ⟨r, hr, hrt, hbefore⟩ := first_index_some s.vma i hslot
    have hfit' : (mmap_address C s.vma : Int) + length ≤ C.TRAPFRAME := by
      have he := wrap64_of_fits (i := (mmap_address C s.vma : Int) + length) (by omega)
        (by have := hlen.2; omega)
      have : (wrap64 ((mmap_address C s.vma : Int) + length) : Int) ≤ C.TRAPFRAME := by
        exact_mod_cast hfit
      omega
    rw [ha1] at hfit' hres
    rw [ha1] at ha2
    refine ⟨f, i, mmap_scan C s.vma, hfd, ⟨⟨r, hr, by simpa using hrt⟩, ?_⟩,
      ⟨hm1, hm3, ?_⟩, by rw [hres], ?_, by omega, ?_, hfit', by rw [hres]; rfl,
      by rw [hres]; rfl, by rw [hres]; rfl⟩
    · intro j q hj hq
      simpa using hbefore j q hj hq
    · rcases hm4 with h | ⟨q, hq, hqv, h⟩
      · exact Or.inl h
      · exact Or.inr ⟨q, hq, hqv, h⟩
    · rw [← ha1]; exact mmap_address_mod C s.vma
    · intro q hq hqv
      have := hm3 q hq hqv
      have h2 : (mmap_scan C s.vma : Int) ≤ PGROUNDUP (mmap_scan C s.vma) := by
        exact_mod_cast ha2
      omega

end Mmap

namespace Mmap

theorem mmap_success_places_region_witness :
    (sys_mmap demo_consts demo_mapped 4096 1 2 0 4096).2 = 0x3fffff0000 ∧
    ∃ f i m, argfd demo_mapped 0 = some f ∧
      (sys_mmap demo_consts demo_mapped 4096 1 2 0 4096).2 = PGROUNDUP m ∧
      (sys_mmap demo_consts demo_mapped 4096 1 2 0 4096).1.vma =
        demo_mapped.vma.set i ⟨PGROUNDUP m, 4096, 1, 2, 4096, f, 1⟩ := by
  obtain ⟨f, i, m, h1, _, _, h4, _, _, _, _, h9, _, _⟩ :=
    mmap_success_places_region demo_consts demo_mapped 4096 1 2 0 4096
      (by decide) (by decide) (by decide) (by decide)
  exact ⟨by decide, f, i, m, h1, h4, h9⟩

end Mmap

namespace Mmap

/-! ## `sys_munmap` -/

theorem logExtends_refl (s : State) : LogExtends s s := ⟨[], by simp⟩

theorem logExtends_trans {s s1 s2 : State} (h1 : LogExtends s s1) (h2 : LogExtends s1 s2) :
    LogExtends s s2 := by
  obtain ⟨a, rfl⟩ := h1
  obtain ⟨b, rfl⟩ := h2
  exact ⟨a ++ b, by simp⟩

theorem logExtends_record (s : State) (e : Event) : LogExtends s (record s e) := ⟨[e], rfl⟩

theorem write_chunks_logExtends (env : Env) (r : virtual_memory_area)
    (ip va max_size write_bytes : Nat) :
    ∀ (fuel offset : Nat) (s s1 : State) (b : Bool),
      write_chunks env r ip va max_size write_bytes fuel offset s = some (s1, b) →
      LogExtends s s1 := by
  intro fuel
  induction fuel with
  | zero =>
    intro offset s s1 b h
    unfold write_chunks at h
    split at h
    · exact absurd h (by simp)
    · simp only [Option.some.injEq, Prod.mk.injEq] at h
      exact h.1 ▸ logExtends_refl s
  | succ fuel ih =>
    intro offset s s1 b h
    unfold write_chunks at h
    split at h
    · simp only at h
      have hrec : LogExtends s (record (record (record (record (record s Event.begin_op)
          (Event.ilock ip)) (Event.writei ip 1 (va + offset)
            (wrap64 ((va : Int) - r.start_address + r.file_offset + offset))
            (min max_size (write_bytes - offset)))) (Event.iunlock ip)) Event.end_op) :=
        logExtends_trans (logExtends_trans (logExtends_trans (logExtends_trans
          (logExtends_record _ _) (logExtends_record _ _)) (logExtends_record _ _))
          (logExtends_record _ _)) (logExtends_record _ _)
      split at h
      · simp only [Option.some.injEq, Prod.mk.injEq] at h
        exact h.1 ▸ hrec
      · exact logExtends_trans hrec (ih _ _ _ _ h)
    · simp only [Option.some.injEq, Prod.mk.injEq] at h
      exact h.1 ▸ logExtends_refl s

theorem write_back_logExtends (C : Consts) (env : Env) (r : virtual_memory_area)
    (unmap_end : Nat) :
    ∀ (fuel va : Nat) (s s1 : State) (b : Bool),
      write_back C env r unmap_end fuel va s = some (s1, b) → LogExtends s s1 := by
  intro fuel
  induction fuel with
  | zero =>
    intro va s s1 b h
    unfold write_back at h
    split at h
    · exact absurd h (by simp)
    · simp only [Option.some.injEq, Prod.mk.injEq] at h
      exact h.1 ▸ logExtends_refl s
  | succ fuel ih =>
    intro va s s1 b h
    unfold write_back at h
    split at h
    · split at h
      · exact ih _ _ _ _ h
      · simp only at h
        split at h
        · exact absurd h (by simp)
        · rename_i s2 hc
          simp only [Option.some.injEq, Prod.mk.injEq] at h
          exact h.1 ▸ write_chunks_logExtends env r _ _ _ _ _ _ _ _ _ hc
        · rename_i s2 hc
          exact logExtends_trans (write_chunks_logExtends env r _ _ _ _ _ _ _ _ _ hc)
            (ih _ _ _ _ h)
    · simp only [Option.some.injEq, Prod.mk.injEq] at h
      exact h.1 ▸ logExtends_refl s

theorem write_back_phase_logExtends (C : Consts) (env : Env) (s s1 : State)
    (t : virtual_memory_area) (addr : Nat) (len : Int) (b : Bool)
    (h : write_back_phase C env s t addr len = some (s1, b)) : LogExtends s s1 := by
  unfold write_back_phase at h
  split at h
  · exact write_back_logExtends C env t _ _ _ _ _ _ h
  · simp only [Option.some.injEq, Prod.mk.injEq] at h
    exact h.1 ▸ logExtends_refl s

end Mmap

namespace Mmap

theorem apart_symm {a b : virtual_memory_area} (h : Apart a b) : Apart b a := by
  unfold Apart at h ⊢
  rcases h with h | h | h | h
  · exact Or.inr (Or.inl h)
  · exact Or.inl h
  · exact Or.inr (Or.inr (Or.inr h))
  · exact Or.inr (Or.inr (Or.inl h))

theorem pairwise_apart_iff (l : List virtual_memory_area) :
    l.Pairwise Apart ↔
      ∀ (i j : Nat) (a b : virtual_memory_area), i ≠ j → l[i]? = some a → l[j]? = some b →
        Apart a b := by
  rw [List.pairwise_iff_getElem]
  constructor
  · intro h i j a b hij ha hb
    obtain ⟨hi, rfl⟩ := List.getElem?_eq_some.mp ha
    obtain ⟨hj, rfl⟩ := List.getElem?_eq_some.mp hb
    rcases Nat.lt_or_gt_of_ne hij with hlt | hgt
    · exact h i j hi hj hlt
    · exact apart_symm (h j i hj hi hgt)
  · intro h i j hi hj hij
    exact h i j _ _ (Nat.ne_of_lt hij) (List.getElem?_eq_getElem hi) (List.getElem?_eq_getElem hj)

theorem tableOk_set (C : Consts) (l : List virtual_memory_area) (i : Nat)
    (n : virtual_memory_area) (hT : TableOk C l) (hn : RegionOk C n) (hc : Cleared n)
    (ha : ∀ (j : Nat) (q : virtual_memory_area), j ≠ i → l[j]? = some q → Apart q n) :
    TableOk C (l.set i n) := by
  obtain ⟨hmem, hpair⟩ := hT
  refine ⟨?_, ?_⟩
  · intro r hr
    rcases List.mem_or_eq_of_mem_set hr with h | h
    · exact hmem r h
    · subst h; exact ⟨hn, hc⟩
  · rw [pairwise_apart_iff] at hpair ⊢
    intro j k a b hjk hja hkb
    rw [List.getElem?_set] at hja hkb
    by_cases hj : i = j
    · subst hj
      rw [if_pos rfl] at hja
      rw [if_neg hjk] at hkb
      split at hja
      · simp only [Option.some.injEq] at hja
        subst hja
        exact apart_symm (ha k b (Ne.symm hjk) hkb)
      · exact absurd hja (by simp)
    · rw [if_neg hj] at hja
      by_cases hk : i = k
      · subst hk
        rw [if_pos rfl] at hkb
        split at hkb
        · simp only [Option.some.injEq] at hkb
          subst hkb
          exact ha j a (Ne.symm hj) hja
        · exact absurd hkb (by simp)
      · rw [if_neg hk] at hkb
        exact hpair j k a b hjk hja hkb

theorem mmap_tableOk (C : Consts) (s : State) (length : Int)
    (protection_flags mapping_flags : Nat) (fd : Int) (file_offset : Int)
    (hC : Fits C) (hT : TableOk C s.vma) (hlen : IsInt32 length) :
    TableOk C (sys_mmap C s length protection_flags mapping_flags fd file_offset).1.vma := by
  rcases mmap_cases C s length protection_flags mapping_flags fd file_offset with h1 | h1
  · rw [h1]; exact hT
  · obtain ⟨f, i, _, _, hlen0, _, _, _, hfit, hres⟩ := h1
    have hR : ∀ r ∈ s.vma, RegionOk C r := fun r hr => (hT.1 r hr).1
    obtain ⟨hm1, hm2, hm3, _⟩ := mmap_scan_max C hC s.vma hR
    obtain ⟨_, ha2, ha3⟩ := mmap_address_exact C hC s.vma hR
    have hfit' : (mmap_address C s.vma : Int) + length ≤ C.TRAPFRAME := by
      have he := wrap64_of_fits (i := (mmap_address C s.vma : Int) + length) (by omega)
        (by have := hlen.2; omega)
      have : (wrap64 ((mmap_address C s.vma : Int) + length) : Int) ≤ C.TRAPFRAME := by
        exact_mod_cast hfit
      omega
    rw [hres]
    refine tableOk_set C s.vma i _ hT ?_ ?_ ?_
    · intro _
      exact ⟨hlen0, by simp only; omega, hfit'⟩
    · intro h; simp at h
    · intro j q _ hq
      by_cases hv : q.is_valid = 0
      · exact Or.inl hv
      · have := hm3 q (List.getElem?_mem hq) hv
        refine Or.inr (Or.inr (Or.inl ?_))
        simp only
        have h2 : (mmap_scan C s.vma : Int) ≤ mmap_address C s.vma := by exact_mod_cast ha2
        omega

end Mmap

namespace Mmap

theorem getD_of_getElem? (l : List virtual_memory_area) (i : Nat) (t : virtual_memory_area)
    (h : l[i]? = some t) : l.getD i zero_vma = t := by
  rw [List.getD_eq_getElem?_getD, h]; rfl

/-- The ways a call of `sys_munmap` that ends can have gone. -/
theorem munmap_cases (C : Consts) (env : Env) (s : State) (addr : Nat) (len : Int)
    (o : Outcome) (h : sys_munmap C env s addr len = some o) :
    (o = Outcome.returned s ERR ∧
      (addr % PGSIZE ≠ 0 ∨ len < 0 ∨ first_index (covers addr len) s.vma = none)) ∨
    (o = Outcome.returned s 0 ∧ len = 0) ∨
    ∃ i t s1, addr % PGSIZE = 0 ∧ 0 < len ∧
      first_index (covers addr len) s.vma = some i ∧ s.vma[i]? = some t ∧
      covers addr len t = true ∧
      ((write_back_phase C env s t addr len = some (s1, false) ∧
          o = Outcome.returned s1 ERR) ∨
        (write_back_phase C env s t addr len = some (s1, true) ∧
          o = update_vma (uvmunmap s1 addr ((len - 1) / (PGSIZE : Int) + 1).toNat 1)
            i t addr len)) := by
  unfold sys_munmap at h
  by_cases hbad : addr % PGSIZE ≠ 0 ∨ len < 0
  · rw [if_pos hbad] at h
    simp only [Option.some.injEq] at h
    left
    refine ⟨h.symm, ?_⟩
    rcases hbad with hb | hb
    · exact Or.inl hb
    · exact Or.inr (Or.inl hb)
  · rw [if_neg hbad] at h
    have hal : addr % PGSIZE = 0 := by
      by_contra hc; exact hbad (Or.inl hc)
    have hl0 : 0 ≤ len := by
      by_contra hc; exact hbad (Or.inr (by omega))
    cases hi : first_index (covers addr len) s.vma with
    | none =>
      rw [hi] at h
      simp only [Option.some.injEq] at h
      exact Or.inl ⟨h.symm, Or.inr (Or.inr rfl)⟩
    | some i =>
      rw [hi] at h
      simp only at h
      obtain ⟨t, ht, hcov, _⟩ := first_index_some s.vma i hi
      rw [getD_of_getElem? s.vma i t ht] at h
      by_cases hz : len = 0
      · rw [if_pos hz] at h
        simp only [Option.some.injEq] at h
        exact Or.inr (Or.inl ⟨h.symm, hz⟩)
      · rw [if_neg hz] at h
        right; right
        cases hw : write_back_phase C env s t addr len with
        | none => rw [hw] at h; exact absurd h (by simp)
        | some p =>
          obtain ⟨s1, b⟩ := p
          rw [hw] at h
          refine ⟨i, t, s1, hal, by omega, rfl, ht, hcov, ?_⟩
          cases b with
          | false =>
            simp only [Option.some.injEq] at h
            exact Or.inl ⟨hw, h.symm⟩
          | true =>
            simp only [Option.some.injEq] at h
            exact Or.inr ⟨hw, h.symm⟩

/-- What `covers` says in exact arithmetic, for a bounded region and typed
arguments: the range lies inside the region, or the sum `addr + len`
overflows 64 bits. -/
theorem covers_exact (C : Consts) (hC : Fits C) (t : virtual_memory_area) (addr : Nat)
    (len : Int) (ht : RegionOk C t) (haddr : addr < 2 ^ 64) (hlen : IsInt32 len)
    (hpos : 0 ≤ len) (hcov : covers addr len t = true) :
    t.is_valid ≠ 0 ∧ t.start_address ≤ addr ∧
      (((addr : Int) + len < 2 ^ 64 ∧ (addr : Int) + len ≤ t.start_address + t.length ∧
          (wrap64 (addr + len) : Int) = addr + len) ∨
        ((2 : Int) ^ 64 ≤ addr + len ∧ (wrap64 (addr + len) : Int) = addr + len - 2 ^ 64)) ∧
      (wrap64 (t.start_address + t.length) : Int) = t.start_address + t.length := by
  unfold covers at hcov
  simp only [Bool.and_eq_true, bne_iff_ne, ne_eq, decide_eq_true_eq] at hcov
  obtain ⟨⟨hv, hge⟩, hle⟩ := hcov
  have hend := region_end_exact C hC t ht hv
  have hle' : (wrap64 (addr + len) : Int) ≤ wrap64 (t.start_address + t.length) := by
    exact_mod_cast hle
  have haddr' : (addr : Int) < 2 ^ 64 := by exact_mod_cast haddr
  refine ⟨hv, hge, ?_, hend⟩
  by_cases hfit : (addr : Int) + len < 2 ^ 64
  · have he := wrap64_of_fits (i := (addr : Int) + len) (by omega) hfit
    exact Or.inl ⟨hfit, by omega, he⟩
  · right
    refine ⟨by omega, ?_⟩
    have h1 : ((addr : Int) + len) % 2 ^ 64 = addr + len - 2 ^ 64 := by
      have := hlen.2
      omega
    unfold wrap64
    rw [Int.toNat_of_nonneg (Int.emod_nonneg _ (by norm_num)), h1]

/-- A returning `update_vma` replaces the slot by a cleared slot or by a
region that lies inside the old one. -/
theorem update_vma_returned (C : Consts) (hC : Fits C) (hmin : 2 ^ 31 ≤ C.MMAPMINADDR)
    (s2 : State) (i : Nat) (t : virtual_memory_area) (addr : Nat) (len : Int)
    (ht : RegionOk C t) (haddr : addr < 2 ^ 64) (hlen : IsInt32 len) (hpos : 0 < len)
    (hcov : covers addr len t = true) (s1 : State) (v : Nat)
    (h : update_vma s2 i t addr len = Outcome.returned s1 v) :
    v = 0 ∧ ∃ n, s1.vma = s2.vma.set i n ∧ Cleared n ∧ RegionOk C n ∧
      (n.is_valid = 0 ∨
        ((t.start_address : Int) ≤ n.start_address ∧
          (n.start_address : Int) + n.length ≤ t.start_address + t.length)) := by
  obtain ⟨hv, hge, hsum, hend⟩ := covers_exact C hC t addr len ht haddr hlen (by omega) hcov
  obtain ⟨hl0, hmin', hmax⟩ := ht hv
  have hT63 : (C.TRAPFRAME : Int) < 2 ^ 63 := by exact_mod_cast hC.2
  have hminI : (2 : Int) ^ 31 ≤ C.MMAPMINADDR := by exact_mod_cast hmin
  have hmin'I : (C.MMAPMINADDR : Int) ≤ t.start_address := by exact_mod_cast hmin'
  have hgeI : (t.start_address : Int) ≤ addr := by exact_mod_cast hge
  have hlen2 := hlen.2
  unfold update_vma at h
  split at h
  · rename_i hfull
    simp only [Outcome.returned.injEq] at h
    refine ⟨h.2.symm, zero_vma, by rw [← h.1]; rfl, fun _ => rfl, fun hc => absurd rfl hc,
      Or.inl rfl⟩
  · rename_i hfull
    split at h
    · rename_i hstart
      simp only [Outcome.returned.injEq] at h
      have hne : len ≠ t.length := fun e => hfull ⟨hstart, e⟩
      have hstartI : (addr : Int) = t.start_address := by exact_mod_cast hstart
      rcases hsum with ⟨hfit, hin, _⟩ | ⟨hover, _⟩
      · have hw := wrap64_of_fits (i := (t.start_address : Int) + len) (by omega) (by omega)
        refine ⟨h.2.symm, _, by rw [← h.1], ?_, ?_, Or.inr ⟨?_, ?_⟩⟩
        · intro hc; exact absurd hc hv
        · intro _
          refine ⟨by simp only; omega, ?_, ?_⟩
          · have : (C.MMAPMINADDR : Int) ≤ wrap64 ((t.start_address : Int) + len) := by omega
            exact_mod_cast this
          · simp only; omega
        · simp only; omega
        · simp only; omega
      · omega
    · rename_i hstart
      split at h
      · rename_i htail
        simp only [Outcome.returned.injEq] at h
        have htailI : (wrap64 (addr + len) : Int) = wrap64 (t.start_address + t.length) := by
          exact_mod_cast htail
        have hneI : (addr : Int) ≠ t.start_address := by
          intro e; exact hstart (by exact_mod_cast e)
        rcases hsum with ⟨hfit, hin, he⟩ | ⟨hover, he⟩
        · refine ⟨h.2.symm, _, by rw [← h.1], ?_, ?_, Or.inr ⟨?_, ?_⟩⟩
          · intro hc; exact absurd hc hv
          · intro _
            refine ⟨by simp only; omega, hmin', by simp only; omega⟩
          · simp only; omega
          · simp only; omega
        · omega
      · exact absurd h (by simp)

theorem munmap_tableOk (C : Consts) (env : Env) (s : State) (addr : Nat) (len : Int)
    (hC : Fits C) (hmin : 2 ^ 31 ≤ C.MMAPMINADDR) (hT : TableOk C s.vma)
    (haddr : addr < 2 ^ 64) (hlen : IsInt32 len) (s1 : State) (v : Nat)
    (h : sys_munmap C env s addr len = some (Outcome.returned s1 v)) :
    TableOk C s1.vma := by
  rcases munmap_cases C env s addr len _ h with ⟨ho, _⟩ | ⟨ho, _⟩ | ⟨i, t, s2, _, hpos, _, ht, hcov, hw⟩
  · simp only [Outcome.returned.injEq] at ho
    rw [ho.1]; exact hT
  · simp only [Outcome.returned.injEq] at ho
    rw [ho.1]; exact hT
  · rcases hw with ⟨hw, ho⟩ | ⟨hw, ho⟩
    · simp only [Outcome.returned.injEq] at ho
      obtain ⟨new, hnew⟩ := write_back_phase_logExtends C env s s2 t addr len false hw
      rw [ho.1, hnew]; exact hT
    · obtain ⟨new, hnew⟩ := write_back_phase_logExtends C env s s2 t addr len true hw
      have htok := (hT.1 t (List.getElem?_mem ht)).1
      obtain ⟨_, n, hn, hcl, hok, hin⟩ := update_vma_returned C hC hmin _ i t addr len htok haddr
        hlen hpos hcov s1 v ho.symm
      have hvma : (uvmunmap s2 addr ((len - 1) / (PGSIZE : Int) + 1).toNat 1).vma = s.vma := by
        rw [hnew]; rfl
      rw [hn, hvma]
      refine tableOk_set C s.vma i n hT hok hcl ?_
      intro j q hj hq
      rcases hin with hz | ⟨h1, h2⟩
      · exact Or.inr (Or.inl hz)
      · have hqt := (pairwise_apart_iff s.vma).mp hT.2 j i q t hj hq ht
        unfold Apart at hqt ⊢
        have hcovv : t.is_valid ≠ 0 := by
          unfold covers at hcov
          simp only [Bool.and_eq_true, bne_iff_ne, ne_eq, decide_eq_true_eq] at hcov
          exact hcov.1.1
        rcases hqt with h3 | h3 | h3 | h3
        · exact Or.inl h3
        · exact absurd h3 hcovv
        · exact Or.inr (Or.inr (Or.inl (by omega)))
        · exact Or.inr (Or.inr (Or.inr (by omega)))

end Mmap

namespace Mmap

theorem tableOk_empty (C : Consts) (vma : List virtual_memory_area)
    (h : ∀ r ∈ vma, r = zero_vma) : TableOk C vma := by
  refine ⟨?_, ?_⟩
  · intro r hr
    rw [h r hr]
    exact ⟨fun hc => absurd rfl hc, fun _ => rfl⟩
  · rw [pairwise_apart_iff]
    intro i j a b _ ha _
    rw [h a (List.getElem?_mem ha)]
    exact Or.inl rfl

theorem noOverlap_of_tableOk (C : Consts) (vma : List virtual_memory_area)
    (h : TableOk C vma) : NoOverlap vma := by
  intro i j ri rj hij hi hj hvi hvj a
  have hap := (pairwise_apart_iff vma).mp h.2 i j ri rj hij hi hj
  unfold Apart at hap
  rcases hap with h1 | h1 | h1 | h1
  · exact absurd h1 hvi
  · exact absurd h1 hvj
  · omega
  · omega

theorem run_tableOk (C : Consts) (hC : Fits C) (hmin : 2 ^ 31 ≤ C.MMAPMINADDR) :
    ∀ (calls : List Call) (s s1 : State), TableOk C s.vma → (∀ c ∈ calls, c.typed) →
      run C s calls = some s1 → TableOk C s1.vma := by
  intro calls
  induction calls with
  | nil =>
    intro s s1 hT _ h
    simp only [run, Option.some.injEq] at h
    exact h ▸ hT
  | cons c cs ih =>
    intro s s1 hT hty h
    have hc := hty c (List.mem_cons_self c cs)
    have hcs : ∀ d ∈ cs, d.typed := fun d hd => hty d (List.mem_cons_of_mem c hd)
    simp only [run] at h
    cases c with
    | mmap length protection_flags mapping_flags fd file_offset =>
      simp only [step] at h
      exact ih _ s1 (mmap_tableOk C s length protection_flags mapping_flags fd file_offset hC hT
        hc.1) hcs h
    | munmap env addr len =>
      simp only [step] at h
      cases ho : sys_munmap C env s addr len with
      | none => rw [ho] at h; exact absurd h (by simp)
      | some o =>
        rw [ho] at h
        cases o with
        | panicked s2 => exact absurd h (by simp)
        | returned s2 v =>
          simp only at h
          exact ih _ s1 (munmap_tableOk C env s addr len hC hmin hT hc.1 hc.2 s2 v ho) hcs h

/-- Claim C14: starting from an empty VMA table, after every sequence of
`sys_mmap` and `sys_munmap` calls (with arguments of their C types) that all
return, no two valid regions of the process have intersecting ranges
`[start_address, start_address + length)`.  The layout constants satisfy
`2 ^ 31 <= MMAPMINADDR` and fit in 63 bits. -/
theorem regions_never_overlap (C : Consts) (s s1 : State) (calls : List Call)
    (hC : Fits C) (hmin : 2 ^ 31 ≤ C.MMAPMINADDR) (hempty : ∀ r ∈ s.vma, r = zero_vma)
    (htyped : ∀ c ∈ calls, c.typed) (hrun : run C s calls = some s1) :
    NoOverlap s1.vma :=
  noOverlap_of_tableOk C s1.vma
    (run_tableOk C hC hmin calls s s1 (tableOk_empty C s.vma hempty) htyped hrun)

theorem demo_final_eq : run demo_consts demo_state demo_calls = some demo_final := by
  have hsome : (run demo_consts demo_state demo_calls).isSome = true := by decide
  unfold demo_final
  cases h : run demo_consts demo_state demo_calls with
  | none => rw [h] at hsome; exact absurd hsome (by decide)
  | some st => rfl

theorem regions_never_overlap_witness : NoOverlap demo_final.vma :=
  regions_never_overlap demo_consts demo_state demo_final demo_calls (by decide) (by decide)
    (by decide) (by decide) demo_final_eq

end Mmap

namespace Mmap

theorem set_same :
    ∀ (l : List virtual_memory_area) (i : Nat) (a : virtual_memory_area),
      l[i]? = some a → l.set i a = l
  | [], _, _, h => by simp at h
  | p :: ps, 0, a, h => by
    simp only [List.getElem?_cons_zero, Option.some.injEq] at h
    subst h; rfl
  | p :: ps, i + 1, a, h => by
    simp only [List.getElem?_cons_succ] at h
    simp only [List.set_cons_succ, set_same ps i a h]

theorem write_back_clean (C : Consts) (env : Env) (r : virtual_memory_area) (unmap_end : Nat)
    (s : State) (hclean : ∀ va, uvmgetdirty C s va = 0) (hend : unmap_end < 2 ^ 63) :
    ∀ (fuel va : Nat), unmap_end ≤ va + fuel * PGSIZE →
      write_back C env r unmap_end fuel va s = some (s, true) := by
  intro fuel
  induction fuel with
  | zero =>
    intro va h
    have : ¬ va < unmap_end := by omega
    simp [write_back, this]
  | succ fuel ih =>
    intro va h
    unfold write_back
    by_cases hlt : va < unmap_end
    · rw [if_pos hlt, if_pos (hclean va)]
      have hmod : (va + PGSIZE) % 2 ^ 64 = va + PGSIZE := by
        unfold PGSIZE; omega
      rw [hmod]
      exact ih (va + PGSIZE) (by rw [Nat.succ_mul] at h; omega)
    · rw [if_neg hlt]

/-- Claim C15 as stated fails for the accepted length `0`: on the demo
process `sys_mmap` of length `0` succeeds, and the `sys_munmap(start, 0)` that
follows returns `0` but leaves the slot valid and the file's reference count
one above its prior value `1`. -/
theorem zero_length_map_is_not_undone :
    (sys_mmap demo_consts demo_state 0 3 2 1 0).2 = 0x3ffffee000 ∧
    match sys_munmap demo_consts demo_env (sys_mmap demo_consts demo_state 0 3 2 1 0).1
        0x3ffffee000 0 with
    | some (Outcome.returned s2 v) =>
      v = 0 ∧ s2.vma ≠ demo_state.vma ∧ demo_state.file_ref 0x2000 = 1 ∧
        s2.file_ref 0x2000 = 2
    | _ => False := by
  refine ⟨by decide, ?_⟩
  have h : sys_munmap demo_consts demo_env (sys_mmap demo_consts demo_state 0 3 2 1 0).1
      0x3ffffee000 0 = some (Outcome.returned (sys_mmap demo_consts demo_state 0 3 2 1 0).1 0) := by
    simp [sys_munmap, PGSIZE]
    have hidx : first_index (covers 0x3ffffee000 0)
        (sys_mmap demo_consts demo_state 0 3 2 1 0).1.vma = some 0 := by decide
    rw [hidx]
  rw [h]
  exact ⟨rfl, by decide, by decide, by decide⟩

/-- Claim C15, amended: for every length `L > 0` accepted by `sys_mmap` (on a
table satisfying the invariant), a successful `sys_mmap` of length `L`
returning `start`, immediately followed by a `sys_munmap(start, L)` that
returns `0`, restores the VMA table to its state before the map (the slot is
invalid again with cleared fields) and the file's reference count to its
prior value; and `sys_munmap(start, L)` does return `0` when no page is dirty. -/
theorem map_then_unmap_restores (C : Consts) (env : Env) (s : State) (L : Int)
    (protection_flags mapping_flags : Nat) (fd : Int) (file_offset : Int)
    (hC : Fits C) (hT : TableOk C s.vma) (hL : IsInt32 L) (hpos : 0 < L)
    (hmap : (sys_mmap C s L protection_flags mapping_flags fd file_offset).2 ≠ ERR) :
    (∀ s2, sys_munmap C env (sys_mmap C s L protection_flags mapping_flags fd file_offset).1
        (sys_mmap C s L protection_flags mapping_flags fd file_offset).2 L
          = some (Outcome.returned s2 0) →
      s2.vma = s.vma ∧ s2.file_ref = s.file_ref) ∧
    ((∀ va, uvmgetdirty C s va = 0) →
      ∃ s2, sys_munmap C env (sys_mmap C s L protection_flags mapping_flags fd file_offset).1
        (sys_mmap C s L protection_flags mapping_flags fd file_offset).2 L
          = some (Outcome.returned s2 0)) := by
  rcases mmap_cases C s L protection_flags mapping_flags fd file_offset with h1 | h1
  · rw [h1] at hmap; exact absurd rfl hmap
  · obtain ⟨f, i, _, _, _, _, _, hslot, hfit, hres⟩ := h1
    have hR : ∀ r ∈ s.vma, RegionOk C r := fun r hr => (hT.1 r hr).1
    obtain ⟨hm1, hm2, hm3, _⟩ := mmap_scan_max C hC s.vma hR
    obtain ⟨_, ha2, ha3⟩ := mmap_address_exact C hC s.vma hR
    obtain ⟨r0, hr0, hr0t, _⟩ := first_index_some s.vma i hslot
    have hr0z : r0 = zero_vma := (hT.1 r0 (List.getElem?_mem hr0)).2 (by simpa using hr0t)
    have hi : i < s.vma.length := (List.getElem?_eq_some.mp hr0).1
    have hL2 := hL.2
    have haI : (mmap_scan C s.vma : Int) ≤ mmap_address C s.vma := by exact_mod_cast ha2
    have ha3I : (mmap_address C s.vma : Int) < 2 ^ 63 + 4096 := by exact_mod_cast ha3
    have hsum := wrap64_of_fits (i := (mmap_address C s.vma : Int) + L) (by omega) (by omega)
    have hfitI : (mmap_address C s.vma : Int) + L ≤ C.TRAPFRAME := by
      have : (wrap64 ((mmap_address C s.vma : Int) + L) : Int) ≤ C.TRAPFRAME := by
        exact_mod_cast hfit
      omega
    have hT63 : (C.TRAPFRAME : Int) < 2 ^ 63 := by exact_mod_cast hC.2
    rw [hres]
    simp only
    -- the region found by `sys_munmap` is the new one, at index `i`
    have hnew : (filedup { s with vma := (s.vma.set i ⟨mmap_address C s.vma, L,
        protection_flags, mapping_flags, file_offset, f, 1⟩) } f).vma[i]? =
          some ⟨mmap_address C s.vma, L, protection_flags, mapping_flags, file_offset, f, 1⟩ := by
      show (s.vma.set i _)[i]? = _
      rw [List.getElem?_set, if_pos rfl, if_pos hi]
    have hcovnew : covers (mmap_address C s.vma) L
        ⟨mmap_address C s.vma, L, protection_flags, mapping_flags, file_offset, f, 1⟩ = true := by
      simp [covers]
    have hfirst : first_index (covers (mmap_address C s.vma) L)
        (filedup { s with vma := (s.vma.set i ⟨mmap_address C s.vma, L,
          protection_flags, mapping_flags, file_offset, f, 1⟩) } f).vma = some i := by
      refine first_index_eq _ i _ hnew hcovnew ?_
      intro j q hj hq
      have hq' : s.vma[j]? = some q := by
        have : (s.vma.set i ⟨mmap_address C s.vma, L, protection_flags, mapping_flags,
            file_offset, f, 1⟩)[j]? = some q := hq
        rwa [List.getElem?_set_ne (by omega)] at this
      by_contra hc
      simp only [Bool.not_eq_false] at hc
      obtain ⟨hv, hge, hs, _⟩ := covers_exact C hC q (mmap_address C s.vma) L
        (hR q (List.getElem?_mem hq')) (by omega) hL (by omega) hc
      have := hm3 q (List.getElem?_mem hq') hv
      rcases hs with ⟨_, h2, _⟩ | ⟨h2, _⟩ <;> omega
    have hgetD : (filedup { s with vma := (s.vma.set i ⟨mmap_address C s.vma, L,
        protection_flags, mapping_flags, file_offset, f, 1⟩) } f).vma.getD i zero_vma =
          ⟨mmap_address C s.vma, L, protection_flags, mapping_flags, file_offset, f, 1⟩ :=
      getD_of_getElem? _ i _ hnew
    have hunfold : ∀ (p : Option (State × Bool)),
        write_back_phase C env (filedup { s with vma := (s.vma.set i ⟨mmap_address C s.vma, L,
          protection_flags, mapping_flags, file_offset, f, 1⟩) } f)
          ⟨mmap_address C s.vma, L, protection_flags, mapping_flags, file_offset, f, 1⟩
          (mmap_address C s.vma) L = p →
        sys_munmap C env (filedup { s with vma := (s.vma.set i ⟨mmap_address C s.vma, L,
          protection_flags, mapping_flags, file_offset, f, 1⟩) } f) (mmap_address C s.vma) L =
        match p with
        | none => none
        | some (s1, false) => some (Outcome.returned s1 ERR)
        | some (s1, true) => some (Outcome.returned (fileclose
            { (uvmunmap s1 (mmap_address C s.vma) ((L - 1) / (PGSIZE : Int) + 1).toNat 1) with
              vma := (uvmunmap s1 (mmap_address C s.vma)
                ((L - 1) / (PGSIZE : Int) + 1).toNat 1).vma.set i zero_vma } f) 0) := by
      intro p hp
      unfold sys_munmap
      rw [if_neg (by
        have := mmap_address_mod C s.vma
        intro hc
        rcases hc with hc | hc
        · exact hc this
        · omega), hfirst]
      simp only [hgetD]
      rw [if_neg (by omega), hp]
      cases p with
      | none => rfl
      | some q =>
        obtain ⟨s1, b⟩ := q
        cases b with
        | false => rfl
        | true => simp [update_vma]
    constructor
    · intro s2 h2
      cases hp : write_back_phase C env (filedup { s with vma := (s.vma.set i
          ⟨mmap_address C s.vma, L, protection_flags, mapping_flags, file_offset, f, 1⟩) } f)
          ⟨mmap_address C s.vma, L, protection_flags, mapping_flags, file_offset, f, 1⟩
          (mmap_address C s.vma) L with
      | none => rw [hunfold _ hp] at h2; exact absurd h2 (by simp)
      | some q =>
        obtain ⟨s1, b⟩ := q
        rw [hunfold _ hp] at h2
        cases b with
        | false =>
          simp only [Option.some.injEq, Outcome.returned.injEq] at h2
          exact absurd h2.2 (by unfold ERR; decide)
        | true =>
          simp only [Option.some.injEq, Outcome.returned.injEq, and_true] at h2
          obtain ⟨new, hnew'⟩ := write_back_phase_logExtends C env _ s1 _ _ _ true hp
          subst h2
          rw [hnew']
          constructor
          · show ((s.vma.set i _).set i zero_vma) = s.vma
            rw [List.set_set, ← hr0z]
            exact set_same s.vma i r0 hr0
          · show Function.update (Function.update s.file_ref f (s.file_ref f + 1)) f
              (Function.update s.file_ref f (s.file_ref f + 1) f - 1) = s.file_ref
            rw [Function.update_same, Function.update_idem]
            have : s.file_ref f + 1 - 1 = s.file_ref f := by omega
            rw [this, Function.update_eq_self]
    · intro hclean
      have hp : write_back_phase C env (filedup { s with vma := (s.vma.set i
          ⟨mmap_address C s.vma, L, protection_flags, mapping_flags, file_offset, f, 1⟩) } f)
          ⟨mmap_address C s.vma, L, protection_flags, mapping_flags, file_offset, f, 1⟩
          (mmap_address C s.vma) L = some (filedup { s with vma := (s.vma.set i
          ⟨mmap_address C s.vma, L, protection_flags, mapping_flags, file_offset, f, 1⟩) } f,
            true) := by
        unfold write_back_phase
        split
        · have hclean1 : ∀ va, uvmgetdirty C (filedup { s with vma := (s.vma.set i
              ⟨mmap_address C s.vma, L, protection_flags, mapping_flags, file_offset, f, 1⟩) } f)
              va = 0 := fun va => hclean va
          refine write_back_clean C env _ _ _ hclean1 ?_ _ _ ?_
          · have : (wrap64 ((mmap_address C s.vma : Int) + L) : Int) < 2 ^ 63 := by omega
            exact_mod_cast this
          · have h1 : (wrap64 ((mmap_address C s.vma : Int) + L) : Int) ≤
                (mmap_address C s.vma : Int) + (L.toNat : Int) * PGSIZE := by
              rw [hsum, Int.toNat_of_nonneg (by omega)]
              have : L ≤ L * (PGSIZE : Int) := by
                unfold PGSIZE; push_cast; omega
              omega
            exact_mod_cast h1
        · rfl
      exact ⟨_, hunfold _ hp⟩

end Mmap

namespace Mmap

theorem map_then_unmap_restores_witness :
    ∃ s2, sys_munmap demo_consts demo_env (sys_mmap demo_consts demo_state 8192 3 1 1 0).1
        (sys_mmap demo_consts demo_state 8192 3 1 1 0).2 8192 = some (Outcome.returned s2 0) ∧
      s2.vma = demo_state.vma ∧ s2.file_ref = demo_state.file_ref := by
  have h := map_then_unmap_restores demo_consts demo_env demo_state 8192 3 1 1 0
    (by decide) (by decide) (by decide) (by decide) (by decide)
  obtain ⟨s2, hs2⟩ := h.2 (fun _ => rfl)
  exact ⟨s2, hs2, h.1 s2 hs2⟩

end Mmap

namespace Mmap

theorem write_chunks_total (env : Env) (r : virtual_memory_area) (ip va max_size write_bytes : Nat)
    (hmax : 0 < max_size) (hw : ∀ ip a off n, env.writei ip a off n = n) :
    ∀ (fuel offset : Nat) (s : State), write_bytes ≤ offset + fuel →
      ∃ s1, write_chunks env r ip va max_size write_bytes fuel offset s = some (s1, true) := by
  intro fuel
  induction fuel with
  | zero =>
    intro offset s h
    have : ¬ offset < write_bytes := by omega
    exact ⟨s, by simp [write_chunks, this]⟩
  | succ fuel ih =>
    intro offset s h
    unfold write_chunks
    by_cases hlt : offset < write_bytes
    · rw [if_pos hlt]
      simp only [hw, ne_eq, not_true_eq_false, if_false]
      exact ih _ _ (by omega)
    · rw [if_neg hlt]
      exact ⟨s, rfl⟩

theorem write_back_total (C : Consts) (env : Env) (r : virtual_memory_area) (unmap_end : Nat)
    (hmax : 0 < max_write_size C) (hw : ∀ ip a off n, env.writei ip a off n = n)
    (hend : unmap_end < 2 ^ 63) :
    ∀ (fuel va : Nat) (s : State), unmap_end ≤ va + fuel * PGSIZE →
      ∃ s1, write_back C env r unmap_end fuel va s = some (s1, true) := by
  intro fuel
  induction fuel with
  | zero =>
    intro va s h
    have : ¬ va < unmap_end := by omega
    exact ⟨s, by simp [write_back, this]⟩
  | succ fuel ih =>
    intro va s h
    unfold write_back
    by_cases hlt : va < unmap_end
    · rw [if_pos hlt]
      have hmod : (va + PGSIZE) % 2 ^ 64 = va + PGSIZE := by
        unfold PGSIZE; omega
      rw [hmod]
      have hnext : unmap_end ≤ va + PGSIZE + fuel * PGSIZE := by
        rw [Nat.succ_mul] at h; omega
      by_cases hd : uvmgetdirty C s va = 0
      · rw [if_pos hd]
        exact ih _ _ hnext
      · rw [if_neg hd]
        obtain ⟨s1, hs1⟩ := write_chunks_total env r (s.file_ip r.mapped_file) va
          (max_write_size C) (min PGSIZE (wrap64 ((unmap_end : Int) - va))) hmax hw PGSIZE 0 s
          (by omega)
        simp only [hs1]
        exact ih _ _ hnext
    · rw [if_neg hlt]
      exact ⟨s, rfl⟩

/-- Claim C17 as stated fails: on the demo process the range
`[0x3ffffef000, 0x3fffff0000)` is page-aligned, non-empty and strictly inside
the valid shared region of slot 0, its page is dirty, and with a failing
`writei` the call `sys_munmap` returns `-1` instead of panicking. -/
theorem hole_with_failed_write_returns_error :
    demo_dirty.vma[0]? = some ⟨0x3ffffee000, 12288, 3, 1, 0, 0x2000, 1⟩ ∧
    0x3ffffef000 % PGSIZE = 0 ∧ (0x3ffffee000 < 0x3ffffef000 ∧
      0x3ffffef000 + 4096 < 0x3ffffee000 + 12288) ∧
    uvmgetdirty demo_consts demo_dirty 0x3ffffef000 = 1 ∧
    returns (sys_munmap demo_consts failing_env demo_dirty 0x3ffffef000 4096) ERR = true := by
  decide

/-- The overflow of the search test of `sys_munmap`: on the demo process the
range of `munmap(0xfffffffffffff000, 8192)` ends past `2 ^ 64` and lies in no
region, yet the test `unmap_address + unmap_length <= start + length` holds in
`uint64` for slot 0, so the call does not return `-1`: it ends in `panic`. -/
theorem munmap_overflow_reaches_panic :
    covers 0xfffffffffffff000 8192 ⟨0x3ffffee000, 8192, 3, 1, 0, 0x2000, 1⟩ = true ∧
    (match sys_munmap demo_consts demo_env demo_mapped 0xfffffffffffff000 8192 with
      | some (Outcome.panicked _) => true
      | _ => false) = true := by
  decide

/-- Claim C17, amended: on a table of bounded regions, `sys_munmap` of a
page-aligned range with `len > 0` that lies strictly inside the region its
search finds ends in `panic`, not in a returned value, when every write of the
write-back succeeds (and `max_write_size > 0`, so that the write-back ends); a
range whose end `addr + len` does not overflow 64 bits and that is contained in
no valid region, or an unaligned address, returns `-1` with the state
unchanged. -/
theorem munmap_hole_panics_and_miss_returns_error (C : Consts) (env : Env) (s : State)
    (addr : Nat) (len : Int) (hC : Fits C) (hT : ∀ q ∈ s.vma, RegionOk C q) :
    (∀ i r, 0 < len → addr % PGSIZE = 0 →
      first_index (covers addr len) s.vma = some i → s.vma[i]? = some r →
      r.start_address < addr → (addr : Int) + len < r.start_address + r.length →
      0 < max_write_size C → (∀ ip a off n, env.writei ip a off n = n) →
      ∃ s2, sys_munmap C env s addr len = some (Outcome.panicked s2)) ∧
    ((addr : Int) + len < 2 ^ 64 →
      (∀ q ∈ s.vma, q.is_valid ≠ 0 →
        ¬ (q.start_address ≤ addr ∧ (addr : Int) + len ≤ q.start_address + q.length)) →
      sys_munmap C env s addr len = some (Outcome.returned s ERR)) ∧
    (addr % PGSIZE ≠ 0 → sys_munmap C env s addr len = some (Outcome.returned s ERR)) := by
  have hT63 : (C.TRAPFRAME : Int) < 2 ^ 63 := by exact_mod_cast hC.2
  refine ⟨?_, ?_, ?_⟩
  · intro i r hpos hal hfind hr hlo hhi hmax hw
    obtain ⟨_, _, hcov, _⟩ := first_index_some s.vma i hfind
    have hv : r.is_valid ≠ 0 := by
      obtain ⟨q, hq, hcq, _⟩ := first_index_some s.vma i hfind
      rw [hr] at hq
      simp only [Option.some.injEq] at hq
      subst hq
      unfold covers at hcq
      simp only [Bool.and_eq_true, bne_iff_ne, ne_eq, decide_eq_true_eq] at hcq
      exact hcq.1.1
    have hend := region_end_exact C hC r (hT r (List.getElem?_mem hr)) hv
    obtain ⟨hl0, _, hmaxr⟩ := hT r (List.getElem?_mem hr) hv
    have hsum := wrap64_of_fits (i := (addr : Int) + len) (by omega) (by omega)
    have hphase : ∃ s1, write_back_phase C env s r addr len = some (s1, true) := by
      unfold write_back_phase
      split
      · refine write_back_total C env r _ hmax hw ?_ _ _ _ ?_
        · have : (wrap64 ((addr : Int) + len) : Int) < 2 ^ 63 := by omega
          exact_mod_cast this
        · have h1 : (wrap64 ((addr : Int) + len) : Int) ≤
              (addr : Int) + (len.toNat : Int) * PGSIZE := by
            rw [hsum, Int.toNat_of_nonneg (by omega)]
            have : len ≤ len * (PGSIZE : Int) := by
              unfold PGSIZE; push_cast; omega
            omega
          exact_mod_cast h1
      · exact ⟨s, rfl⟩
    obtain ⟨s1, hs1⟩ := hphase
    refine ⟨uvmunmap s1 addr ((len - 1) / (PGSIZE : Int) + 1).toNat 1, ?_⟩
    unfold sys_munmap
    rw [if_neg (by
      intro hc
      rcases hc with hc | hc
      · exact hc hal
      · omega), hfind]
    simp only [getD_of_getElem? s.vma i r hr]
    rw [if_neg (by omega), hs1]
    simp only [update_vma]
    have hne : addr ≠ r.start_address := by omega
    have hne2 : wrap64 ((addr : Int) + len) ≠ wrap64 ((r.start_address : Int) + r.length) := by
      intro e
      have : (wrap64 ((addr : Int) + len) : Int)
          = wrap64 ((r.start_address : Int) + r.length) := by exact_mod_cast e
      omega
    rw [if_neg (fun hc => hne hc.1), if_neg hne, if_neg hne2]
  · intro hfit hmiss
    unfold sys_munmap
    by_cases hbad : addr % PGSIZE ≠ 0 ∨ len < 0
    · rw [if_pos hbad]
    · rw [if_neg hbad]
      have hl0 : 0 ≤ len := by
        by_contra hc; exact hbad (Or.inr (by omega))
      have hnone : first_index (covers addr len) s.vma = none := by
        rw [first_index_none]
        intro q hq
        by_contra hc
        simp only [Bool.not_eq_false] at hc
        unfold covers at hc
        simp only [Bool.and_eq_true, bne_iff_ne, ne_eq, decide_eq_true_eq] at hc
        obtain ⟨⟨hv, hge⟩, hle⟩ := hc
        have hend := region_end_exact C hC q (hT q hq) hv
        have hsum := wrap64_of_fits (i := (addr : Int) + len) (by omega) hfit
        have hle' : (wrap64 ((addr : Int) + len) : Int)
            ≤ wrap64 ((q.start_address : Int) + q.length) := by exact_mod_cast hle
        exact hmiss q hq hv ⟨hge, by omega⟩
      rw [hnone]
  · intro hal
    unfold sys_munmap
    rw [if_pos (Or.inl hal)]

theorem munmap_hole_panics_and_miss_returns_error_witness :
    (∃ s2, sys_munmap demo_consts demo_env demo_dirty 0x3ffffef000 4096
      = some (Outcome.panicked s2)) ∧
    sys_munmap demo_consts demo_env demo_dirty 0x3ffffe0000 4096
      = some (Outcome.returned demo_dirty ERR) ∧
    sys_munmap demo_consts demo_env demo_dirty 0x3ffffef008 4096
      = some (Outcome.returned demo_dirty ERR) :=
  ⟨(munmap_hole_panics_and_miss_returns_error demo_consts demo_env demo_dirty 0x3ffffef000 4096
      (by decide) (by decide)).1 0 ⟨0x3ffffee000, 12288, 3, 1, 0, 0x2000, 1⟩ (by decide)
      (by decide) (by decide) (by decide) (by decide) (by decide) (by decide)
      (fun _ _ _ _ => rfl),
    (munmap_hole_panics_and_miss_returns_error demo_consts demo_env demo_dirty 0x3ffffe0000 4096
      (by decide) (by decide)).2.1 (by decide) (by decide),
    (munmap_hole_panics_and_miss_returns_error demo_consts demo_env demo_dirty 0x3ffffef008 4096
      (by decide) (by decide)).2.2 (by decide)⟩

end Mmap

namespace Mmap

theorem record_log (s : State) (e : Event) : (record s e).log = s.log ++ [e] := rfl

end Mmap

namespace Mmap

end Mmap

namespace Mmap

/-! ## Page faults -/

/-- A store fault on a present page of a region that permits writing only
marks the page. -/
theorem store_fault_present (C : Consts) (env : Env) (s : State) (stval i : Nat)
    (r : virtual_memory_area)
    (hfind : first_index (holds (PGROUNDDOWN stval)) s.vma = some i) (hr : s.vma[i]? = some r)
    (hw : r.protection_flags &&& C.PROT_WRITE ≠ 0)
    (hpresent : walkaddr s (PGROUNDDOWN stval) ≠ 0) :
    ∃ pa perm, s.pagetable (PGROUNDDOWN stval) = some (pa, perm) ∧ pa ≠ 0 ∧
      (usertrap_page_fault C env s 15 stval).pagetable
        = Function.update s.pagetable (PGROUNDDOWN stval)
          (some (pa, perm ||| (C.PTE_W ||| C.PTE_D))) ∧
      (usertrap_page_fault C env s 15 stval).log
        = s.log ++ [Event.uvmsetdirtywrite (PGROUNDDOWN stval)] ∧
      (usertrap_page_fault C env s 15 stval).vma = s.vma ∧
      (usertrap_page_fault C env s 15 stval).killed = s.killed := by
  cases hpt : s.pagetable (PGROUNDDOWN stval) with
  | none =>
    unfold walkaddr at hpresent
    rw [hpt] at hpresent
    exact absurd rfl hpresent
  | some e =>
    have hpa : e.1 ≠ 0 := by
      unfold walkaddr at hpresent
      rw [hpt] at hpresent
      exact hpresent
    refine ⟨e.1, e.2, rfl, hpa, ?_⟩
    unfold usertrap_page_fault
    simp only [hfind, getD_of_getElem? s.vma i r hr]
    rw [if_pos ⟨trivial, hw, hpresent⟩]
    unfold uvmsetdirtywrite
    simp only [hpt, ne_eq, not_true_eq_false, if_false]
    exact ⟨rfl, rfl, rfl, rfl⟩

theorem err_killed (s : State) : (err s).killed = 1 := rfl

theorem err_pagetable (s : State) : (err s).pagetable = s.pagetable := rfl

theorem err_log (s : State) : (err s).log = s.log := rfl

theorem record_pagetable (s : State) (e : Event) : (record s e).pagetable = s.pagetable := rfl

theorem record_killed (s : State) (e : Event) : (record s e).killed = s.killed := rfl

theorem record_vma (s : State) (e : Event) : (record s e).vma = s.vma := rfl

/-- The ways the first-touch path of the fault handler ends: the process is
killed, or the frame of `kalloc` is mapped with the bits `page_flags`. -/
theorem first_touch (C : Consts) (env : Env) (s : State) (scause stval i : Nat)
    (r : virtual_memory_area)
    (hfind : first_index (holds (PGROUNDDOWN stval)) s.vma = some i) (hr : s.vma[i]? = some r)
    (hfirst : ¬ (scause = 15 ∧ r.protection_flags &&& C.PROT_WRITE ≠ 0 ∧
      walkaddr s (PGROUNDDOWN stval) ≠ 0)) :
    (∃ new, (usertrap_page_fault C env s scause stval).log = s.log ++ new ∧
      ∀ va1 size pa perm, Event.mappages va1 size pa perm ∈ new →
        va1 = PGROUNDDOWN stval ∧ size = PGSIZE ∧ pa = env.kalloc ∧
          perm = page_flags C scause r.protection_flags) ∧
    (((usertrap_page_fault C env s scause stval).killed = 1 ∧
        (usertrap_page_fault C env s scause stval).pagetable = s.pagetable) ∨
      (env.kalloc ≠ 0 ∧
        (usertrap_page_fault C env s scause stval).killed = s.killed ∧
        (usertrap_page_fault C env s scause stval).vma = s.vma ∧
        (usertrap_page_fault C env s scause stval).pagetable
          = Function.update s.pagetable (PGROUNDDOWN stval)
            (some (env.kalloc, page_flags C scause r.protection_flags)) ∧
        Event.mappages (PGROUNDDOWN stval) PGSIZE env.kalloc
            (page_flags C scause r.protection_flags)
          ∈ (usertrap_page_fault C env s scause stval).log ∧
        List.count Event.kalloc (usertrap_page_fault C env s scause stval).log
          = List.count Event.kalloc s.log + 1)) := by
  unfold usertrap_page_fault
  simp only [hfind, getD_of_getElem? s.vma i r hr]
  rw [if_neg hfirst]
  generalize wrap64 ((PGROUNDDOWN stval : Int) - r.start_address + r.file_offset) = off
  generalize page_flags C scause r.protection_flags = perm
  generalize PGROUNDDOWN stval = va
  by_cases hk : env.kalloc = 0
  · rw [if_pos hk]
    refine ⟨⟨[Event.kalloc], rfl, ?_⟩, Or.inl ⟨err_killed _, by simp only [err_pagetable, record_pagetable]⟩⟩
    intro va1 size pa perm hm
    simp at hm
  · rw [if_neg hk]
    by_cases hread : env.readi (s.file_ip r.mapped_file) env.kalloc off PGSIZE < 0
    · rw [if_pos hread]
      refine ⟨⟨[Event.kalloc, Event.memset env.kalloc 0 PGSIZE,
          Event.ilock (s.file_ip r.mapped_file),
          Event.readi (s.file_ip r.mapped_file) 0 env.kalloc off PGSIZE,
          Event.iunlock (s.file_ip r.mapped_file), Event.kfree env.kalloc], ?_, ?_⟩,
        Or.inl ⟨err_killed _, by simp only [err_pagetable, record_pagetable]⟩⟩
      · simp [err_log, record_log]
      · intro va1 size pa perm hm
        simp at hm
    · rw [if_neg hread]
      by_cases hmap : env.mappages va env.kalloc perm ≠ 0
      · rw [if_pos hmap]
        refine ⟨⟨[Event.kalloc, Event.memset env.kalloc 0 PGSIZE,
            Event.ilock (s.file_ip r.mapped_file),
            Event.readi (s.file_ip r.mapped_file) 0 env.kalloc off PGSIZE,
            Event.iunlock (s.file_ip r.mapped_file),
            Event.mappages va PGSIZE env.kalloc perm,
            Event.kfree env.kalloc], ?_, ?_⟩, Or.inl ⟨err_killed _, by simp only [err_pagetable, record_pagetable]⟩⟩
        · simp [err_log, record_log]
        · intro va1 size pa perm hm
          simp only [List.mem_cons, List.mem_singleton, Event.mappages.injEq, false_or,
            or_false, reduceCtorEq, List.not_mem_nil] at hm
          exact hm
      · rw [if_neg hmap]
        refine ⟨⟨[Event.kalloc, Event.memset env.kalloc 0 PGSIZE,
            Event.ilock (s.file_ip r.mapped_file),
            Event.readi (s.file_ip r.mapped_file) 0 env.kalloc off PGSIZE,
            Event.iunlock (s.file_ip r.mapped_file),
            Event.mappages va PGSIZE env.kalloc perm], ?_, ?_⟩,
          Or.inr ⟨hk, by simp only [record_killed], by simp only [record_vma],
            by simp only [record_pagetable], ?_, ?_⟩⟩
        · simp [record_log]
        · intro va1 size pa perm hm
          simp only [List.mem_cons, List.mem_singleton, Event.mappages.injEq, false_or,
            or_false, reduceCtorEq, List.not_mem_nil] at hm
          exact hm
        · simp [record_log]
        · simp [record_log, List.count_append, List.count_cons]

/-- The bits computed by the handler are the bits the specification words. -/
theorem page_flags_eq (C : Consts) (scause protection_flags : Nat) :
    page_flags C scause protection_flags = spec_page_flags C scause protection_flags := by
  unfold page_flags spec_page_flags
  simp only
  split_ifs <;> simp [Nat.lor_assoc]

theorem and_or_right (a b w : Nat) : (a ||| b) &&& w = (a &&& w) ||| (b &&& w) := by
  rw [Nat.and_comm, Nat.and_or_distrib_left, Nat.and_comm w a, Nat.and_comm w b]

end Mmap

namespace Mmap

/-- Which of the five bits the specified permission word holds, when the bits
are apart. -/
theorem spec_page_flags_bits (C : Consts) (h : PteBitsApart C) (scause prot : Nat) :
    spec_page_flags C scause prot &&& C.PTE_U ≠ 0 ∧
    (spec_page_flags C scause prot &&& C.PTE_R ≠ 0 ↔ prot &&& C.PROT_READ ≠ 0) ∧
    (spec_page_flags C scause prot &&& C.PTE_W ≠ 0 ↔
      (scause = 15 ∧ prot &&& C.PROT_WRITE ≠ 0)) ∧
    (spec_page_flags C scause prot &&& C.PTE_D ≠ 0 ↔
      (scause = 15 ∧ prot &&& C.PROT_WRITE ≠ 0)) ∧
    (spec_page_flags C scause prot &&& C.PTE_X ≠ 0 ↔ prot &&& C.PROT_EXEC ≠ 0) := by
  unfold PteBitsApart at h
  simp only [List.mem_cons, List.mem_singleton, List.not_mem_nil, or_false, forall_eq_or_imp,
    forall_eq, List.pairwise_cons, List.Pairwise.nil, and_true, ne_eq, IsEmpty.forall_iff,
    implies_true] at h
  obtain ⟨⟨hU, hR, hW, hX, hD⟩, ⟨⟨hUR, hRU⟩, ⟨hUW, hWU⟩, ⟨hUX, hXU⟩, ⟨hUD, hDU⟩⟩,
    ⟨⟨hRW, hWR⟩, ⟨hRX, hXR⟩, ⟨hRD, hDR⟩⟩, ⟨⟨hWX, hXW⟩, ⟨hWD, hDW⟩⟩, ⟨hXD, hDX⟩⟩ := h
  unfold spec_page_flags
  by_cases h1 : prot &&& C.PROT_READ ≠ 0 <;>
  by_cases h2 : (scause = 15 ∧ prot &&& C.PROT_WRITE ≠ 0) <;>
  by_cases h3 : prot &&& C.PROT_EXEC ≠ 0 <;>
  simp only [h1, h2, h3, if_true, if_false, and_or_right, Nat.and_self, Nat.or_zero,
    Nat.zero_or, Nat.zero_and, hUR, hRU, hUW, hWU, hUX, hXU, hUD, hDU, hRW, hWR, hRX, hXR,
    hRD, hDR, hWX, hXW, hWD, hDW, hXD, hDX, ne_eq, not_true_eq_false, not_false_eq_true,
    hU, hR, hW, hX, hD, and_self, iff_self, true_and, and_true, if_pos, if_neg]

/-- Claim C19: for a region that permits `PROT_WRITE`, a store fault (cause
15) on a page with a present mapping calls `kalloc` zero times: it logs the
single call `uvmsetdirtywrite` and only adds `PTE_W` and `PTE_D` to the existing
mapping, keeping its frame; two consecutive store faults on a present page log
two such calls and keep the frame; and when the first store fault is the first
touch and resolves it (the process is not killed), the second store fault
allocates no second frame: `kalloc` has been called once in all. -/
theorem store_fault_on_present_page_allocates_nothing (C : Consts) (env : Env) (s : State)
    (stval i : Nat) (r : virtual_memory_area)
    (hfind : first_index (holds (PGROUNDDOWN stval)) s.vma = some i) (hr : s.vma[i]? = some r)
    (hw : r.protection_flags &&& C.PROT_WRITE ≠ 0) :
    (walkaddr s (PGROUNDDOWN stval) ≠ 0 →
      ∃ pa perm, s.pagetable (PGROUNDDOWN stval) = some (pa, perm) ∧
        (usertrap_page_fault C env s 15 stval).pagetable
          = Function.update s.pagetable (PGROUNDDOWN stval)
            (some (pa, perm ||| (C.PTE_W ||| C.PTE_D))) ∧
        (usertrap_page_fault C env s 15 stval).log
          = s.log ++ [Event.uvmsetdirtywrite (PGROUNDDOWN stval)] ∧
        (usertrap_page_fault C env (usertrap_page_fault C env s 15 stval) 15 stval).log
          = s.log ++ [Event.uvmsetdirtywrite (PGROUNDDOWN stval),
              Event.uvmsetdirtywrite (PGROUNDDOWN stval)] ∧
        walkaddr (usertrap_page_fault C env (usertrap_page_fault C env s 15 stval) 15 stval)
          (PGROUNDDOWN stval) = pa) ∧
    (walkaddr s (PGROUNDDOWN stval) = 0 → s.killed = 0 →
      (usertrap_page_fault C env s 15 stval).killed = 0 →
      walkaddr (usertrap_page_fault C env s 15 stval) (PGROUNDDOWN stval) = env.kalloc ∧
      env.kalloc ≠ 0 ∧
      (usertrap_page_fault C env (usertrap_page_fault C env s 15 stval) 15 stval).log
        = (usertrap_page_fault C env s 15 stval).log
          ++ [Event.uvmsetdirtywrite (PGROUNDDOWN stval)] ∧
      walkaddr (usertrap_page_fault C env (usertrap_page_fault C env s 15 stval) 15 stval)
        (PGROUNDDOWN stval) = env.kalloc ∧
      List.count Event.kalloc
          (usertrap_page_fault C env (usertrap_page_fault C env s 15 stval) 15 stval).log
        = List.count Event.kalloc s.log + 1) := by
  refine ⟨?_, ?_⟩
  · intro hpresent
    obtain ⟨pa, perm, hpt, hpa, hpt1, hlog1, hvma1, _⟩ :=
      store_fault_present C env s stval i r hfind hr hw hpresent
    have hpt1v : (usertrap_page_fault C env s 15 stval).pagetable (PGROUNDDOWN stval)
        = some (pa, perm ||| (C.PTE_W ||| C.PTE_D)) := by
      rw [hpt1, Function.update_same]
    have hpresent1 : walkaddr (usertrap_page_fault C env s 15 stval) (PGROUNDDOWN stval) ≠ 0 := by
      unfold walkaddr
      rw [hpt1v]
      exact hpa
    obtain ⟨pa2, perm2, hpt2, _, hpt3, hlog2, _, _⟩ :=
      store_fault_present C env (usertrap_page_fault C env s 15 stval) stval i r
        (by rw [hvma1]; exact hfind) (by rw [hvma1]; exact hr) hw hpresent1
    rw [hpt1v] at hpt2
    simp only [Option.some.injEq, Prod.mk.injEq] at hpt2
    refine ⟨pa, perm, hpt, hpt1, hlog1, ?_, ?_⟩
    · rw [hlog2, hlog1, List.append_assoc]
      rfl
    · unfold walkaddr
      rw [hpt3, Function.update_same]
      exact hpt2.1.symm
  · intro habsent hk0 hk1
    have hfirst : ¬ ((15 : Nat) = 15 ∧ r.protection_flags &&& C.PROT_WRITE ≠ 0 ∧
        walkaddr s (PGROUNDDOWN stval) ≠ 0) := fun hc => hc.2.2 habsent
    rcases (first_touch C env s 15 stval i r hfind hr hfirst).2 with ⟨hk, _⟩ |
      ⟨hka, _, hvma1, hpt1, _, hcount⟩
    · rw [hk1] at hk
      exact absurd hk (by decide)
    · have hpt1v : (usertrap_page_fault C env s 15 stval).pagetable (PGROUNDDOWN stval)
          = some (env.kalloc, page_flags C 15 r.protection_flags) := by
        rw [hpt1, Function.update_same]
      have hwalk1 : walkaddr (usertrap_page_fault C env s 15 stval) (PGROUNDDOWN stval)
          = env.kalloc := by
        unfold walkaddr
        rw [hpt1v]
      obtain ⟨pa2, perm2, hpt2, _, hpt3, hlog2, _, _⟩ :=
        store_fault_present C env (usertrap_page_fault C env s 15 stval) stval i r
          (by rw [hvma1]; exact hfind) (by rw [hvma1]; exact hr) hw
          (by rw [hwalk1]; exact hka)
      rw [hpt1v] at hpt2
      simp only [Option.some.injEq, Prod.mk.injEq] at hpt2
      refine ⟨hwalk1, hka, hlog2, ?_, ?_⟩
      · unfold walkaddr
        rw [hpt3, Function.update_same]
        exact hpt2.1.symm
      · rw [hlog2, List.count_append, hcount]
        simp

theorem store_fault_on_present_page_allocates_nothing_witness :
    (usertrap_page_fault demo_consts demo_env demo_dirty 15 0x3ffffef008).log
      = demo_dirty.log ++ [Event.uvmsetdirtywrite 0x3ffffef000] ∧
    List.count Event.kalloc
        (usertrap_page_fault demo_consts demo_env
          (usertrap_page_fault demo_consts demo_env demo_untouched 15 0x3ffffef008) 15
          0x3ffffef008).log
      = List.count Event.kalloc demo_untouched.log + 1 := by
  obtain ⟨pa, perm, _, _, hlog, _⟩ :=
    (store_fault_on_present_page_allocates_nothing demo_consts demo_env demo_dirty 0x3ffffef008 0
      ⟨0x3ffffee000, 12288, 3, 1, 0, 0x2000, 1⟩ (by decide) (by decide) (by decide)).1
      (by decide)
  exact ⟨hlog,
    ((store_fault_on_present_page_allocates_nothing demo_consts demo_env demo_untouched
      0x3ffffef008 0 ⟨0x3ffffee000, 12288, 3, 1, 0, 0x2000, 1⟩ (by decide) (by decide)
      (by decide)).2 (by decide) (by decide) (by decide)).2.2.2.2⟩

/-- Claim C20: every call of `mappages` made by the fault handler passes
exactly the bits `PTE_U`, plus `PTE_R` iff the region has `PROT_READ`, plus
`PTE_W` and `PTE_D` iff the cause is a store fault (15) and the region has
`PROT_WRITE`, plus `PTE_X` iff the region has `PROT_EXEC` (bit by bit when the
five bits are apart); a first touch that is resolved makes that call for the
frame of `kalloc` and installs these bits; hence a load (13) or instruction
(12) fault, or any fault on a region lacking `PROT_WRITE`, leaves every mapping
it installs or changes without `PTE_W`. -/
theorem first_touch_permission_bits (C : Consts) (env : Env) (s : State)
    (scause stval i : Nat) (r : virtual_memory_area)
    (hfind : first_index (holds (PGROUNDDOWN stval)) s.vma = some i)
    (hr : s.vma[i]? = some r) :
    (∃ new, (usertrap_page_fault C env s scause stval).log = s.log ++ new ∧
      ∀ va1 size pa perm, Event.mappages va1 size pa perm ∈ new →
        perm = spec_page_flags C scause r.protection_flags ∧
        (PteBitsApart C →
          perm &&& C.PTE_U ≠ 0 ∧
          (perm &&& C.PTE_R ≠ 0 ↔ r.protection_flags &&& C.PROT_READ ≠ 0) ∧
          (perm &&& C.PTE_W ≠ 0 ↔
            (scause = 15 ∧ r.protection_flags &&& C.PROT_WRITE ≠ 0)) ∧
          (perm &&& C.PTE_D ≠ 0 ↔
            (scause = 15 ∧ r.protection_flags &&& C.PROT_WRITE ≠ 0)) ∧
          (perm &&& C.PTE_X ≠ 0 ↔ r.protection_flags &&& C.PROT_EXEC ≠ 0))) ∧
    (¬ (scause = 15 ∧ r.protection_flags &&& C.PROT_WRITE ≠ 0 ∧
        walkaddr s (PGROUNDDOWN stval) ≠ 0) →
      s.killed = 0 → (usertrap_page_fault C env s scause stval).killed = 0 →
      Event.mappages (PGROUNDDOWN stval) PGSIZE env.kalloc
          (spec_page_flags C scause r.protection_flags)
        ∈ (usertrap_page_fault C env s scause stval).log ∧
      (usertrap_page_fault C env s scause stval).pagetable (PGROUNDDOWN stval)
        = some (env.kalloc, spec_page_flags C scause r.protection_flags)) ∧
    (PteBitsApart C → (scause ≠ 15 ∨ r.protection_flags &&& C.PROT_WRITE = 0) →
      ∀ a pa perm, (usertrap_page_fault C env s scause stval).pagetable a = some (pa, perm) →
        s.pagetable a = some (pa, perm) ∨ perm &&& C.PTE_W = 0) := by
  refine ⟨?_, ?_, ?_⟩
  · by_cases hmark : scause = 15 ∧ r.protection_flags &&& C.PROT_WRITE ≠ 0 ∧
        walkaddr s (PGROUNDDOWN stval) ≠ 0
    · obtain ⟨h15, hw, hpresent⟩ := hmark
      subst h15
      obtain ⟨pa, perm, _, _, _, hlog, _, _⟩ :=
        store_fault_present C env s stval i r hfind hr hw hpresent
      refine ⟨_, hlog, ?_⟩
      intro va1 size pa1 perm1 hm
      simp at hm
    · obtain ⟨new, hlog, hall⟩ := (first_touch C env s scause stval i r hfind hr hmark).1
      refine ⟨new, hlog, ?_⟩
      intro va1 size pa perm hm
      have hp := (hall va1 size pa perm hm).2.2.2
      rw [page_flags_eq] at hp
      refine ⟨hp, ?_⟩
      intro hC
      rw [hp]
      exact spec_page_flags_bits C hC scause r.protection_flags
  · intro hfirst hk0 hk1
    rcases (first_touch C env s scause stval i r hfind hr hfirst).2 with ⟨hk, _⟩ |
      ⟨_, _, _, hpt, hmem, _⟩
    · rw [hk1] at hk
      exact absurd hk (by decide)
    · rw [page_flags_eq] at hpt hmem
      exact ⟨hmem, by rw [hpt, Function.update_same]⟩
  · intro hC hnw a pa perm hpt1
    have hfirst : ¬ (scause = 15 ∧ r.protection_flags &&& C.PROT_WRITE ≠ 0 ∧
        walkaddr s (PGROUNDDOWN stval) ≠ 0) := by
      rintro ⟨h1, h2, _⟩
      rcases hnw with h | h
      · exact h h1
      · exact h2 h
    rcases (first_touch C env s scause stval i r hfind hr hfirst).2 with ⟨_, hpt⟩ |
      ⟨_, _, _, hpt, _, _⟩
    · rw [hpt] at hpt1
      exact Or.inl hpt1
    · rw [hpt, page_flags_eq] at hpt1
      by_cases ha : a = PGROUNDDOWN stval
      · subst ha
        rw [Function.update_same] at hpt1
        simp only [Option.some.injEq, Prod.mk.injEq] at hpt1
        right
        rw [← hpt1.2]
        have hbits := (spec_page_flags_bits C hC scause r.protection_flags).2.2.1
        by_contra hc
        have := hbits.mp hc
        rcases hnw with h | h
        · exact h this.1
        · exact this.2 h
      · rw [Function.update_noteq ha] at hpt1
        exact Or.inl hpt1

theorem first_touch_permission_bits_witness :
    (Event.mappages 0x3ffffef000 PGSIZE 0x87000000 (16 ||| 2 ||| 0 ||| 0)
        ∈ (usertrap_page_fault demo_consts demo_env demo_untouched 13 0x3ffffef008).log ∧
      (usertrap_page_fault demo_consts demo_env demo_untouched 13 0x3ffffef008).pagetable
        0x3ffffef000 = some (0x87000000, 16 ||| 2 ||| 0 ||| 0)) ∧
    (∀ a pa perm,
      (usertrap_page_fault demo_consts demo_env demo_untouched 13 0x3ffffef008).pagetable a
        = some (pa, perm) →
      demo_untouched.pagetable a = some (pa, perm) ∨ perm &&& 4 = 0) :=
  ⟨(first_touch_permission_bits demo_consts demo_env demo_untouched 13 0x3ffffef008 0
      ⟨0x3ffffee000, 12288, 3, 1, 0, 0x2000, 1⟩ (by decide) (by decide)).2.1
      (by decide) (by decide) (by decide),
    (first_touch_permission_bits demo_consts demo_env demo_untouched 13 0x3ffffef008 0
      ⟨0x3ffffee000, 12288, 3, 1, 0, 0x2000, 1⟩ (by decide) (by decide)).2.2
      (by decide) (by decide)⟩

end Mmap

namespace Mmap

/-! ## First touch -/

/-- The four ways the first-touch path of the fault handler ends, with the
calls it logs: `kalloc` finds no frame; `readi` fails; `mappages` fails; or the
frame is mapped. -/
theorem first_touch_paths (C : Consts) (env : Env) (s : State) (scause stval i : Nat)
    (r : virtual_memory_area)
    (hfind : first_index (holds (PGROUNDDOWN stval)) s.vma = some i) (hr : s.vma[i]? = some r)
    (hfirst : ¬ (scause = 15 ∧ r.protection_flags &&& C.PROT_WRITE ≠ 0 ∧
      walkaddr s (PGROUNDDOWN stval) ≠ 0)) :
    (env.kalloc = 0 ∧
      (usertrap_page_fault C env s scause stval).log = s.log ++ [Event.kalloc] ∧
      (usertrap_page_fault C env s scause stval).killed = 1 ∧
      (usertrap_page_fault C env s scause stval).pagetable = s.pagetable) ∨
    (env.kalloc ≠ 0 ∧
      env.readi (s.file_ip r.mapped_file) env.kalloc
        (wrap64 ((PGROUNDDOWN stval : Int) - r.start_address + r.file_offset)) PGSIZE < 0 ∧
      (usertrap_page_fault C env s scause stval).log
        = s.log ++ [Event.kalloc, Event.memset env.kalloc 0 PGSIZE,
            Event.ilock (s.file_ip r.mapped_file),
            Event.readi (s.file_ip r.mapped_file) 0 env.kalloc
              (wrap64 ((PGROUNDDOWN stval : Int) - r.start_address + r.file_offset)) PGSIZE,
            Event.iunlock (s.file_ip r.mapped_file), Event.kfree env.kalloc] ∧
      (usertrap_page_fault C env s scause stval).killed = 1 ∧
      (usertrap_page_fault C env s scause stval).pagetable = s.pagetable) ∨
    (env.kalloc ≠ 0 ∧
      0 ≤ env.readi (s.file_ip r.mapped_file) env.kalloc
        (wrap64 ((PGROUNDDOWN stval : Int) - r.start_address + r.file_offset)) PGSIZE ∧
      env.mappages (PGROUNDDOWN stval) env.kalloc (page_flags C scause r.protection_flags) ≠ 0 ∧
      (usertrap_page_fault C env s scause stval).log
        = s.log ++ [Event.kalloc, Event.memset env.kalloc 0 PGSIZE,
            Event.ilock (s.file_ip r.mapped_file),
            Event.readi (s.file_ip r.mapped_file) 0 env.kalloc
              (wrap64 ((PGROUNDDOWN stval : Int) - r.start_address + r.file_offset)) PGSIZE,
            Event.iunlock (s.file_ip r.mapped_file),
            Event.mappages (PGROUNDDOWN stval) PGSIZE env.kalloc
              (page_flags C scause r.protection_flags),
            Event.kfree env.kalloc] ∧
      (usertrap_page_fault C env s scause stval).killed = 1 ∧
      (usertrap_page_fault C env s scause stval).pagetable = s.pagetable) ∨
    (env.kalloc ≠ 0 ∧
      0 ≤ env.readi (s.file_ip r.mapped_file) env.kalloc
        (wrap64 ((PGROUNDDOWN stval : Int) - r.start_address + r.file_offset)) PGSIZE ∧
      env.mappages (PGROUNDDOWN stval) env.kalloc (page_flags C scause r.protection_flags) = 0 ∧
      (usertrap_page_fault C env s scause stval).log
        = s.log ++ [Event.kalloc, Event.memset env.kalloc 0 PGSIZE,
            Event.ilock (s.file_ip r.mapped_file),
            Event.readi (s.file_ip r.mapped_file) 0 env.kalloc
              (wrap64 ((PGROUNDDOWN stval : Int) - r.start_address + r.file_offset)) PGSIZE,
            Event.iunlock (s.file_ip r.mapped_file),
            Event.mappages (PGROUNDDOWN stval) PGSIZE env.kalloc
              (page_flags C scause r.protection_flags)] ∧
      (usertrap_page_fault C env s scause stval).killed = s.killed ∧
      (usertrap_page_fault C env s scause stval).pagetable
        = Function.update s.pagetable (PGROUNDDOWN stval)
          (some (env.kalloc, page_flags C scause r.protection_flags))) := by
  unfold usertrap_page_fault
  simp only [hfind, getD_of_getElem? s.vma i r hr]
  rw [if_neg hfirst]
  generalize wrap64 ((PGROUNDDOWN stval : Int) - r.start_address + r.file_offset) = off
  generalize page_flags C scause r.protection_flags = perm
  generalize PGROUNDDOWN stval = va
  by_cases hk : env.kalloc = 0
  · rw [if_pos hk]
    exact Or.inl ⟨hk, by simp [err_log, record_log], err_killed _,
      by simp only [err_pagetable, record_pagetable]⟩
  · rw [if_neg hk]
    by_cases hread : env.readi (s.file_ip r.mapped_file) env.kalloc off PGSIZE < 0
    · rw [if_pos hread]
      exact Or.inr (Or.inl ⟨hk, hread, by simp [err_log, record_log], err_killed _,
        by simp only [err_pagetable, record_pagetable]⟩)
    · rw [if_neg hread]
      have hread0 : 0 ≤ env.readi (s.file_ip r.mapped_file) env.kalloc off PGSIZE := by omega
      by_cases hmap : env.mappages va env.kalloc perm ≠ 0
      · rw [if_pos hmap]
        exact Or.inr (Or.inr (Or.inl ⟨hk, hread0, hmap, by simp [err_log, record_log],
          err_killed _, by simp only [err_pagetable, record_pagetable]⟩))
      · rw [if_neg hmap]
        have hmap0 : env.mappages va env.kalloc perm = 0 := by
          by_contra hc; exact hmap hc
        exact Or.inr (Or.inr (Or.inr ⟨hk, hread0, hmap0, by simp [record_log],
          by simp only [record_killed], by simp only [record_pagetable]⟩))

/-- What the calls `memset(pa, 0, PGSIZE)` and `readi(ip, 0, pa, off, PGSIZE)`
of a first touch leave in the frame: the bytes of the file from `off` on,
zeros past the end of the file. -/
theorem replay_first_touch (F : Files) (mem : Nat → Nat) (pa ip off va perm : Nat) (j : Nat)
    (hj : j < PGSIZE) :
    replay F mem [Event.kalloc, Event.memset pa 0 PGSIZE, Event.ilock ip,
        Event.readi ip 0 pa off PGSIZE, Event.iunlock ip, Event.mappages va PGSIZE pa perm]
      (pa + j) = if off + j < F.size ip then F.content ip (off + j) else 0 := by
  simp only [replay, List.foldl, apply_event]
  have h1 : pa ≤ pa + j := Nat.le_add_right _ _
  have h2 : pa + j < pa + PGSIZE := by omega
  have h3 : pa + j - pa = j := by omega
  by_cases hs : off + j < F.size ip
  · simp [h1, h2, h3, hs]
  · simp [h1, h2, h3, hs]

end Mmap

namespace Mmap

theorem holds_start (va : Nat) (r : virtual_memory_area) (h : holds va r = true) :
    r.start_address ≤ va := by
  unfold holds at h
  simp only [Bool.and_eq_true, bne_iff_ne, ne_eq, decide_eq_true_eq] at h
  exact h.1.2

theorem PGROUNDDOWN_le (a : Nat) : PGROUNDDOWN a ≤ a := by
  unfold PGROUNDDOWN
  exact Nat.div_mul_le_self a PGSIZE

/-- Claim C21 as stated fails: on the demo process with three untouched pages
mapped, a load fault at the start of the region when `kalloc` finds no frame
logs the single call `kalloc`, leaves the page without a mapping and marks the
process killed: no frame is allocated, filled or mapped. -/
theorem first_touch_without_memory_maps_nothing :
    demo_untouched.vma[0]? = some ⟨0x3ffffee000, 12288, 3, 1, 0, 0x2000, 1⟩ ∧
    walkaddr demo_untouched 0x3ffffee000 = 0 ∧
    (usertrap_page_fault demo_consts no_memory_env demo_untouched 13 0x3ffffee000).log
      = demo_untouched.log ++ [Event.kalloc] ∧
    walkaddr (usertrap_page_fault demo_consts no_memory_env demo_untouched 13 0x3ffffee000)
      0x3ffffee000 = 0 ∧
    (usertrap_page_fault demo_consts no_memory_env demo_untouched 13 0x3ffffee000).killed = 1 := by
  decide

/-- Claim C21, amended: on a fault at the page-rounded address `a` inside
region `r` with no present mapping, when `kalloc` returns a frame, `readi` does
not fail and `mappages` succeeds, exactly one frame is allocated, zeroed with
`memset`, and filled by one `readi` of `PGSIZE` bytes from the inode of `r`'s
file at offset `r.file_offset + (a - r.start_address)`, and that frame is the
one mapped at `a`; with the modelled `memset` and `readi` the frame then holds
the bytes of the file from that offset on, zeros past the end of the file, so
for a region mapped with offset `0` a fault at its start yields the first
`PGSIZE` bytes of the file, zero-filled past its end.  Stated for a fault
address below `2 ^ 63` and a non-negative `int` file offset. -/
theorem first_touch_fills_frame (C : Consts) (env : Env) (s : State) (scause stval i : Nat)
    (r : virtual_memory_area)
    (hfind : first_index (holds (PGROUNDDOWN stval)) s.vma = some i) (hr : s.vma[i]? = some r)
    (habsent : walkaddr s (PGROUNDDOWN stval) = 0)
    (hoff : 0 ≤ r.file_offset ∧ r.file_offset < 2 ^ 31) (hst : stval < 2 ^ 63)
    (hka : env.kalloc ≠ 0)
    (hread : 0 ≤ env.readi (s.file_ip r.mapped_file) env.kalloc
      (r.file_offset + ((PGROUNDDOWN stval : Int) - r.start_address)).toNat PGSIZE)
    (hmap : env.mappages (PGROUNDDOWN stval) env.kalloc
      (page_flags C scause r.protection_flags) = 0) :
    (∃ new, (usertrap_page_fault C env s scause stval).log = s.log ++ new ∧
      new = [Event.kalloc, Event.memset env.kalloc 0 PGSIZE,
        Event.ilock (s.file_ip r.mapped_file),
        Event.readi (s.file_ip r.mapped_file) 0 env.kalloc
          (r.file_offset + ((PGROUNDDOWN stval : Int) - r.start_address)).toNat PGSIZE,
        Event.iunlock (s.file_ip r.mapped_file),
        Event.mappages (PGROUNDDOWN stval) PGSIZE env.kalloc
          (page_flags C scause r.protection_flags)] ∧
      List.count Event.kalloc new = 1 ∧
      (∀ (F : Files) (mem : Nat → Nat) (j : Nat), j < PGSIZE →
        replay F mem new (env.kalloc + j)
          = if (r.file_offset + ((PGROUNDDOWN stval : Int) - r.start_address)).toNat + j
                < F.size (s.file_ip r.mapped_file)
            then F.content (s.file_ip r.mapped_file)
              ((r.file_offset + ((PGROUNDDOWN stval : Int) - r.start_address)).toNat + j)
            else 0) ∧
      (r.file_offset = 0 → PGROUNDDOWN stval = r.start_address →
        ∀ (F : Files) (mem : Nat → Nat) (j : Nat), j < PGSIZE →
          replay F mem new (env.kalloc + j)
            = if j < F.size (s.file_ip r.mapped_file)
              then F.content (s.file_ip r.mapped_file) j else 0)) ∧
    walkaddr (usertrap_page_fault C env s scause stval) (PGROUNDDOWN stval) = env.kalloc ∧
    (usertrap_page_fault C env s scause stval).killed = s.killed := by
  have hfirst : ¬ (scause = 15 ∧ r.protection_flags &&& C.PROT_WRITE ≠ 0 ∧
      walkaddr s (PGROUNDDOWN stval) ≠ 0) := fun hc => hc.2.2 habsent
  obtain ⟨q, hq, hholds, _⟩ := first_index_some s.vma i hfind
  rw [hr] at hq
  simp only [Option.some.injEq] at hq
  subst hq
  have hstart := holds_start _ _ hholds
  have hle := PGROUNDDOWN_le stval
  have hoffeq : wrap64 ((PGROUNDDOWN stval : Int) - r.start_address + r.file_offset)
      = (r.file_offset + ((PGROUNDDOWN stval : Int) - r.start_address)).toNat := by
    have := wrap64_of_fits
      (i := (PGROUNDDOWN stval : Int) - r.start_address + r.file_offset) (by omega) (by omega)
    omega
  rcases first_touch_paths C env s scause stval i r hfind hr hfirst with
    ⟨h0, _⟩ | ⟨_, h0, _⟩ | ⟨_, _, h0, _⟩ | ⟨_, _, _, hlog, hk, hpt⟩
  · exact absurd h0 hka
  · rw [hoffeq] at h0; omega
  · exact absurd hmap h0
  · rw [hoffeq] at hlog
    refine ⟨⟨_, hlog, rfl, ?_, ?_, ?_⟩, ?_, hk⟩
    · simp [List.count_cons]
    · intro F mem j hj
      exact replay_first_touch F mem _ _ _ _ _ j hj
    · intro hz hva F mem j hj
      have h := replay_first_touch F mem env.kalloc (s.file_ip r.mapped_file)
        (r.file_offset + ((PGROUNDDOWN stval : Int) - r.start_address)).toNat
        (PGROUNDDOWN stval) (page_flags C scause r.protection_flags) j hj
      have hzero : (r.file_offset + ((PGROUNDDOWN stval : Int) - r.start_address)).toNat = 0 := by
        rw [hz, hva]; simp
      rw [hzero] at h ⊢
      simpa using h
    · unfold walkaddr
      rw [hpt, Function.update_same]

theorem first_touch_fills_frame_witness :
    (usertrap_page_fault demo_consts demo_env demo_untouched 13 0x3ffffee000).log
      = demo_untouched.log ++ [Event.kalloc, Event.memset 0x87000000 0 PGSIZE,
          Event.ilock 0x2100, Event.readi 0x2100 0 0x87000000 0 PGSIZE, Event.iunlock 0x2100,
          Event.mappages 0x3ffffee000 PGSIZE 0x87000000 (16 ||| 2)] ∧
    walkaddr (usertrap_page_fault demo_consts demo_env demo_untouched 13 0x3ffffee000)
      0x3ffffee000 = 0x87000000 := by
  obtain ⟨⟨new, hlog, hnew, _⟩, hwalk, _⟩ :=
    first_touch_fills_frame demo_consts demo_env demo_untouched 13 0x3ffffee000 0
      ⟨0x3ffffee000, 12288, 3, 1, 0, 0x2000, 1⟩ (by decide) (by decide) (by decide)
      (by decide) (by decide) (by decide) (by decide) (by decide)
  rw [hnew] at hlog
  exact ⟨hlog, hwalk⟩

/-- Claim C22 as stated fails: on the demo process a load fault at the start
of the untouched region whose `readi` returns 100, fewer than `PGSIZE` bytes,
is not fatal: the process is not killed, the frame is mapped at the page and
`kfree` is not called. -/
theorem short_read_is_not_fatal :
    short_read_env.readi 0x2100 0x87000000 0 PGSIZE = 100 ∧
    (usertrap_page_fault demo_consts short_read_env demo_untouched 13 0x3ffffee000).killed = 0 ∧
    walkaddr (usertrap_page_fault demo_consts short_read_env demo_untouched 13 0x3ffffee000)
      0x3ffffee000 = 0x87000000 ∧
    (usertrap_page_fault demo_consts short_read_env demo_untouched 13 0x3ffffee000).log
      = demo_untouched.log ++ [Event.kalloc, Event.memset 0x87000000 0 PGSIZE,
          Event.ilock 0x2100, Event.readi 0x2100 0 0x87000000 0 PGSIZE, Event.iunlock 0x2100,
          Event.mappages 0x3ffffee000 PGSIZE 0x87000000 (16 ||| 2)] := by
  decide

/-- Claim C22, amended: in the first-touch path with a frame from `kalloc`,
whenever `readi` fails (returns a negative value) the fault is fatal: the frame
is released with `kfree`, `mappages` is not called, the page table is as before
and the process is marked killed; a `readi` that returns a count that is not
negative, even below `PGSIZE`, is not fatal: when `mappages` succeeds the frame
is mapped at the page, `kfree` is not called and the process is not marked
killed. -/
theorem failed_read_is_fatal (C : Consts) (env : Env) (s : State) (scause stval i : Nat)
    (r : virtual_memory_area)
    (hfind : first_index (holds (PGROUNDDOWN stval)) s.vma = some i) (hr : s.vma[i]? = some r)
    (hfirst : ¬ (scause = 15 ∧ r.protection_flags &&& C.PROT_WRITE ≠ 0 ∧
      walkaddr s (PGROUNDDOWN stval) ≠ 0))
    (hka : env.kalloc ≠ 0) :
    (env.readi (s.file_ip r.mapped_file) env.kalloc
        (wrap64 ((PGROUNDDOWN stval : Int) - r.start_address + r.file_offset)) PGSIZE < 0 →
      (usertrap_page_fault C env s scause stval).killed = 1 ∧
      (usertrap_page_fault C env s scause stval).pagetable = s.pagetable ∧
      (usertrap_page_fault C env s scause stval).log
        = s.log ++ [Event.kalloc, Event.memset env.kalloc 0 PGSIZE,
            Event.ilock (s.file_ip r.mapped_file),
            Event.readi (s.file_ip r.mapped_file) 0 env.kalloc
              (wrap64 ((PGROUNDDOWN stval : Int) - r.start_address + r.file_offset)) PGSIZE,
            Event.iunlock (s.file_ip r.mapped_file), Event.kfree env.kalloc]) ∧
    (0 ≤ env.readi (s.file_ip r.mapped_file) env.kalloc
        (wrap64 ((PGROUNDDOWN stval : Int) - r.start_address + r.file_offset)) PGSIZE →
      env.mappages (PGROUNDDOWN stval) env.kalloc (page_flags C scause r.protection_flags) = 0 →
      (usertrap_page_fault C env s scause stval).killed = s.killed ∧
      (usertrap_page_fault C env s scause stval).pagetable (PGROUNDDOWN stval)
        = some (env.kalloc, page_flags C scause r.protection_flags) ∧
      ∃ new, (usertrap_page_fault C env s scause stval).log = s.log ++ new ∧
        Event.kfree env.kalloc ∉ new) := by
  refine ⟨?_, ?_⟩
  · intro hread
    rcases first_touch_paths C env s scause stval i r hfind hr hfirst with
      ⟨h0, _⟩ | ⟨_, _, hlog, hk, hpt⟩ | ⟨_, h0, _⟩ | ⟨_, h0, _⟩
    · exact absurd h0 hka
    · exact ⟨hk, hpt, hlog⟩
    · omega
    · omega
  · intro hread hmap
    rcases first_touch_paths C env s scause stval i r hfind hr hfirst with
      ⟨h0, _⟩ | ⟨_, h0, _⟩ | ⟨_, _, h0, _⟩ | ⟨_, _, _, hlog, hk, hpt⟩
    · exact absurd h0 hka
    · omega
    · exact absurd hmap h0
    · refine ⟨hk, by rw [hpt, Function.update_same], _, hlog, ?_⟩
      simp

theorem failed_read_is_fatal_witness :
    (usertrap_page_fault demo_consts { demo_env with readi := fun _ _ _ _ => -1 }
        demo_untouched 13 0x3ffffee000).killed = 1 ∧
    (usertrap_page_fault demo_consts { demo_env with readi := fun _ _ _ _ => -1 }
        demo_untouched 13 0x3ffffee000).pagetable = demo_untouched.pagetable ∧
    (usertrap_page_fault demo_consts { demo_env with readi := fun _ _ _ _ => -1 }
        demo_untouched 13 0x3ffffee000).log
      = demo_untouched.log ++ [Event.kalloc, Event.memset 0x87000000 0 PGSIZE,
          Event.ilock 0x2100, Event.readi 0x2100 0 0x87000000 0 PGSIZE, Event.iunlock 0x2100,
          Event.kfree 0x87000000] :=
  (failed_read_is_fatal demo_consts { demo_env with readi := fun _ _ _ _ => -1 }
    demo_untouched 13 0x3ffffee000 0 ⟨0x3ffffee000, 12288, 3, 1, 0, 0x2000, 1⟩
    (by decide) (by decide) (by decide) (by decide)).1 (by decide)

/-- A fault that is not a store fault on a region permitting `PROT_WRITE`
calls `kalloc` once, whether or not the page has a present mapping. -/
theorem fault_allocates_whatever_is_mapped (C : Consts) (env : Env) (s : State)
    (scause stval i : Nat) (r : virtual_memory_area)
    (hfind : first_index (holds (PGROUNDDOWN stval)) s.vma = some i) (hr : s.vma[i]? = some r)
    (hother : ¬ (scause = 15 ∧ r.protection_flags &&& C.PROT_WRITE ≠ 0)) :
    List.count Event.kalloc (usertrap_page_fault C env s scause stval).log
      = List.count Event.kalloc s.log + 1 := by
  have hfirst : ¬ (scause = 15 ∧ r.protection_flags &&& C.PROT_WRITE ≠ 0 ∧
      walkaddr s (PGROUNDDOWN stval) ≠ 0) := fun hc => hother ⟨hc.1, hc.2.1⟩
  rcases first_touch_paths C env s scause stval i r hfind hr hfirst with
    ⟨_, hlog, _⟩ | ⟨_, _, hlog, _⟩ | ⟨_, _, _, hlog, _⟩ | ⟨_, _, _, hlog, _⟩ <;>
  · rw [hlog, List.count_append]
    simp [List.count_cons]

/-- Claim C23 fails on the code: on the demo process the page of the read-only
region is present (frame `0x87000000`) after a load, and a store fault (cause
15) on it takes the first-touch path: `kalloc` is called again and `mappages`
is called for the page with the second frame `0x87001000`. -/
theorem store_fault_on_readonly_page_allocates_again :
    demo_readonly_touched.vma[0]? = some ⟨0x3ffffee000, 4096, 1, 2, 0, 0x1000, 1⟩ ∧
    walkaddr demo_readonly_touched 0x3ffffee000 = 0x87000000 ∧
    (usertrap_page_fault demo_consts demo_env2 demo_readonly_touched 15 0x3ffffee010).log
      = demo_readonly_touched.log ++ [Event.kalloc, Event.memset 0x87001000 0 PGSIZE,
          Event.ilock 0x1100, Event.readi 0x1100 0 0x87001000 0 PGSIZE, Event.iunlock 0x1100,
          Event.mappages 0x3ffffee000 PGSIZE 0x87001000 (16 ||| 2)] ∧
    walkaddr (usertrap_page_fault demo_consts demo_env2 demo_readonly_touched 15 0x3ffffee010)
      0x3ffffee000 = 0x87001000 := by
  decide

end Mmap

/-! ## Lazy allocation: `sys_sbrk` -/

namespace Lazy

theorem to_int_of_int {i : Int} (h : IsInt i) : to_int i = i := by
  unfold IsInt at h
  unfold to_int
  omega

theorem to_uint64_of_fits {i : Int} (h0 : 0 ≤ i) (h1 : i < 2 ^ 64) : (to_uint64 i : Int) = i := by
  unfold to_uint64
  rw [Int.toNat_of_nonneg (Int.emod_nonneg _ (by norm_num)), Int.emod_eq_of_lt h0 h1]

/-- What `sys_sbrk` does for `n >= 0` on a size below `2 ^ 31`, where `addr`
is the size, when the `int` sum `addr + n` does not overflow: with
`MAXVA >= 2 ^ 31 - 1` neither test rejects it, the size grows by `n`, the old size
is returned and nothing else changes.  (Where the sum overflows C leaves the
call undefined.) -/
theorem sbrk_grow_small (MAXVA : Nat) (env : Env) (p : Proc) (n : Int)
    (hsz : p.sz < 2 ^ 31) (hpos : 0 ≤ n) (hmax : 2 ^ 31 - 1 ≤ MAXVA)
    (hsmall : (p.sz : Int) + n < 2 ^ 31) :
    sys_sbrk MAXVA env p n = ({ p with sz := p.sz + n.toNat }, p.sz) := by
  have hsz' : (p.sz : Int) < 2 ^ 31 := by exact_mod_cast hsz
  have haddr : to_int p.sz = p.sz := to_int_of_int ⟨by omega, hsz'⟩
  have hmax' : (2 : Int) ^ 31 - 1 ≤ MAXVA := by
    have : ((2 ^ 31 - 1 : Nat) : Int) ≤ MAXVA := by exact_mod_cast hmax
    omega
  have hint : IsInt ((p.sz : Int) + n) := ⟨by omega, hsmall⟩
  unfold sys_sbrk
  simp only [haddr, hint, not_true_eq_false, if_false, ge_iff_le, hpos, if_true]
  rw [if_neg (by omega), if_neg (by omega)]
  have h1 : to_uint64 ((p.sz : Int) + n) = p.sz + n.toNat := by
    have := to_uint64_of_fits (i := (p.sz : Int) + n) (by omega) (by omega)
    omega
  have h2 : to_uint64 (p.sz : Int) = p.sz := by
    have := to_uint64_of_fits (i := (p.sz : Int)) (by omega) (by omega)
    omega
  rw [h1, h2]

/-- Claim C24 fails on the code: with `MAXVA = 2 ^ 38`, size `0x3FFFFFF000` and
`n = 8192` the sum exceeds `MAXVA`, yet `sys_sbrk` sets the size to
`0x4000001000` and returns `0xFFFFFFFFFFFFF000`, which is neither `-1` nor the
old size: `addr` holds the size cut to an `int`, `-4096`. -/
theorem sbrk_grows_past_MAXVA :
    0x3FFFFFF000 + 8192 > demo_MAXVA ∧ to_int 0x3FFFFFF000 = -4096 ∧
    (sys_sbrk demo_MAXVA demo_env (demo_proc 0x3FFFFFF000 0x3000) 8192).1.sz = 0x4000001000 ∧
    (sys_sbrk demo_MAXVA demo_env (demo_proc 0x3FFFFFF000 0x3000) 8192).2
      = 0xFFFFFFFFFFFFF000 ∧
    (0xFFFFFFFFFFFFF000 : Nat) ≠ ERR := by
  decide

/-- What `sys_sbrk` does for `n < 0` on a size below `2 ^ 31` when the sum
`sz + n` is not negative: below the boundary `PGROUNDUP(sp)` the call returns
`-1` and changes nothing; otherwise the size and the page table are the results
of `uvmdealloc(pagetable, sz, sz + n)` and the old size is returned. -/
theorem sbrk_shrink_small (MAXVA : Nat) (env : Env) (p : Proc) (n : Int)
    (hsz : p.sz < 2 ^ 31) (hneg : n < 0) (hsum : 0 ≤ (p.sz : Int) + n)
    (hsp : p.sp < 2 ^ 63) :
    ((p.sz : Int) + n < PGROUNDUP p.sp → sys_sbrk MAXVA env p n = (p, ERR)) ∧
    ((PGROUNDUP p.sp : Int) ≤ p.sz + n →
      sys_sbrk MAXVA env p n =
        ({ p with sz := (env.uvmdealloc p.pagetable p.sz (p.sz - n.natAbs)).2,
                  pagetable := (env.uvmdealloc p.pagetable p.sz (p.sz - n.natAbs)).1,
                  log := p.log ++ [Event.uvmdealloc p.sz (p.sz - n.natAbs)] }, p.sz)) := by
  have hsz' : (p.sz : Int) < 2 ^ 31 := by exact_mod_cast hsz
  have haddr : to_int p.sz = p.sz := to_int_of_int ⟨by omega, hsz'⟩
  have hint : IsInt ((p.sz : Int) + n) := ⟨by omega, by omega⟩
  have h1 : to_uint64 ((p.sz : Int) + n) = p.sz - n.natAbs := by
    have := to_uint64_of_fits (i := (p.sz : Int) + n) (by omega) (by omega)
    omega
  have h2 : to_uint64 (p.sz : Int) = p.sz := by
    have := to_uint64_of_fits (i := (p.sz : Int)) (by omega) (by omega)
    omega
  have hround : PGROUNDUP p.sp % 2 ^ 64 = PGROUNDUP p.sp := by
    unfold PGROUNDUP PGSIZE; omega
  have hge : ¬ n ≥ 0 := by omega
  refine ⟨?_, ?_⟩
  · intro hlow
    unfold sys_sbrk
    simp only [haddr, hint, not_true_eq_false, hge, if_false, h1, hround]
    rw [if_pos (by omega)]
  · intro hhigh
    unfold sys_sbrk
    simp only [haddr, hint, not_true_eq_false, hge, if_false, h1, h2, hround]
    rw [if_neg (by omega)]

/-- Claim C25 fails on the code: with size `0x4000`, stack pointer `0x3fe0`
(boundary `0x4000`) and `n = -0x8000` the sum `-0x4000` is below the boundary,
yet the comparison is made in `uint64`, where the sum is `0xFFFFFFFFFFFFC000`,
and `sys_sbrk` calls `uvmdealloc` and returns the old size `0x4000` instead of
`-1`. -/
theorem sbrk_negative_sum_is_not_rejected :
    (0x4000 : Int) + -0x8000 < PGROUNDUP 0x3fe0 ∧
    (sys_sbrk demo_MAXVA demo_env (demo_proc 0x4000 0x3fe0) (-0x8000)).2 = 0x4000 ∧
    (sys_sbrk demo_MAXVA demo_env (demo_proc 0x4000 0x3fe0) (-0x8000)).1.log
      = [Event.uvmdealloc 0x4000 0xFFFFFFFFFFFFC000] ∧
    (sys_sbrk demo_MAXVA demo_env (demo_proc 0x4000 0x3fe0) (-0x8000)).1.sz = 0x4000 ∧
    (0x4000 : Nat) ≠ ERR := by
  decide

end Lazy

namespace Mmap

/-! ## Batching of the write-back -/

end Mmap

/-! ## Buffer cache: `bget` -/

namespace Bio

/-- Claim C27 fails on the code: in the full demo cache the block `(1, 5)` is
not cached, the buffers at `0xa000` (bucket 5, timestamp 100) and `0xb000`
(bucket 6, timestamp 5) both have `refcnt == 0`, and `bget(1, 5)` recycles the
buffer at `0xa000` of the block's own bucket, not the one with the smallest
timestamp in the whole cache. -/
theorem bget_recycles_own_bucket_first :
    (∀ b ∈ buffers demo_cache, ¬ (b.dev = 1 ∧ b.blockno = 5)) ∧
    buffers demo_cache = [⟨0xa000, 1, 18, 1, 0, 100⟩, ⟨0xb000, 1, 19, 1, 0, 5⟩] ∧
    bget 2 200 (fun i => 0xa000 + i * 0x1000) demo_cache 1 5
      = some ({ allocated_buffer_count := 2,
                hash_buckets := [[], [], [], [], [], [⟨0xa000, 1, 5, 0, 1, 100⟩],
                  [⟨0xb000, 1, 19, 1, 0, 5⟩], [], [], [], [], [], []] }, 0xa000) := by
  decide

end Bio

/-! ## Lock discipline of `kalloc` -/

namespace Locks

theorem lock_run_append (a b : List LockEvent) :
    ∀ held, lock_run held (a ++ b) = (lock_run held a).bind (fun h => lock_run h b) := by
  induction a with
  | nil => intro held; rfl
  | cons e es ih =>
    intro held
    simp only [List.cons_append, lock_run]
    cases lock_step held e with
    | none => rfl
    | some h1 => exact ih h1

theorem lock_run_pair (i : Nat) : lock_run none [LockEvent.acquire i, LockEvent.release i]
    = some none := by
  simp [lock_run, lock_step]

theorem steal_scan_locks_ok (NCPU : Nat) (seen : Nat → Nat) :
    ∀ n t, lock_run none (steal_scan_locks NCPU seen n t).1 = some none := by
  intro n
  induction n with
  | zero => intro t; rfl
  | succ n ih =>
    intro t
    unfold steal_scan_locks
    simp only
    generalize (if t + 1 = NCPU then 0 else t + 1) = target
    by_cases hs : seen target ≠ 0
    · rw [if_pos hs]
      exact lock_run_pair _
    · rw [if_neg hs]
      have h := ih target
      simp only [lock_run, lock_step, if_true]
      exact h

/-- A sequence of lock calls in which every `acquire` is made with no list
lock held never holds two. -/
theorem holds_from_of_lock_run :
    ∀ (trace : List LockEvent) (held : Option Nat) (k : Nat),
      (lock_run held trace).isSome = true →
      (holds_from held.toList (trace.take k)).length ≤ 1 := by
  intro trace
  induction trace with
  | nil =>
    intro held k _
    cases held <;> simp [holds_from]
  | cons e es ih =>
    intro held k h
    cases k with
    | zero => cases held <;> simp [holds_from]
    | succ k =>
      simp only [List.take_succ_cons]
      cases e with
      | acquire i =>
        cases held with
        | some j => simp [lock_run, lock_step] at h
        | none =>
          simp only [lock_run, lock_step, if_true] at h
          exact ih (some i) k h
      | release i =>
        cases held with
        | none => simp [lock_run, lock_step] at h
        | some j =>
          by_cases hij : j = i
          · subst hij
            simp only [lock_run, lock_step, if_true] at h
            have := ih none k h
            simpa [holds_from] using this
          · have hne : ¬ (some j = some i) := by simpa using hij
            simp [lock_run, lock_step, hne] at h

/-- Claim C28: in every run of `kalloc`, whatever the list heads it reads, the
calling core acquires a list lock only while it holds none and releases only
the lock it holds, ending with none held; so it holds at most one list lock at
any moment, each victim's lock is released before the next victim's lock is
acquired, and the caller's own lock is acquired for the splice only after the
victim's lock has been released. -/
theorem kalloc_holds_one_lock_at_a_time (NCPU : Nat) (seen : Nat → Nat) (cpu : Nat) :
    lock_run none (kalloc_locks NCPU seen cpu) = some none ∧
    ∀ k, (held_after ((kalloc_locks NCPU seen cpu).take k)).length ≤ 1 := by
  have hrun : lock_run none (kalloc_locks NCPU seen cpu) = some none := by
    unfold kalloc_locks
    rw [lock_run_append, lock_run_pair]
    simp only [Option.some_bind]
    by_cases hs : seen cpu ≠ 0
    · rw [if_pos hs]
      rfl
    · rw [if_neg hs]
      rw [lock_run_append, steal_scan_locks_ok]
      simp only [Option.some_bind]
      by_cases hr : (steal_scan_locks NCPU seen (NCPU - 1) cpu).2 = true
      · rw [if_pos hr]
        exact lock_run_pair _
      · rw [if_neg hr]
        rfl
  refine ⟨hrun, fun k => ?_⟩
  have := holds_from_of_lock_run (kalloc_locks NCPU seen cpu) none k (by rw [hrun]; rfl)
  exact this

end Locks

namespace Locks

/-- The lock calls of the scan report a stolen list exactly when the scan of
the state with these list heads returns one. -/
theorem steal_scan_locks_agrees (NCPU fuel : Nat) (s : KMem) :
    ∀ (n t : Nat) (s1 : KMem) (stolen : Nat),
      steal_scan NCPU fuel s n t = some (s1, stolen) →
      ((steal_scan_locks NCPU s.freelist n t).2 = true ↔ stolen ≠ 0) := by
  intro n
  induction n with
  | zero =>
    intro t s1 stolen h
    simp only [steal_scan, Option.some.injEq, Prod.mk.injEq] at h
    simp [steal_scan_locks, h.2.symm]
  | succ n ih =>
    intro t s1 stolen h
    unfold steal_scan at h
    unfold steal_scan_locks
    simp only at h ⊢
    generalize (if t + 1 = NCPU then 0 else t + 1) = target at h ⊢
    by_cases hs : s.freelist target ≠ 0
    · rw [if_pos hs] at h ⊢
      unfold steal_half at h
      simp only at h
      cases hw : midpoint_walk s.next fuel (s.freelist target) (s.next (s.freelist target)) with
      | none => rw [hw] at h; exact absurd h (by simp)
      | some slow =>
        rw [hw] at h
        simp only [Option.some.injEq, Prod.mk.injEq] at h
        rw [← h.2]
        simp [hs]
    · rw [if_neg hs] at h ⊢
      exact ih target s1 stolen h

end Locks

namespace Bio

/-- The scan of a chain that ends without a hit: `min_timestamp` never grows,
no buffer of the chain with `refcnt == 0` has a smaller timestamp, and
`min_buffer_ptr` is either as before or a buffer of the chain with
`refcnt == 0` and that timestamp. -/
theorem scan_done (dev blockno : Nat) (own : Bool) :
    ∀ (chain : List buf) (i : Nat) (m : Option Nat) (t : Nat) (m1 : Option Nat) (t1 : Nat),
      scan dev blockno own chain i m t = Scan.done m1 t1 →
      t1 ≤ t ∧ (∀ b ∈ chain, b.refcnt = 0 → t1 ≤ b.timestamp) ∧
        ((m1 = m ∧ t1 = t) ∨
          ∃ j b, m1 = some (i + j) ∧ chain[j]? = some b ∧ b.refcnt = 0 ∧ b.timestamp = t1) := by
  intro chain
  induction chain with
  | nil =>
    intro i m t m1 t1 h
    simp only [scan, Scan.done.injEq] at h
    exact ⟨by omega, by simp, Or.inl ⟨h.1.symm, h.2.symm⟩⟩
  | cons b bs ih =>
    intro i m t m1 t1 h
    unfold scan at h
    split at h
    · exact absurd h (by simp)
    · split at h
      · rename_i hfree
        obtain ⟨hle, hall, hwho⟩ := ih _ _ _ _ _ h
        refine ⟨by omega, ?_, ?_⟩
        · intro c hc hz
          rcases List.mem_cons.mp hc with hc | hc
          · subst hc; exact hle
          · exact hall c hc hz
        · right
          rcases hwho with ⟨hm, ht⟩ | ⟨j, c, hm, hc, hz, ht⟩
          · exact ⟨0, b, by simpa using hm, by simp, hfree.1, ht.symm⟩
          · exact ⟨j + 1, c, by rw [hm]; congr 1; omega, by simpa using hc, hz, ht⟩
      · rename_i hno
        obtain ⟨hle, hall, hwho⟩ := ih _ _ _ _ _ h
        refine ⟨hle, ?_, ?_⟩
        · intro c hc hz
          rcases List.mem_cons.mp hc with hc | hc
          · subst hc
            have : ¬ c.timestamp < t := fun hlt => hno ⟨hz, hlt⟩
            omega
          · exact hall c hc hz
        · rcases hwho with hsame | ⟨j, c, hm, hc, hz, ht⟩
          · exact Or.inl hsame
          · exact Or.inr ⟨j + 1, c, by rw [hm]; congr 1; omega, by simpa using hc, hz, ht⟩

/-- The buffer the scan of one bucket picks has `refcnt == 0` and the
smallest timestamp among the buffers of that bucket with `refcnt == 0`. -/
theorem scan_picks_bucket_minimum (dev blockno : Nat) (own : Bool) (chain : List buf)
    (i t1 : Nat) (h : scan dev blockno own chain 0 none (2 ^ 32 - 1) = Scan.done (some i) t1) :
    ∃ b, chain[i]? = some b ∧ b.refcnt = 0 ∧ b.timestamp = t1 ∧
      ∀ c ∈ chain, c.refcnt = 0 → b.timestamp ≤ c.timestamp := by
  obtain ⟨_, hall, hwho⟩ := scan_done dev blockno own chain 0 none (2 ^ 32 - 1) (some i) t1 h
  rcases hwho with ⟨hm, _⟩ | ⟨j, b, hm, hb, hz, ht⟩
  · exact absurd hm (by simp)
  · simp only [Option.some.injEq, Nat.zero_add] at hm
    subst hm
    exact ⟨b, hb, hz, ht, fun c hc hcz => by rw [ht]; exact hall c hc hcz⟩

end Bio

namespace Mmap

/-! ## Alignment of the regions -/

theorem aligned_set (vma : List virtual_memory_area) (i : Nat) (q : virtual_memory_area)
    (h : Aligned vma)
    (hq : q.is_valid ≠ 0 → q.start_address % PGSIZE = 0 ∧ q.file_offset % (PGSIZE : Int) = 0) :
    Aligned (vma.set i q) := by
  intro r hr hv
  rcases List.mem_or_eq_of_mem_set hr with hm | he
  · exact h r hm hv
  · subst he
    exact hq hv

theorem vma_logExtends {s s1 : State} (h : LogExtends s s1) : s1.vma = s.vma := by
  obtain ⟨a, rfl⟩ := h
  rfl

theorem mmap_aligned (C : Consts) (s : State) (length : Int)
    (protection_flags mapping_flags : Nat) (fd : Int) (file_offset : Int)
    (h : Aligned s.vma) :
    Aligned (sys_mmap C s length protection_flags mapping_flags fd file_offset).1.vma := by
  rcases mmap_cases C s length protection_flags mapping_flags fd file_offset with h1 | h1
  · rw [h1]; exact h
  · obtain ⟨f, i, _, _, _, _, hal, _, _, hres⟩ := h1
    rw [hres]
    exact aligned_set s.vma i _ h (fun _ => ⟨mmap_address_mod C s.vma, hal⟩)

theorem munmap_aligned (C : Consts) (env : Env) (s : State) (addr : Nat) (len : Int)
    (hlen : len % (PGSIZE : Int) = 0) (h : Aligned s.vma) (s1 : State) (v : Nat)
    (hrun : sys_munmap C env s addr len = some (Outcome.returned s1 v)) :
    Aligned s1.vma := by
  rcases munmap_cases C env s addr len _ hrun with ⟨ho, _⟩ | ⟨ho, _⟩ | ⟨i, t, s2, hal, hpos, _, ht, _, hw⟩
  · simp only [Outcome.returned.injEq] at ho
    rw [ho.1]; exact h
  · simp only [Outcome.returned.injEq] at ho
    rw [ho.1]; exact h
  · have htm : t ∈ s.vma := List.getElem?_mem ht
    rcases hw with ⟨hw, ho⟩ | ⟨hw, ho⟩
    · simp only [Outcome.returned.injEq] at ho
      rw [ho.1, vma_logExtends (write_back_phase_logExtends C env s s2 t addr len false hw)]
      exact h
    · have hv2 : s2.vma = s.vma :=
        vma_logExtends (write_back_phase_logExtends C env s s2 t addr len true hw)
      unfold update_vma at ho
      split at ho
      · simp only [Outcome.returned.injEq] at ho
        rw [ho.1]
        show Aligned (s2.vma.set i zero_vma)
        rw [hv2]
        exact aligned_set s.vma i _ h (fun hc => absurd rfl hc)
      · split at ho
        · rename_i hstart
          simp only [Outcome.returned.injEq] at ho
          rw [ho.1]
          show Aligned (s2.vma.set i _)
          rw [hv2]
          refine aligned_set s.vma i _ h ?_
          intro hv
          obtain ⟨h1, h2⟩ := h t htm hv
          refine ⟨?_, ?_⟩
          · show wrap64 ((t.start_address : Int) + len) % PGSIZE = 0
            unfold wrap64
            unfold PGSIZE at *
            omega
          · show to_int32 (t.file_offset + len) % (PGSIZE : Int) = 0
            unfold to_int32
            unfold PGSIZE at *
            omega
        · split at ho
          · simp only [Outcome.returned.injEq] at ho
            rw [ho.1]
            show Aligned (s2.vma.set i _)
            rw [hv2]
            exact aligned_set s.vma i _ h (fun hv => h t htm hv)
          · exact absurd ho (by simp)

theorem run_aligned (C : Consts) :
    ∀ (calls : List Call) (s s1 : State), Aligned s.vma →
      (∀ c ∈ calls, c.page_length) → run C s calls = some s1 → Aligned s1.vma := by
  intro calls
  induction calls with
  | nil =>
    intro s s1 h _ hrun
    simp only [run, Option.some.injEq] at hrun
    rw [← hrun]; exact h
  | cons c cs ih =>
    intro s s1 h hlen hrun
    have hc := hlen c (List.mem_cons_self _ _)
    have hcs : ∀ d ∈ cs, d.page_length := fun d hd => hlen d (List.mem_cons_of_mem _ hd)
    cases c with
    | mmap length prot flags fd off =>
      simp only [run, step] at hrun
      exact ih _ s1 (mmap_aligned C s length prot flags fd off h) hcs hrun
    | munmap env addr len =>
      simp only [run, step] at hrun
      cases ho : sys_munmap C env s addr len with
      | none => rw [ho] at hrun; exact absurd hrun (by simp)
      | some o =>
        rw [ho] at hrun
        cases o with
        | panicked s2 => exact absurd hrun (by simp)
        | returned s2 v =>
          simp only at hrun
          exact ih _ s1 (munmap_aligned C env s addr len hc h s2 v ho) hcs hrun

/-- Claim C29 as stated fails: from the empty table of the demo process,
`sys_mmap` of two pages followed by the successful `sys_munmap(start, 100)`
leaves slot 0 valid with `start_address = 0x3ffffee064` and `file_offset =
100`, neither a multiple of `PGSIZE`. -/
theorem unaligned_unmap_length_breaks_alignment :
    (∀ r ∈ demo_state.vma, r = zero_vma) ∧
    (sys_mmap demo_consts demo_state 8192 3 1 1 0).2 = 0x3ffffee000 ∧
    returns (sys_munmap demo_consts demo_env demo_mapped 0x3ffffee000 100) 0 = true ∧
    final_vma (run demo_consts demo_state
        [Call.mmap 8192 3 1 1 0, Call.munmap demo_env 0x3ffffee000 100])
      = some [⟨0x3ffffee064, 8092, 3, 1, 100, 0x2000, 1⟩, zero_vma, zero_vma] ∧
    0x3ffffee064 % PGSIZE ≠ 0 ∧ (100 : Int) % (PGSIZE : Int) ≠ 0 := by
  decide

/-- Claim C29, amended: starting from an empty VMA table, after every sequence
of `sys_mmap` and `sys_munmap` calls that all return and whose `sys_munmap`
lengths are multiples of `PGSIZE`, every valid region's `start_address` and
`file_offset` are multiples of `PGSIZE`. -/
theorem regions_stay_aligned (C : Consts) (s s1 : State) (calls : List Call)
    (hempty : ∀ r ∈ s.vma, r = zero_vma) (hlen : ∀ c ∈ calls, c.page_length)
    (hrun : run C s calls = some s1) :
    ∀ r ∈ s1.vma, r.is_valid ≠ 0 →
      r.start_address % PGSIZE = 0 ∧ r.file_offset % (PGSIZE : Int) = 0 :=
  run_aligned C calls s s1
    (fun r hr hv => by rw [hempty r hr] at hv; exact absurd rfl hv) hlen hrun

theorem regions_stay_aligned_witness : Aligned demo_final.vma :=
  regions_stay_aligned demo_consts demo_state demo_final demo_calls (by decide) (by decide)
    demo_final_eq

end Mmap

/-! ## Direct copy from user memory: `copyin_new` -/

namespace Vmcopyin

/-- What `copyin_new` does: it returns `0` exactly when the end `srcva + len`
of the range lies strictly below the process size (so the sum does not overflow
and `srcva` is below the size too); then the `len` bytes are copied and the
counter goes up by one; otherwise it returns `-1` and changes nothing. -/
theorem copyin_new_spec (k : Kernel) (sz dst srcva len : Nat) (hsz : sz < 2 ^ 64)
    (hsrc : srcva < 2 ^ 64) (hlen : len < 2 ^ 64) :
    ((copyin_new k sz dst srcva len).2 = 0 ↔ srcva + len < sz) ∧
    (srcva + len < sz →
      copyin_new k sz dst srcva len =
        ({ k with mem := memmove k.mem dst srcva len, copy_count := k.copy_count + 1 }, 0)) ∧
    (¬ srcva + len < sz → copyin_new k sz dst srcva len = (k, -1)) := by
  by_cases h : srcva + len < sz
  · have hc : ¬ (srcva ≥ sz ∨ (srcva + len) % 2 ^ 64 ≥ sz ∨ (srcva + len) % 2 ^ 64 < srcva) := by
      omega
    have he : copyin_new k sz dst srcva len =
        ({ k with mem := memmove k.mem dst srcva len, copy_count := k.copy_count + 1 }, 0) := by
      unfold copyin_new
      rw [if_neg hc]
    refine ⟨?_, fun _ => he, fun hn => absurd h hn⟩
    rw [he]
    simp [h]
  · have hc : srcva ≥ sz ∨ (srcva + len) % 2 ^ 64 ≥ sz ∨ (srcva + len) % 2 ^ 64 < srcva := by
      omega
    have he : copyin_new k sz dst srcva len = (k, -1) := by
      unfold copyin_new
      rw [if_pos hc]
    refine ⟨?_, fun hp => absurd hp h, fun _ => he⟩
    rw [he]
    simp [h]

/-- Claim C30 fails on the code: for a process of size `4096` the range
`[4000, 4096)` lies inside the process's memory (`4000 + 96 <= 4096`, no
overflow), yet `copyin_new` returns `-1`; the sibling `copyinstr_new` does read
the last byte `4095` of that range. -/
theorem copyin_new_rejects_range_ending_at_size :
    4000 + 96 ≤ 4096 ∧ 4000 + 96 < 2 ^ 64 ∧
    (copyin_new demo_kernel 4096 0x80100000 4000 96).2 = -1 ∧
    copyinstr_new_reads 4096 4000 96 95 = true := by
  decide

end Vmcopyin
